import Mathlib

/-!
# MyTerm: scrollback, history, jobs, signals, command line and completion

A shallow embedding of `src/myterm_final.c` (the bounded logs, the history
search helpers, the job table and its polling by `check_jobs`, the signal
handlers and their mailbox, `run_command` with its builtins and its pipeline
launch, `autocomplete`, and the key handlers that edit the input line)
together with theorems about it.

Conventions of the embedding.

* A C string is the list of its bytes before the terminating NUL, one `Char`
  per byte (`CStr`).  Pointer arguments are taken to be non-NULL and `malloc`
  and `strdup` to succeed.
* An array together with its live count (`lines`/`line_count`,
  `history`/`hist_count`, `jobs`/`job_count`) is the list of its live slots
  `a[0 .. count)`; the count is the length of that list.
* `int` results keep the C convention (`-1` for "not found") and are `Int`.
* Where the source bounds a copy (`strncpy`, `snprintf`, a guard on a count)
  the bound is part of the embedding; a copy made with `strcpy` into an array
  has no result (`none`) when the text and its terminator do not fit the
  array.
* The operating system enters as arguments: the content of the history file,
  the listing of a directory, the matches of a glob pattern, the results of
  `pipe`, `fork`, `read`, `waitpid`, `chdir` and `kill`.  What a call creates
  outside the program state (signals sent, threads, pipes and children) is
  recorded next to the state.
-/

namespace MyTerm

/-! ## Definitions -/

/-- A NUL-terminated C string: its bytes, without the terminator. -/
abbrev CStr := List Char

/-- The constant `#define MAX_HISTORY 10000`. -/
def MAX_HISTORY : Nat := 10000

/-- The constant `#define MAX_LINES 20000`. -/
def MAX_LINES : Nat := 20000

/-- The constant `#define INPUT_MAX 8192`. -/
def INPUT_MAX : Nat := 8192

/-- The constant `#define MAX_JOBS 64`. -/
def MAX_JOBS : Nat := 64

/-- The constant `PATH_MAX` of `<limits.h>` on Linux. -/
def PATH_MAX : Nat := 4096

/-- The type `struct Job`: process id, output descriptor, active flag, label. -/
structure Job where
  pid : Int
  master_fd : Int
  active : Int
  cmd : CStr
deriving DecidableEq, Repr

/-- The type `struct TextBuffer`: the live slots `lines[0 .. line_count)`. -/
structure TextBuffer where
  lines : List CStr
deriving DecidableEq, Repr

/-- The field `line_count`. -/
def TextBuffer.line_count (tb : TextBuffer) : Nat := tb.lines.length

/-- The function `tb_init`: `tb->line_count = 0`. -/
def tb_init : TextBuffer := ⟨[]⟩

/-- Lines 115-121 of `tb_append`: when `line_count >= MAX_LINES` the slot
`lines[0]` is freed, the remaining slots are moved down by one and
`line_count` is decremented; then `lines[line_count++] = line`. -/
def tb_store (tb : TextBuffer) (line : CStr) : TextBuffer :=
  let kept := if tb.lines.length ≥ MAX_LINES then tb.lines.drop 1 else tb.lines
  ⟨kept ++ [line]⟩

/-- The `while (*p)` loop of `tb_append`; `p` is the text not yet consumed.
`strchr (p, '\n')` splits `p` into the bytes before the first newline
(`takeWhile`) and the rest starting at that newline (`dropWhile`, empty when
`strchr` returns NULL).  The first argument bounds the number of iterations;
`tb_append` passes the length of the text, which is never exhausted
(`tb_append_loop_fuel`). -/
def tb_append_loop : Nat → TextBuffer → List Char → TextBuffer
  | 0, tb, _ => tb
  | fuel + 1, tb, p =>
    if p = [] then tb
    else
      let line := p.takeWhile (fun c => c != '\n')
      let tb1 := tb_store tb line
      match p.dropWhile (fun c => c != '\n') with
      | [] => tb1
      | _ :: rest => tb_append_loop fuel tb1 rest

/-- The function `tb_append (tb, s)`; the redraw flag it may set is not part of
the buffer. -/
def tb_append (tb : TextBuffer) (s : CStr) : TextBuffer :=
  tb_append_loop s.length tb s

/-- The last `n` elements of a list. -/
def lastN {α : Type} (n : Nat) (l : List α) : List α := l.drop (l.length - n)

/-- The specification's reading of the lines of a text: the text split on
the newline byte. -/
def splitLines (s : CStr) : List CStr := s.splitOn '\n'

/-- The text split on the newline byte, where a final empty piece (that of an
empty text, or the one after a trailing newline) is not a line. -/
def visibleLines (s : CStr) : List CStr :=
  let segs := s.splitOn '\n'
  if segs.getLast? = some [] then segs.dropLast else segs

/-- The type `struct Tab`, the fields the history, the scrollback and the job table
use: `input` is `input[0 .. input_len)`, `history` is
`history[0 .. hist_count)`, `jobs` is `jobs[0 .. job_count)`. -/
structure Tab where
  tb : TextBuffer
  input : CStr
  jobs : List Job
  scroll_offset : Int
  multiline_mode : Int
  history : List CStr
  hist_index : Int
  cursor_pos : Int
deriving DecidableEq, Repr

/-- The field `hist_count`. -/
def Tab.hist_count (t : Tab) : Nat := t.history.length

/-- The field `job_count`. -/
def Tab.job_count (t : Tab) : Nat := t.jobs.length

/-- The field `input_len`. -/
def Tab.input_len (t : Tab) : Nat := t.input.length

/-- The bytes one `fgets` call transfers when at most `k` bytes fit: it stops
after a newline, after `k` bytes, or at the end of the stream.  The result is
the bytes read and the stream that is left. -/
def fgets_read : Nat → List Char → List Char × List Char
  | 0, fp => ([], fp)
  | _ + 1, [] => ([], [])
  | k + 1, c :: fp =>
    if c = '\n' then ([c], fp)
    else
      let r := fgets_read k fp
      (c :: r.1, r.2)

/-- The call `fgets (line, size, fp)`: NULL (`none`) at the end of the stream, else at
most `size - 1` bytes. -/
def fgets (size : Nat) (fp : List Char) : Option (List Char × List Char) :=
  if fp = [] then none else some (fgets_read (size - 1) fp)

/-- The `while (fgets (line, sizeof (line), fp))` loop of `load_history`:
`line[strcspn (line, "\n")] = 0` keeps the bytes before the first newline, an
empty line is skipped, and the line is stored only while
`hist_count < MAX_HISTORY`.  The first argument bounds the number of
iterations; `load_history` passes the length of the stream, which is never
exhausted (`load_history_loop_fuel`). -/
def load_history_loop : Nat → List Char → List CStr → List CStr
  | 0, _, hist => hist
  | fuel + 1, fp, hist =>
    match fgets INPUT_MAX fp with
    | none => hist
    | some (buf, fp1) =>
      let line := buf.takeWhile (fun c => c != '\n')
      if line.length = 0 then load_history_loop fuel fp1 hist
      else if hist.length < MAX_HISTORY then load_history_loop fuel fp1 (hist ++ [line])
      else load_history_loop fuel fp1 hist

/-- The function `load_history (t)`; `file` is the content of `~/.myterm_history`, `none`
when `fopen` fails. -/
def load_history (file : Option (List Char)) (t : Tab) : Tab :=
  match file with
  | none => t
  | some fp =>
    let t1 := { t with history := load_history_loop fp.length fp t.history }
    { t1 with tb := tb_append t1.tb "Command history loaded from ~/.myterm_history".toList }

/-- The function `save_history (t)`: the text written to the history file (when `fopen`
succeeds), one `fprintf (fp, "%s\n", ...)` per entry. -/
def save_history (t : Tab) : List Char :=
  t.history.flatMap (fun e => e ++ ['\n'])

/-- The function `create_tab`, the initialisation of the new tab (the `MAX_TABS` guard and
the counters `tab_count` and `active` are outside `struct Tab`). -/
def create_tab (file : Option (List Char)) : Tab :=
  let t : Tab :=
    { tb := tb_init, input := [], jobs := [], scroll_offset := 0, multiline_mode := 0,
      history := [], hist_index := -1, cursor_pos := 0 }
  let t1 := { t with tb := tb_append t.tb "New tab created.".toList }
  load_history file t1

/-- The function `run_command`, lines 797-814: the echo of the input into the scrollback
and the history append, up to the command dispatch.  Nothing after line 814
writes `history` or `hist_count` (lines 868-872 only read them), so the
history on return from `run_command` is the history computed here.  At
capacity the oldest entry is freed, the others are moved down by one slot and
the input is stored in the last slot; `hist_count` is then unchanged. -/
def run_command_history (t : Tab) : Tab :=
  if t.input.length = 0 then t
  else
    let t1 := { t with tb := tb_append t.tb t.input }
    let t2 :=
      if t1.history.length < MAX_HISTORY then
        { t1 with history := t1.history ++ [t1.input] }
      else
        { t1 with history := t1.history.drop 1 ++ [t1.input] }
    { t2 with hist_index := -1, scroll_offset := 0 }

/-- The Enter key in the main loop (lines 1458-1476), as far as the input
line and the history go: a trailing backslash is replaced by a newline and the
line continues; otherwise the line is submitted and cleared. -/
def key_enter (t : Tab) : Tab :=
  if t.input.length > 0 ∧ t.input.getLast? = some '\\' then
    { t with input := t.input.dropLast ++ ['\n'], multiline_mode := 1 }
  else
    let t1 := run_command_history t
    { t1 with input := [], cursor_pos := 0, multiline_mode := 0 }

/-- The tabs a run of the program can hold: a tab starts in `create_tab`,
every submitted line goes through `run_command`, and every other operation
leaves the history as it is. -/
inductive Reachable : Tab → Prop
  | create (file : Option (List Char)) : Reachable (create_tab file)
  | submit (t : Tab) : Reachable t → Reachable (run_command_history t)
  | other (t u : Tab) : Reachable t → u.history = t.history → Reachable u

/-- The test `strstr (h, sub) != NULL`: `sub` occurs in `h` at some position. -/
def strstr : CStr → CStr → Bool
  | [], sub => sub.isEmpty
  | c :: h, sub => sub.isPrefixOf (c :: h) || strstr h sub

/-- The loop `for (i = hist_count - 1; i >= 0; --i)` of
`history_exact_match`, entered with `n = i + 1`: `strcmp (history[i], term)
== 0` returns `i`. -/
def history_exact_match_loop (history : List CStr) (term : CStr) : Nat → Int
  | 0 => -1
  | i + 1 =>
    if history[i]? = some term then (i : Int)
    else history_exact_match_loop history term i

/-- The function `history_exact_match (t, term)`. -/
def history_exact_match (t : Tab) (term : CStr) : Int :=
  if term = [] then -1
  else history_exact_match_loop t.history term t.hist_count

/-- The loop `for (start = 0; start + len <= tlen; ++start)` of
`history_longest_substring` for one entry `h` and one length, `len <= tlen`:
whether it reaches `goto next_history_entry`.  A length that does not fit the
buffer `sub[256]` is skipped (`continue`); otherwise `sub` is the `len` bytes
of `term` from `start`. -/
def substring_found (h term : CStr) (len : Nat) : Bool :=
  (List.range (term.length - len + 1)).any fun start =>
    if len ≥ 256 then false
    else strstr h ((term.drop start).take len)

/-- The loop `for (len = tlen; len >= 3; --len)` of
`history_longest_substring` for one entry `h`, entered at `len`: the length at
which the entry is left through `goto next_history_entry`, `none` when the
loop runs to its end. -/
def entry_match_len (h term : CStr) : Nat → Option Nat
  | 0 => none
  | len + 1 =>
    if len + 1 < 3 then none
    else if substring_found h term (len + 1) then some (len + 1)
    else entry_match_len h term len

/-- The loop `for (i = 0; i < hist_count; ++i)` of
`history_longest_substring` over the entries from index `i` on, with the
current `best_len` and `best_idx`. -/
def history_longest_substring_loop (term : CStr) : List CStr → Nat → Nat → Int → Int
  | [], _, _, best_idx => best_idx
  | h :: rest, i, best_len, best_idx =>
    match entry_match_len h term term.length with
    | some len =>
      if len > best_len then history_longest_substring_loop term rest (i + 1) len i
      else history_longest_substring_loop term rest (i + 1) best_len best_idx
    | none => history_longest_substring_loop term rest (i + 1) best_len best_idx

/-- The function `history_longest_substring (t, term)`. -/
def history_longest_substring (t : Tab) (term : CStr) : Int :=
  if term.length < 3 then -1
  else history_longest_substring_loop term t.history 0 0 (-1)

/-- The entry `h` contains a contiguous substring of `term` of length `L`. -/
def MatchAt (h term : CStr) (L : Nat) : Prop :=
  ∃ sub : CStr, sub <:+: term ∧ sub <:+: h ∧ sub.length = L

/-- The length `L` is the greatest length of a contiguous substring of `term` that
occurs inside some entry of the history. -/
def IsLongestMatch (history : List CStr) (term : CStr) (L : Nat) : Prop :=
  (∃ h ∈ history, MatchAt h term L) ∧
  ∀ h ∈ history, ∀ L1, MatchAt h term L1 → L1 ≤ L

/-- The function `add_job (t, pid, master_fd, cmd)`: nothing when the table is full, else
the slot `jobs[job_count]` is filled (`strncpy` keeps at most 255 bytes of the
label) and `job_count` is incremented.  `set_nonblock` changes a flag of the
descriptor and no field of the tab. -/
def add_job (t : Tab) (pid : Int) (master_fd : Int) (cmd : CStr) : Tab :=
  if t.jobs.length ≥ MAX_JOBS then t
  else
    { t with jobs := t.jobs ++
        [{ pid := pid, master_fd := master_fd, active := 1, cmd := cmd.take 255 }] }

/-- The length at which `history_longest_substring` leaves the entry `h`
through `goto next_history_entry`, and 0 when it does not. -/
def entry_best (h term : CStr) : Nat :=
  (entry_match_len h term term.length).getD 0

/-- The constant `#define MAX_TABS 12`. -/
def MAX_TABS : Nat := 12

/-- The signals the program sends with `kill`. -/
inductive Signal where
  | SIGINT
  | SIGTSTP
  | SIGKILL
deriving DecidableEq, Repr

/-- The conversion `%d` of `printf`. -/
def fmt_d (n : Int) : CStr :=
  if n < 0 then '-' :: Nat.toDigits 10 n.natAbs else Nat.toDigits 10 n.natAbs

/-- The call `snprintf (buf, 256, ...)`: the formatted text, cut to the 255
bytes that fit the buffer. -/
def snprintf256 (s : CStr) : CStr := s.take 255

/-- The variables at file scope (lines 45-49, 94, 95), which are what the
signal handlers and `run_command` read and write, together with a record of
the process-level effects: the `kill` calls made, in order, and the command
lists of the watcher threads started with `pthread_create`. -/
structure Proc where
  multiwatch_active : Int
  fg_pid : Int
  pending_signal_msg : CStr
  signal_msg_ready : Int
  tabs : List Tab
  active : Int
  signals : List (Int × Signal)
  watchers : List (List CStr)
deriving DecidableEq, Repr

/-- The state of `main`: the file-scope variables and the locals `tabs` and
`active` declared in `main` (lines 1198, 1199; `tab_count` is the length of
`tabs`).  The locals hide the file-scope variables of the same names in the
body of `main`, and `create_tab` and `close_tab` are only ever passed the
locals. -/
structure Main where
  proc : Proc
  tabs : List Tab
  active : Int
deriving DecidableEq, Repr

/-- A tab of the zero-initialised file-scope array `tabs`. -/
def zero_tab : Tab :=
  { tb := ⟨[]⟩, input := [], jobs := [], scroll_offset := 0, multiline_mode := 0,
    history := [], hist_index := 0, cursor_pos := 0 }

/-- The file-scope variables as initialised at lines 45-49, 94 and 95. -/
def proc_init : Proc :=
  { multiwatch_active := 1, fg_pid := -1, pending_signal_msg := [], signal_msg_ready := 0,
    tabs := List.replicate MAX_TABS zero_tab, active := -1, signals := [], watchers := [] }

/-- The state of `main` when it enters its loop (after line 1200): one tab,
created by `create_tab (tabs, &tab_count, &active)` on the locals. -/
def main_init (file : Option (List Char)) : Main :=
  { proc := proc_init, tabs := [create_tab file], active := 0 }

/-- The assignment `tabs[i] = f (tabs[i])` on an array of tabs. -/
def update_tab (tabs : List Tab) (i : Nat) (f : Tab → Tab) : List Tab :=
  match tabs[i]? with
  | some t => tabs.set i (f t)
  | none => tabs

/-- The message `handle_sigint` stages for a given `fg_pid`. -/
def sigint_msg (fg_pid : Int) : CStr :=
  if fg_pid > 0 then
    snprintf256 ("[MyTerm] Foreground process (".toList ++ fmt_d fg_pid ++ ") interrupted".toList)
  else snprintf256 "[MyTerm] No foreground job to interrupt".toList

/-- The message `handle_sigtstp` stages for a given `fg_pid`. -/
def sigtstp_msg (fg_pid : Int) : CStr :=
  if fg_pid > 0 then
    snprintf256 ("[MyTerm] Foreground process (".toList ++ fmt_d fg_pid ++
      ") stopped (backgrounded)".toList)
  else snprintf256 "[MyTerm] No foreground job to stop".toList

/-- The function `handle_sigint` (lines 336-350). -/
def handle_sigint (p : Proc) : Proc :=
  let p1 :=
    if p.fg_pid > 0 then
      { p with signals := p.signals ++ [(p.fg_pid, Signal.SIGINT)],
               pending_signal_msg := sigint_msg p.fg_pid }
    else { p with pending_signal_msg := sigint_msg p.fg_pid }
  { p1 with signal_msg_ready := 1 }

/-- The function `handle_sigtstp` (lines 352-369); `active` and `tabs` are the
file-scope variables. -/
def handle_sigtstp (p : Proc) : Proc :=
  let p1 :=
    if p.fg_pid > 0 then
      let p2 := { p with signals := p.signals ++ [(p.fg_pid, Signal.SIGTSTP)],
                         pending_signal_msg := sigtstp_msg p.fg_pid }
      let p3 :=
        if p2.active ≥ 0 then
          { p2 with
            tabs := update_tab p2.tabs p2.active.toNat fun t =>
              add_job t p2.fg_pid (-1) "Suspended job".toList }
        else p2
      { p3 with fg_pid := -1 }
    else { p with pending_signal_msg := sigtstp_msg p.fg_pid }
  { p1 with signal_msg_ready := 1 }

/-- The two handlers, as called for Ctrl+C and Ctrl+Z (lines 1273-1282) and
as installed with `signal` (lines 1179, 1180). -/
inductive Handler where
  | sigint
  | sigtstp
deriving DecidableEq, Repr

/-- One invocation of a handler. -/
def Handler.run : Handler → Proc → Proc
  | Handler.sigint, p => handle_sigint p
  | Handler.sigtstp, p => handle_sigtstp p

/-- The message a handler stages for a given `fg_pid`. -/
def Handler.msg : Handler → Int → CStr
  | Handler.sigint, fg_pid => sigint_msg fg_pid
  | Handler.sigtstp, fg_pid => sigtstp_msg fg_pid

/-- One invocation of a handler from the loop of `main`: the locals of `main`
are out of its reach. -/
def Main.handler (h : Handler) (m : Main) : Main :=
  { m with proc := h.run m.proc }

/-- The drain of the pending message in the loop of `main` (lines
1515-1520); `tabs` and `active` are the locals. -/
def drain_signal_msg (m : Main) : Main :=
  if m.proc.signal_msg_ready ≠ 0 ∧ m.active ≥ 0 then
    { m with
      tabs := update_tab m.tabs m.active.toNat fun t =>
        { t with tb := tb_append t.tb m.proc.pending_signal_msg },
      proc := { m.proc with signal_msg_ready := 0 } }
  else m

/-- The steps between which `run_command` sets no new foreground reference:
handler invocations, drains of the mailbox, and everything else that leaves
`fg_pid` as it is. -/
inductive NoNewForeground : Main → Main → Prop
  | refl (m : Main) : NoNewForeground m m
  | handler (m u : Main) (h : Handler) :
      NoNewForeground m u → NoNewForeground m (u.handler h)
  | drain (m u : Main) : NoNewForeground m u → NoNewForeground m (drain_signal_msg u)
  | other (m u v : Main) :
      NoNewForeground m u → v.proc.fg_pid = u.proc.fg_pid → NoNewForeground m v

/-- The call `strchr (s, c)`: the index of the first `c` in `s`, `none` for
NULL. -/
def strchr (s : CStr) (c : Char) : Option Nat :=
  if c ∈ s then some (s.takeWhile fun x => x != c).length else none

/-- The call `strrchr (s, c)`: the index of the last `c` in `s`, `none` for
NULL. -/
def strrchr (s : CStr) (c : Char) : Option Nat :=
  if c ∈ s then some (s.length - 1 - (s.reverse.takeWhile fun x => x != c).length) else none

/-- The test `strncmp (a, b, n) == 0`. -/
def strncmp_eq (a b : CStr) (n : Nat) : Bool := decide (a.take n = b.take n)

/-- One call of `strtok_r` (or `strtok`) with the single delimiter `d` on the
text `s` that is left: leading delimiters are skipped; at the end of the text
the result is NULL (`none`), else the token up to the next delimiter and the
text after that delimiter. -/
def strtok_r (d : Char) (s : CStr) : Option (CStr × CStr) :=
  let s1 := s.dropWhile fun c => c == d
  if s1 = [] then none
  else some (s1.takeWhile fun c => c != d, (s1.dropWhile fun c => c != d).drop 1)

/-- The tokens that successive calls of `strtok_r` return until NULL.  The
first argument bounds the number of calls; `strtok_all` passes the length of
the text, which is never exhausted (`strtok_loop_fuel`). -/
def strtok_loop (d : Char) : Nat → CStr → List CStr
  | 0, _ => []
  | fuel + 1, s =>
    match strtok_r d s with
    | none => []
    | some (tok, rest) => tok :: strtok_loop d fuel rest

/-- All tokens of a text for the delimiter `d`. -/
def strtok_all (d : Char) (s : CStr) : List CStr := strtok_loop d s.length s

/-- Lines 816-827 of `run_command`: the copy of the input into `cmdline` and
the background detection.  The result is the flag `background` and `cmdline`
as the dispatch sees it. -/
def background_detect (input : CStr) : Int × CStr :=
  let cmdline := input.take (INPUT_MAX - 1)
  match strrchr cmdline '&' with
  | some amp =>
    if amp = 0 ∨ cmdline[amp - 1]? = some ' ' then (1, cmdline.take amp)
    else (0, cmdline)
  | none => (0, cmdline)

/-- The branches of `run_command` after the background detection. -/
inductive Branch where
  | cd
  | history
  | jobs
  | kill
  | fg
  | multiWatch
  | multiWatch_stop
  | pipeline
deriving DecidableEq, Repr

/-- The chain of `if (strncmp (cmdline, ...) == 0)` tests of `run_command`
(lines 830, 866, 878, 890, 899, 918, 968), in the order of the source: the
branch that is entered. -/
def run_command_dispatch (cmdline : CStr) : Branch :=
  if strncmp_eq cmdline "cd".toList 2 ∧ (cmdline[2]? = some ' ' ∨ cmdline[2]? = none) then
    Branch.cd
  else if strncmp_eq cmdline "history".toList 7 then Branch.history
  else if strncmp_eq cmdline "jobs".toList 4 then Branch.jobs
  else if strncmp_eq cmdline "kill".toList 4 then Branch.kill
  else if strncmp_eq cmdline "fg".toList 2 then Branch.fg
  else if strncmp_eq cmdline "multiWatch".toList 10 then Branch.multiWatch
  else if strncmp_eq cmdline "multiWatch-stop".toList 15 then Branch.multiWatch_stop
  else Branch.pipeline

/-- The bytes that the `multiWatch` branch strips around a command: space,
double quote, single quote. -/
def is_quote_or_space (c : Char) : Bool :=
  c == ' ' || c == Char.ofNat 34 || c == Char.ofNat 39

/-- Lines 941-945: leading quotes and spaces are skipped, then trailing ones
are overwritten with NUL from the end, as long as `endq > tok`. -/
def multiwatch_clean (tok : CStr) : CStr :=
  match tok.dropWhile is_quote_or_space with
  | [] => []
  | c :: rest => c :: (rest.reverse.dropWhile is_quote_or_space).reverse

/-- The usage message of the `multiWatch` branch. -/
def multiwatch_usage : CStr := "Usage: multiWatch [\x22cmd1\x22, \x22cmd2\x22, ...]".toList

/-- The confirmation message of the `multiWatch` branch. -/
def multiwatch_running : CStr :=
  "multiWatch running (use \x27multiWatch-stop\x27 to end).".toList

/-- The `multiWatch` branch of `run_command` (lines 918-966) on the tab and
the file-scope variables.  The thread that `pthread_create` starts is recorded
with its command list; what the thread does later is not part of this
function. -/
def run_command_multiWatch (cmdline : CStr) (t : Tab) (p : Proc) : Tab × Proc :=
  let usage : Tab × Proc := ({ t with tb := tb_append t.tb multiwatch_usage }, p)
  match strchr cmdline '[', strrchr cmdline ']' with
  | some start, some e =>
    if e ≤ start + 1 then usage
    else
      let listbuf := (cmdline.drop (start + 1)).take (e - start - 1)
      let cmds := ((strtok_all ',' listbuf).take 8).map fun tok => (multiwatch_clean tok).take 255
      if cmds.length = 0 then
        ({ t with tb := tb_append t.tb "multiWatch: no valid commands.".toList }, p)
      else
        ({ t with tb := tb_append t.tb multiwatch_running },
          { p with multiwatch_active := 1, watchers := p.watchers ++ [cmds] })
  | _, _ => usage

/-- The `multiWatch-stop` branch of `run_command` (lines 968-981). -/
def run_command_multiWatch_stop (t : Tab) (p : Proc) : Tab × Proc :=
  if p.multiwatch_active = 0 then
    ({ t with tb := tb_append t.tb "No active multiWatch session.".toList }, p)
  else
    ({ t with tb := tb_append t.tb "Stopping multiWatch threads...".toList },
      { p with multiwatch_active := 0 })

/-- The function `run_command` on a line that reaches one of the two watcher
builtins: the echo and the history append (lines 797-814), the background
detection, the dispatch and the branch.  The result is `none` for a line that
is dispatched to another branch; those branches are not part of this
function. -/
def run_command_watch (t : Tab) (p : Proc) : Option (Tab × Proc) :=
  if t.input.length = 0 then some (t, p)
  else
    let t1 := run_command_history t
    let cmdline := (background_detect t.input).2
    match run_command_dispatch cmdline with
    | Branch.multiWatch => some (run_command_multiWatch cmdline t1 p)
    | Branch.multiWatch_stop => some (run_command_multiWatch_stop t1 p)
    | _ => none

/-- Lines 984-994: the stages of the pipeline, at most 16, each without its
leading spaces. -/
def split_pipeline (cmdline : CStr) : List CStr :=
  ((strtok_all '|' cmdline).take 16).map fun seg => seg.dropWhile fun c => c == ' '

/-- One stage as parsed at lines 1012-1072. -/
structure Stage where
  argv : List CStr
  infile : Option CStr
  outfile : Option CStr
  append_mode : Int
deriving DecidableEq, Repr

/-- The test `strpbrk (tok, "*?[]~")`. -/
def has_glob_char (tok : CStr) : Bool :=
  tok.any fun c => c == '*' || c == '?' || c == '[' || c == ']' || c == '~'

/-- The call `glob (tok, GLOB_TILDE | GLOB_NOCHECK, NULL, &g)`, with the
filesystem as the function `G` from a pattern to its matches in enumeration
order, `none` when `glob` fails: with `GLOB_NOCHECK` a pattern without match
is returned as its own single result. -/
def glob_nocheck (G : CStr → Option (List CStr)) (tok : CStr) : Option (List CStr) :=
  (G tok).map fun l => if l = [] then [tok] else l

/-- The loop `for (gi = 0; gi < g.gl_pathc && argc < 127; gi++)` of line
1048. -/
def argv_push_all (argv paths : List CStr) : List CStr :=
  argv ++ paths.take (127 - argv.length)

/-- The loop `while (tok && argc < 127)` of lines 1021-1071 over the tokens
that `strtok` returns. -/
def parse_tokens (G : CStr → Option (List CStr)) : List CStr → Stage → Stage
  | [], st => st
  | tok :: rest, st =>
    if st.argv.length < 127 then
      if tok = "<".toList then
        match rest with
        | [] => { st with infile := none }
        | nxt :: rest2 => parse_tokens G rest2 { st with infile := some nxt }
      else if tok = ">".toList then
        match rest with
        | [] => { st with outfile := none, append_mode := 0 }
        | nxt :: rest2 => parse_tokens G rest2 { st with outfile := some nxt, append_mode := 0 }
      else if tok = ">>".toList then
        match rest with
        | [] => { st with outfile := none, append_mode := 1 }
        | nxt :: rest2 => parse_tokens G rest2 { st with outfile := some nxt, append_mode := 1 }
      else if has_glob_char tok then
        match glob_nocheck G tok with
        | some paths => parse_tokens G rest { st with argv := argv_push_all st.argv paths }
        | none => parse_tokens G rest { st with argv := st.argv ++ [tok] }
      else parse_tokens G rest { st with argv := st.argv ++ [tok] }
    else st

/-- The parse of one stage text (lines 1012-1072). -/
def parse_stage (G : CStr → Option (List CStr)) (stage : CStr) : Stage :=
  parse_tokens G (strtok_all ' ' stage)
    { argv := [], infile := none, outfile := none, append_mode := 0 }

/-- The redirection operators `<`, `>`, `>>`. -/
def is_redirect_op (tok : CStr) : Bool :=
  tok == "<".toList || tok == ">".toList || tok == ">>".toList

/-- The output operators `>`, `>>`. -/
def is_output_op (tok : CStr) : Bool :=
  tok == ">".toList || tok == ">>".toList

/-- The non-redirect tokens of a stage: what is left when, from left to
right, each operator is removed together with the token after it. -/
def plain_tokens : List CStr → List CStr
  | [] => []
  | tok :: rest =>
    if is_redirect_op tok then
      match rest with
      | [] => []
      | _ :: rest2 => plain_tokens rest2
    else tok :: plain_tokens rest

/-- What one non-redirect token contributes to `argv` when the filesystem is
the function `G` from a pattern to its matches: the matches of a token with a
glob character, the token itself when there is no match, and the token itself
when it has no glob character. -/
def glob_expand (G : CStr → List CStr) (tok : CStr) : List CStr :=
  if has_glob_char tok then (if G tok = [] then [tok] else G tok) else [tok]

/-- The tokens that are neither one of `<`, `>`, `>>` nor the token
immediately following one of them; `prev` tells whether the token before is
one of the three. -/
def spec_argv_from (prev : Bool) : List CStr → List CStr
  | [] => []
  | tok :: rest =>
    if is_redirect_op tok then spec_argv_from true rest
    else if prev then spec_argv_from false rest
    else tok :: spec_argv_from false rest

/-- The tokens that are neither one of `<`, `>`, `>>` nor the token
immediately following one of them. -/
def spec_argv (tokens : List CStr) : List CStr := spec_argv_from false tokens

/-- The token following the last token that satisfies `p`. -/
def token_after_last (p : CStr → Bool) : List CStr → Option CStr
  | [] => none
  | tok :: rest =>
    if rest.any p then token_after_last p rest
    else if p tok then rest.head?
    else none

/-- No token that is one of `<`, `>`, `>>` immediately follows another
one. -/
def no_adjacent_ops : List CStr → Bool
  | [] => true
  | [_] => true
  | a :: b :: rest => !(is_redirect_op a && is_redirect_op b) && no_adjacent_ops (b :: rest)

/-- The input operator `<`. -/
def is_input_op (tok : CStr) : Bool := tok == "<".toList

/-- The token following the last token that satisfies `p`, and `dflt` when no
token satisfies `p`. -/
def redirect_target (p : CStr → Bool) (tokens : List CStr) (dflt : Option CStr) :
    Option CStr :=
  if tokens.any p then token_after_last p tokens else dflt

/-- The value 1 when the last output operator is `>>`, 0 when it is `>`, and
`dflt` when there is no output operator. -/
def last_output_mode (tokens : List CStr) (dflt : Int) : Int :=
  match (tokens.filter is_output_op).getLast? with
  | some op => if op = ">>".toList then 1 else 0
  | none => dflt

/-- A directory listing of `n` files whose names are `stem` followed by the
numbers from 0. -/
def numbered_files (stem : CStr) (n : Nat) : List CStr :=
  (List.range n).map fun i => stem ++ Nat.toDigits 10 i

/-- The stage text of `n` arguments `a` followed by the redirection
`> out`. -/
def long_stage (n : Nat) : CStr :=
  (List.replicate n "a ".toList).flatten ++ "> out".toList

/-- The inner loop of the common-prefix search of `autocomplete` (line 488),
`while (j < prefix_len && matches[0][j] == matches[i][j]) j++`: the final `j`
for `prefix_len = n`, `matches[0] = a` and `matches[i] = b` (reading
`matches[i]` at its end yields the terminator, which differs from the byte of
`matches[0]`). -/
def common_len : Nat → CStr → CStr → Nat
  | 0, _, _ => 0
  | _ + 1, [], _ => 0
  | _ + 1, _ :: _, [] => 0
  | n + 1, x :: a, y :: b => if x = y then common_len n a b + 1 else 0

/-- The loop of lines 515-520: one line `i. name` per match, numbered from
`i + 1`. -/
def append_numbered : Nat → List CStr → TextBuffer → TextBuffer
  | _, [], tb => tb
  | i, m :: ms, tb =>
    append_numbered (i + 1) ms
      (tb_append tb (snprintf256 (fmt_d (Int.ofNat (i + 1)) ++ ". ".toList ++ m)))

/-- The function `autocomplete (t)` (lines 433-529); `dir` is the listing of
`t->cwd` in the order of `readdir`, `none` when `opendir` fails.  The result
is `none` when one of the copies made with `strcpy` or with `strncpy` and the
terminator does not fit its array: the input line into `completion[PATH_MAX]`
(line 468), the common prefix into `common[PATH_MAX]` (lines 497, 498), the
completed line into `input[INPUT_MAX]` (lines 470, 472, 501, 505). -/
def autocomplete (dir : Option (List CStr)) (t : Tab) : Option Tab :=
  if t.input.length = 0 then some t
  else
    let start := strrchr t.input ' '
    let head := match start with
      | some i => t.input.take (i + 1)
      | none => []
    let pre := match start with
      | some i => t.input.drop (i + 1)
      | none => t.input
    if pre.length = 0 then some t
    else
      match dir with
      | none => some t
      | some entries =>
        match (entries.filter fun name => strncmp_eq name pre pre.length).take 256 with
        | [] => some t
        | [m] =>
          if t.input.length < PATH_MAX ∧ (head ++ m).length < INPUT_MAX then
            some { t with
              input := head ++ m,
              cursor_pos := Int.ofNat (head ++ m).length,
              tb := tb_append t.tb (snprintf256 ("Auto-completed: ".toList ++ m)) }
          else none
        | m0 :: m1 :: rest =>
          let prefix_len := (m1 :: rest).foldl (fun pl m => common_len pl m0 m) m0.length
          if prefix_len > pre.length then
            if prefix_len < PATH_MAX ∧ (head ++ m0.take prefix_len).length < INPUT_MAX then
              some { t with
                input := head ++ m0.take prefix_len,
                cursor_pos := Int.ofNat (head ++ m0.take prefix_len).length,
                tb := tb_append t.tb "Partial auto-complete (multiple matches)".toList }
            else none
          else
            some { t with
              tb := tb_append
                (append_numbered 0 (m0 :: m1 :: rest)
                  (tb_append t.tb "Multiple matches:".toList))
                "Enter number to select file:".toList }

/-- The text of an input line after its last space (the whole line when it has
no space). -/
def after_last_space (s : CStr) : CStr :=
  (s.reverse.takeWhile fun c => c != ' ').reverse

/-- The text of an input line up to and including its last space (empty when
it has no space). -/
def through_last_space (s : CStr) : CStr :=
  (s.reverse.dropWhile fun c => c != ' ').reverse

/-- The string `c` is a longest common prefix of the names. -/
def IsLCP (names : List CStr) (c : CStr) : Prop :=
  (∀ m ∈ names, c <+: m) ∧ ∀ d : CStr, (∀ m ∈ names, d <+: m) → d.length ≤ c.length

/-- The states of `main` in its loop: it starts in `main_init`, and no
statement of the program assigns the file-scope `active` (the assignments at
lines 618-619, 639-641 and 1255 go to the local of `main`). -/
inductive MainReachable : Main → Prop
  | init (file : Option (List Char)) : MainReachable (main_init file)
  | handler (m : Main) (h : Handler) : MainReachable m → MainReachable (m.handler h)
  | drain (m : Main) : MainReachable m → MainReachable (drain_signal_msg m)
  | other (m u : Main) : MainReachable m → u.proc.active = m.proc.active → MainReachable u

/-- The way the loop `while ((r = read (...)) > 0)` of `check_jobs` (line
384) ends: with `r == 0`, with `r < 0` and `errno` one of `EAGAIN` and
`EWOULDBLOCK`, or with `r < 0` and another `errno`. -/
inductive ReadEnd where
  | eof
  | again
  | error
deriving DecidableEq, Repr

/-- The status that a successful `waitpid` stores: `WIFEXITED` with
`WEXITSTATUS`, `WIFSIGNALED` with `WTERMSIG`, or neither. -/
inductive WaitStatus where
  | exited (code : Int)
  | signaled (sig : Int)
  | other
deriving DecidableEq, Repr

/-- What the operating system answers while `check_jobs` visits one job: the
chunks that the successive `read` calls return with `r > 0`, the way the read
loop ends, and the result of `waitpid (pid, &st, WNOHANG)`, which is `some st`
when it returns a positive pid and `none` otherwise. -/
structure JobPoll where
  chunks : List CStr
  ending : ReadEnd
  wait : Option WaitStatus
deriving DecidableEq, Repr

/-- The message of lines 415-427 for the job `j` and the status `st`. -/
def job_status_msg (j : Job) : WaitStatus → CStr
  | WaitStatus.exited code =>
    snprintf256 ("[".toList ++ fmt_d j.pid ++ "] Done (exit ".toList ++ fmt_d code ++
      ")  ".toList ++ j.cmd)
  | WaitStatus.signaled sig =>
    snprintf256 ("[".toList ++ fmt_d j.pid ++ "] Terminated by signal ".toList ++ fmt_d sig ++
      "  ".toList ++ j.cmd)
  | WaitStatus.other =>
    snprintf256 ("[".toList ++ fmt_d j.pid ++ "] Done  ".toList ++ j.cmd)

/-- Lines 380-401 of `check_jobs` for one active job: when the job has a
descriptor, every chunk read is appended to the scrollback, and the descriptor
is closed and set to -1 unless the read loop ends with `EAGAIN`. -/
def check_job_read (poll : JobPoll) (tb : TextBuffer) (j : Job) : TextBuffer × Job :=
  if j.master_fd ≥ 0 then
    (poll.chunks.foldl tb_append tb,
      match poll.ending with
      | ReadEnd.again => j
      | _ => { j with master_fd := -1 })
  else (tb, j)

/-- The body of the loop of `check_jobs` (lines 376-429) for the job `j`: an
inactive job is skipped; for an active one the output is read, and when
`waitpid` reports the end of the process the job is marked inactive, its
descriptor is closed and the status message is appended. -/
def check_job (poll : JobPoll) (tb : TextBuffer) (j : Job) : TextBuffer × Job :=
  if j.active = 0 then (tb, j)
  else
    let r := check_job_read poll tb j
    match poll.wait with
    | some st =>
      let j1 := { r.2 with active := 0 }
      let j2 := if j1.master_fd ≥ 0 then { j1 with master_fd := -1 } else j1
      (tb_append r.1 (job_status_msg j2 st), j2)
    | none => r

/-- The loop `for (i = 0; i < t->job_count; i++)` of `check_jobs`, from the
index `i` on; `polls k` is what the operating system answers for the job at
index `k`. -/
def check_jobs_loop (polls : Nat → JobPoll) : Nat → List Job → TextBuffer → TextBuffer × List Job
  | _, [], tb => (tb, [])
  | i, j :: js, tb =>
    let s := check_job (polls i) tb j
    let r := check_jobs_loop polls (i + 1) js s.1
    (r.1, s.2 :: r.2)

/-- The function `check_jobs (t)` (lines 372-431). -/
def check_jobs (polls : Nat → JobPoll) (t : Tab) : Tab :=
  let r := check_jobs_loop polls 0 t.jobs t.tb
  { t with tb := r.1, jobs := r.2 }

/-- The answers of the operating system to the calls that `run_command`
makes: `home` is `getenv ("HOME")`; `chdir path` is `none` when `chdir` fails
and otherwise the text that the following `getcwd` stores; `kill_ok pid` tells
whether `kill (pid, SIGKILL)` returns 0; `glob` is the filesystem as seen by
`glob`; `pipe_ok i` tells whether `pipe (pipes[i])` succeeds; `capture_fd` is
`capture_pipe[0]` after `pipe (capture_pipe)`, whose result the source does
not test and which is taken to succeed; `fork i` is what `fork` returns to
the parent for stage `i` (positive: the pid of the child; the parent never
sees 0); `output` are the chunks that the reads of line 1157 return with
`r > 0`, before the first read with `r <= 0`.  The blocking `waitpid` calls
of lines 906 and 1153 are taken to return. -/
structure Os where
  home : Option CStr
  chdir : CStr → Option CStr
  kill_ok : Int → Bool
  glob : CStr → Option (List CStr)
  pipe_ok : Nat → Bool
  capture_fd : Int
  fork : Nat → Int
  output : List CStr

/-- What a call of `run_command` creates besides its writes to the tab and
to the file-scope variables: the number of pipes made with `pipe`, and the
children made with `fork`, each with its pid and the stage it goes on to
execute. -/
structure Launch where
  pipes : Nat
  children : List (Int × Stage)
deriving DecidableEq, Repr

/-- No pipe and no child. -/
def Launch.none : Launch := { pipes := 0, children := [] }

/-- The test `isspace (c)` in the C locale. -/
def isspace (c : Char) : Bool :=
  c == ' ' || (9 ≤ c.toNat && c.toNat ≤ 13)

/-- The value of the decimal digits at the start of a text. -/
def atoi_digits (s : CStr) : Nat :=
  (s.takeWhile Char.isDigit).foldl (fun n c => 10 * n + (c.toNat - 48)) 0

/-- The call `atoi (s)`: white space is skipped, then an optional sign and
the decimal digits are read; values that do not fit an `int` are outside the
embedding. -/
def atoi (s : CStr) : Int :=
  match s.dropWhile isspace with
  | '-' :: rest => - Int.ofNat (atoi_digits rest)
  | '+' :: rest => Int.ofNat (atoi_digits rest)
  | rest => Int.ofNat (atoi_digits rest)

/-- The `cd` branch of `run_command` (lines 830-863), as far as the
scrollback goes. -/
def run_command_cd (os : Os) (cmdline : CStr) (t : Tab) : Tab :=
  let arg := (cmdline.drop 2).dropWhile fun c => c == ' '
  let path0 : CStr := if arg = [] then os.home.getD "/".toList else arg
  let path : CStr :=
    match path0, os.home with
    | '~' :: rest, some home => (home ++ rest).take (PATH_MAX - 1)
    | _, _ => path0
  match os.chdir path with
  | some cwd =>
    { t with tb := tb_append t.tb (("Changed directory to: ".toList ++ cwd).take (PATH_MAX + 31)) }
  | none =>
    { t with
      tb := tb_append t.tb
        (("cd: No such file or directory: ".toList ++ path).take (PATH_MAX + 63)) }

/-- The conversion `%4d` of `printf` for a number that is not negative. -/
def fmt_4d (n : Nat) : CStr :=
  List.replicate (4 - (Nat.toDigits 10 n).length) ' ' ++ Nat.toDigits 10 n

/-- The loop of lines 869-874: one line per history entry, numbered from
`i + 1`. -/
def append_history : Nat → List CStr → TextBuffer → TextBuffer
  | _, [], tb => tb
  | i, h :: hs, tb =>
    append_history (i + 1) hs
      (tb_append tb ((fmt_4d (i + 1) ++ "  ".toList ++ h).take (INPUT_MAX + 31)))

/-- The `history` branch of `run_command` (lines 866-876): the last 1000
entries are listed. -/
def run_command_list_history (t : Tab) : Tab :=
  let start := if t.history.length > 1000 then t.history.length - 1000 else 0
  { t with tb := append_history start (t.history.drop start) t.tb }

/-- The `jobs` branch of `run_command` (lines 878-889): one line per active
job. -/
def run_command_jobs (t : Tab) : Tab :=
  { t with
    tb := (t.jobs.filter fun j => j.active != 0).foldl
      (fun tb j =>
        tb_append tb (snprintf256 ("[".toList ++ fmt_d j.pid ++ "] Running  ".toList ++ j.cmd)))
      t.tb }

/-- The `kill` branch of `run_command` (lines 890-898); the `kill` call is
recorded when it is made. -/
def run_command_kill (os : Os) (cmdline : CStr) (t : Tab) (p : Proc) : Tab × Proc :=
  let pid := atoi (cmdline.drop 5)
  if pid > 0 then
    let p1 := { p with signals := p.signals ++ [(pid, Signal.SIGKILL)] }
    if os.kill_ok pid then ({ t with tb := tb_append t.tb "Process killed.".toList }, p1)
    else ({ t with tb := tb_append t.tb "Usage: kill <pid>".toList }, p1)
  else ({ t with tb := tb_append t.tb "Usage: kill <pid>".toList }, p)

/-- The `fg` branch of `run_command` (lines 899-915). -/
def run_command_fg (cmdline : CStr) (t : Tab) : Tab :=
  let pid := atoi (cmdline.drop 3)
  if pid > 0 then
    { t with
      tb := tb_append (tb_append t.tb "Bringing job to foreground...".toList)
        "Foreground job finished.".toList,
      jobs := t.jobs.map fun j => if j.pid = pid then { j with active := 0 } else j }
  else { t with tb := tb_append t.tb "Usage: fg <pid>".toList }

/-- The loop of lines 999-1004 over `i < n`, from the index `i` on: the
number of pipes made, and whether all `pipe` calls succeeded. -/
def make_pipes (pipe_ok : Nat → Bool) : Nat → Nat → Nat × Bool
  | _, 0 => (0, true)
  | i, n + 1 =>
    if pipe_ok i then
      let r := make_pipes pipe_ok (i + 1) n
      (r.1 + 1, r.2)
    else (0, false)

/-- The loop of lines 1010-1134 over the stages, from the index `i` on: each
stage is parsed and a child is forked for it; the loop is left at the first
`fork` that fails.  The result is the children made and whether all `fork`
calls succeeded. -/
def spawn_stages (os : Os) : Nat → List CStr → List (Int × Stage) × Bool
  | _, [] => ([], true)
  | i, c :: cs =>
    let pid := os.fork i
    if pid > 0 then
      let r := spawn_stages os (i + 1) cs
      ((pid, parse_stage os.glob c) :: r.1, r.2)
    else ([], false)

/-- The pid `pids[ncmds - 1]` of line 1137. -/
def last_pid (children : List (Int × Stage)) : Int :=
  match children.getLast? with
  | some c => c.1
  | none => 0

/-- The pipeline branch of `run_command` (lines 984-1171) for the text
`cmdline` and the flag `background`, on the tab after the echo and the
history append. -/
def run_command_pipeline (os : Os) (cmdline : CStr) (background : Int) (t : Tab) (p : Proc) :
    Tab × Proc × Launch :=
  let commands := split_pipeline cmdline
  if commands.length = 0 then (t, p, Launch.none)
  else
    let made := make_pipes os.pipe_ok 0 (commands.length - 1)
    if made.2 = false then
      ({ t with tb := tb_append t.tb "pipe() failed".toList }, p,
        { pipes := made.1, children := [] })
    else
      let spawned := spawn_stages os 0 commands
      let launch : Launch := { pipes := made.1 + 1, children := spawned.1 }
      if spawned.2 = false then
        ({ t with tb := tb_append t.tb "fork failed".toList }, p, launch)
      else
        let p1 := { p with fg_pid := last_pid spawned.1 }
        if background ≠ 0 then
          let t1 := add_job t (last_pid spawned.1) os.capture_fd t.input
          ({ t1 with
             tb := tb_append t1.tb
               (snprintf256 ("[".toList ++ fmt_d (last_pid spawned.1) ++
                 "] running in background".toList)) },
            p1, launch)
        else
          ({ t with
             tb := tb_append (os.output.foldl tb_append t.tb) "Command finished.".toList,
             scroll_offset := 0 },
            { p1 with fg_pid := -1 }, launch)

/-- The function `run_command (t)` (lines 795-1172) on the tab and the
file-scope variables: the echo and the history append, the background
detection, the dispatch and the branch entered. -/
def run_command (os : Os) (t : Tab) (p : Proc) : Tab × Proc × Launch :=
  if t.input.length = 0 then (t, p, Launch.none)
  else
    let t1 := run_command_history t
    let bg := background_detect t.input
    match run_command_dispatch bg.2 with
    | Branch.cd => (run_command_cd os bg.2 t1, p, Launch.none)
    | Branch.history => (run_command_list_history t1, p, Launch.none)
    | Branch.jobs => (run_command_jobs t1, p, Launch.none)
    | Branch.kill =>
      let r := run_command_kill os bg.2 t1 p
      (r.1, r.2, Launch.none)
    | Branch.fg => (run_command_fg bg.2 t1, p, Launch.none)
    | Branch.multiWatch =>
      let r := run_command_multiWatch bg.2 t1 p
      (r.1, r.2, Launch.none)
    | Branch.multiWatch_stop =>
      let r := run_command_multiWatch_stop t1 p
      (r.1, r.2, Launch.none)
    | Branch.pipeline => run_command_pipeline os bg.2 bg.1 t1 p

/-- An example of the answers of the operating system: every `pipe` and `fork`
succeeds, the child of stage `i` gets the pid `100 + i`, the read end of the
capture pipe is the descriptor 3, the children write nothing, `HOME` is not
set, and `chdir`, `kill` and `glob` fail. -/
def os_example : Os :=
  { home := none, chdir := fun _ => none, kill_ok := fun _ => false, glob := fun _ => none,
    pipe_ok := fun _ => true, capture_fd := 3, fork := fun i => 100 + Int.ofNat i, output := [] }

/-- A fresh tab (as `create_tab` leaves it when there is no history file)
whose input line holds the text `s`. -/
def tab_with_input (s : CStr) : Tab :=
  { create_tab none with input := s, cursor_pos := Int.ofNat s.length }

/-- The test `isprint (c)` in the C locale, for a byte. -/
def isprint (c : Char) : Bool := decide (32 ≤ c.toNat ∧ c.toNat ≤ 126)

/-- The insertion of a printable byte (lines 1500-1510).  The `memmove` has
the length `input_len - cursor_pos`; with a cursor outside `0 .. input_len`
that length is negative or the addresses are outside the buffer, and the
result is `none`. -/
def key_insert (c : Char) (t : Tab) : Option Tab :=
  if isprint c ∧ t.input.length + 1 < INPUT_MAX - 1 then
    if 0 ≤ t.cursor_pos ∧ t.cursor_pos ≤ Int.ofNat t.input.length then
      some { t with
        input := t.input.take t.cursor_pos.toNat ++ c :: t.input.drop t.cursor_pos.toNat,
        cursor_pos := t.cursor_pos + 1 }
    else none
  else some t

/-- The Backspace key (lines 1479-1491); `none` as for `key_insert`. -/
def key_backspace (t : Tab) : Option Tab :=
  if t.cursor_pos > 0 then
    if t.cursor_pos ≤ Int.ofNat t.input.length then
      some { t with
        input := t.input.take (t.cursor_pos.toNat - 1) ++ t.input.drop t.cursor_pos.toNat,
        cursor_pos := t.cursor_pos - 1 }
    else none
  else some t

/-- The key Ctrl+A (lines 1341-1345). -/
def key_ctrl_a (t : Tab) : Tab := { t with cursor_pos := 0 }

/-- The key Ctrl+E (lines 1348-1352). -/
def key_ctrl_e (t : Tab) : Tab := { t with cursor_pos := Int.ofNat t.input.length }

/-- The copy `strncpy (t->input, t->history[i], INPUT_MAX - 1)` followed by
`t->input_len = strlen (t->input)`, for the index `i`; `none` when the index
is outside the history.  Of an entry of `INPUT_MAX - 1` bytes or more the
first `INPUT_MAX - 1` bytes are taken. -/
def recall_history (t : Tab) (i : Int) : Option Tab :=
  if i < 0 then none
  else
    match t.history[i.toNat]? with
    | some h => some { t with hist_index := i, input := h.take (INPUT_MAX - 1) }
    | none => none

/-- The Up key (lines 1285-1297). -/
def key_up (t : Tab) : Option Tab :=
  if t.history.length > 0 then
    if t.hist_index = -1 then recall_history t (Int.ofNat t.history.length - 1)
    else if t.hist_index > 0 then recall_history t (t.hist_index - 1)
    else recall_history t t.hist_index
  else some t

/-- The Down key (lines 1298-1316). -/
def key_down (t : Tab) : Option Tab :=
  if t.hist_index ≥ 0 then
    if t.hist_index + 1 ≥ Int.ofNat t.history.length then
      some { t with hist_index := -1, input := [] }
    else recall_history t (t.hist_index + 1)
  else some t

/-- The key events that edit the input line; `tab` carries the listing of
the directory that `autocomplete` reads. -/
inductive Key where
  | char (c : Char)
  | backspace
  | ctrl_a
  | ctrl_e
  | enter
  | up
  | down
  | tab (dir : Option (List CStr))

/-- One key event of the main loop, outside the search mode. -/
def key_press : Key → Tab → Option Tab
  | Key.char c, t => key_insert c t
  | Key.backspace, t => key_backspace t
  | Key.ctrl_a, t => some (key_ctrl_a t)
  | Key.ctrl_e, t => some (key_ctrl_e t)
  | Key.enter, t => some (key_enter t)
  | Key.up, t => key_up t
  | Key.down, t => key_down t
  | Key.tab dir, t => autocomplete dir t

/-- A sequence of key events. -/
def key_seq : List Key → Tab → Option Tab
  | [], t => some t
  | k :: ks, t =>
    match key_press k t with
    | some t1 => key_seq ks t1
    | none => none

/-- The cursor invariant `0 <= cursor_pos <= input_len < INPUT_MAX`. -/
def cursor_ok (t : Tab) : Prop :=
  0 ≤ t.cursor_pos ∧ t.cursor_pos ≤ Int.ofNat t.input.length ∧ t.input.length < INPUT_MAX

instance (t : Tab) : Decidable (cursor_ok t) := by
  unfold cursor_ok
  infer_instance

/-! ## Scrollback: auxiliary lemmas -/

theorem splitOn_newline_cons (c : Char) (p : List Char) :
    (c :: p).splitOn '\n' =
      if c = '\n' then [] :: p.splitOn '\n'
      else (p.splitOn '\n').modifyHead (List.cons c) := by
  unfold List.splitOn
  rw [List.splitOnP_cons]
  by_cases h : c = '\n' <;> simp [h]

theorem splitOn_newline_ne_nil (p : List Char) : p.splitOn '\n' ≠ [] := by
  cases p with
  | nil => simp [List.splitOn_nil]
  | cons c p =>
    rw [splitOn_newline_cons]
    split
    · simp
    · cases h : p.splitOn '\n' with
      | nil => exact absurd h (splitOn_newline_ne_nil p)
      | cons a l => simp [List.modifyHead]

/-- The split of a text in terms of what `strchr` finds. -/
theorem splitOn_newline_eq (p : List Char) :
    p.splitOn '\n' =
      match p.dropWhile (fun c => c != '\n') with
      | [] => [p.takeWhile (fun c => c != '\n')]
      | _ :: rest => p.takeWhile (fun c => c != '\n') :: rest.splitOn '\n' := by
  induction p with
  | nil => simp [List.splitOn_nil]
  | cons c p ih =>
    rw [splitOn_newline_cons]
    by_cases h : c = '\n'
    · subst h
      simp [List.dropWhile, List.takeWhile]
    · have hb : (c != '\n') = true := by simpa using h
      simp only [h, if_false, List.dropWhile, List.takeWhile, hb]
      rw [ih]
      cases p.dropWhile (fun c => c != '\n') with
      | nil => simp [List.modifyHead]
      | cons d rest => simp [List.modifyHead]

theorem dropWhile_newline_length_le (p : List Char) :
    (p.dropWhile (fun c => c != '\n')).length ≤ p.length := by
  have h := List.takeWhile_append_dropWhile (fun c => c != '\n') p
  have h2 := congrArg List.length h
  rw [List.length_append] at h2
  omega

/-- The iteration bound of `tb_append_loop` is never the reason the loop
stops: any bound of at least the length of the text gives the same buffer. -/
theorem tb_append_loop_fuel (n : Nat) : ∀ (tb : TextBuffer) (p : List Char),
    p.length ≤ n → tb_append_loop n tb p = tb_append_loop p.length tb p := by
  induction n using Nat.strong_induction_on with
  | _ n ih =>
    intro tb p hp
    cases p with
    | nil => cases n <;> simp [tb_append_loop]
    | cons c q =>
      cases n with
      | zero => simp at hp
      | succ m =>
        have hlen : (c :: q).length = q.length + 1 := rfl
        rw [hlen]
        simp only [tb_append_loop]
        have hne : (c :: q) ≠ [] := by simp
        simp only [hne, if_false]
        have hd := dropWhile_newline_length_le (c :: q)
        cases hdw : (c :: q).dropWhile (fun c => c != '\n') with
        | nil => rfl
        | cons d rest =>
          rw [hdw] at hd
          simp only [List.length_cons] at hd hp
          show tb_append_loop m _ rest = tb_append_loop q.length _ rest
          rw [ih m (by omega) _ rest (by omega)]
          by_cases hq : q.length = m
          · rw [hq, ih m (by omega) _ rest (by omega)]
          · rw [ih q.length (by omega) _ rest (by omega)]

/-- What one call of `tb_append` stores: the lines of the text, one
`tb_store` each, in order. -/
theorem tb_append_loop_eq (n : Nat) : ∀ (tb : TextBuffer) (p : List Char),
    p.length ≤ n → tb_append_loop n tb p = (visibleLines p).foldl tb_store tb := by
  induction n with
  | zero =>
    intro tb p hp
    have : p = [] := List.length_eq_zero.mp (Nat.le_zero.mp hp)
    subst this
    simp [tb_append_loop, visibleLines, List.splitOn_nil]
  | succ m ih =>
    intro tb p hp
    cases p with
    | nil => simp [tb_append_loop, visibleLines, List.splitOn_nil]
    | cons c q =>
      simp only [tb_append_loop]
      have hne : (c :: q) ≠ [] := by simp
      simp only [hne, if_false]
      have hd := dropWhile_newline_length_le (c :: q)
      have hsplit := splitOn_newline_eq (c :: q)
      have htd := List.takeWhile_append_dropWhile (fun c => c != '\n') (c :: q)
      cases hdw : (c :: q).dropWhile (fun c => c != '\n') with
      | nil =>
        rw [hdw] at hsplit htd
        simp only at hsplit
        rw [List.append_nil] at htd
        simp only [visibleLines, hsplit, htd]
        simp
      | cons d rest =>
        rw [hdw] at hsplit hd
        simp only at hsplit
        simp only [List.length_cons] at hd hp
        show tb_append_loop m _ rest = _
        rw [ih _ rest (by omega)]
        have hrest := splitOn_newline_ne_nil rest
        simp only [visibleLines, hsplit]
        cases hr : rest.splitOn '\n' with
        | nil => exact absurd hr hrest
        | cons a l =>
          simp only [List.getLast?_cons_cons, List.dropLast_cons₂]
          split <;> simp

theorem tb_append_eq (tb : TextBuffer) (s : CStr) :
    tb_append tb s = (visibleLines s).foldl tb_store tb :=
  tb_append_loop_eq s.length tb s (Nat.le_refl _)

theorem tb_store_length (tb : TextBuffer) (line : CStr)
    (h : tb.lines.length ≤ MAX_LINES) :
    (tb_store tb line).lines.length ≤ MAX_LINES := by
  unfold tb_store
  simp only [MAX_LINES] at *
  split <;> simp <;> omega

theorem tb_store_foldl_length (segs : List CStr) : ∀ (tb : TextBuffer),
    tb.lines.length ≤ MAX_LINES →
    (segs.foldl tb_store tb).lines.length ≤ MAX_LINES := by
  induction segs with
  | nil => intro tb h; simpa using h
  | cons a l ih =>
    intro tb h
    exact ih _ (tb_store_length tb a h)

theorem tb_store_lines (tb : TextBuffer) (line : CStr)
    (h : tb.lines.length ≤ MAX_LINES) :
    (tb_store tb line).lines = lastN MAX_LINES (tb.lines ++ [line]) := by
  unfold tb_store lastN
  simp only [MAX_LINES] at *
  by_cases hfull : tb.lines.length ≥ 20000
  · have heq : tb.lines.length = 20000 := by omega
    simp only [hfull, if_true, List.length_append, List.length_singleton, heq]
    rw [List.drop_append_of_le_length (by omega)]
    simp
  · simp only [hfull, if_false, List.length_append, List.length_singleton]
    have : tb.lines.length + 1 - 20000 = 0 := by omega
    rw [this, List.drop_zero]

theorem lastN_length {α : Type} (n : Nat) (l : List α) : (lastN n l).length ≤ n := by
  unfold lastN
  rw [List.length_drop]
  omega

theorem lastN_append_lastN {α : Type} (n : Nat) (l ys : List α) :
    lastN n (lastN n l ++ ys) = lastN n (l ++ ys) := by
  unfold lastN
  rw [List.length_append, List.length_append, List.length_drop]
  by_cases h : l.length ≤ n
  · have : l.length - n = 0 := by omega
    simp [this]
  · have h1 : l.length - (l.length - n) + ys.length - n = ys.length := by omega
    have h2 : l.length + ys.length - n = (l.length - n) + ys.length := by omega
    rw [h1, h2]
    rw [List.drop_append_eq_append_drop, List.drop_append_eq_append_drop]
    rw [List.drop_drop]
    simp only [List.length_drop]
    have h3 : ys.length - (l.length - (l.length - n)) = ys.length - n := by omega
    have h4 : l.length - n + ys.length - l.length = ys.length - n := by omega
    rw [h3, h4]

theorem tb_store_foldl_lines (segs : List CStr) : ∀ (tb : TextBuffer),
    tb.lines.length ≤ MAX_LINES →
    (segs.foldl tb_store tb).lines = lastN MAX_LINES (tb.lines ++ segs) := by
  induction segs with
  | nil =>
    intro tb h
    unfold lastN
    have : tb.lines.length - MAX_LINES = 0 := by omega
    simp [this]
  | cons a l ih =>
    intro tb h
    rw [List.foldl_cons, ih _ (tb_store_length tb a h), tb_store_lines tb a h,
      lastN_append_lastN]
    simp

theorem tb_append_foldl_lines (texts : List CStr) : ∀ (tb : TextBuffer),
    tb.lines.length ≤ MAX_LINES →
    (texts.foldl tb_append tb).lines.length ≤ MAX_LINES ∧
    (texts.foldl tb_append tb).lines =
      lastN MAX_LINES (tb.lines ++ texts.flatMap visibleLines) := by
  induction texts with
  | nil =>
    intro tb h
    refine ⟨by simpa using h, ?_⟩
    unfold lastN
    have : tb.lines.length - MAX_LINES = 0 := by omega
    simp [this]
  | cons s l ih =>
    intro tb h
    have hlen : (tb_append tb s).lines.length ≤ MAX_LINES := by
      rw [tb_append_eq]; exact tb_store_foldl_length _ tb h
    obtain ⟨h1, h2⟩ := ih (tb_append tb s) hlen
    refine ⟨h1, ?_⟩
    rw [List.foldl_cons, h2, tb_append_eq, tb_store_foldl_lines _ tb h,
      lastN_append_lastN, List.flatMap_cons, List.append_assoc]

/-! ## Scrollback: main theorems -/

/-- C1. Starting from `tb_init`, after every finite sequence of `tb_append`
calls, with arbitrary texts, the scrollback satisfies
`0 <= line_count <= MAX_LINES`. -/
theorem tb_append_line_count_bounded (texts : List CStr) :
    0 ≤ (texts.foldl tb_append tb_init).line_count ∧
    (texts.foldl tb_append tb_init).line_count ≤ MAX_LINES := by
  refine ⟨Nat.zero_le _, ?_⟩
  exact (tb_append_foldl_lines texts tb_init (by simp [tb_init])).1

theorem visibleLines_single (s : CStr) (hne : s ≠ []) (hnl : '\n' ∉ s) :
    visibleLines s = [s] := by
  have hall : ∀ c ∈ s, (c != '\n') = true := by
    intro c hc
    have : c ≠ '\n' := fun h => hnl (h ▸ hc)
    simpa using this
  have hd : s.dropWhile (fun c => c != '\n') = [] := by
    rw [List.dropWhile_eq_nil_iff]
    exact hall
  have ht : s.takeWhile (fun c => c != '\n') = s := by
    rw [List.takeWhile_eq_self_iff]
    exact hall
  have hsplit := splitOn_newline_eq s
  rw [hd] at hsplit
  simp only [ht] at hsplit
  simp [visibleLines, hsplit, hne]

/-- C2, as amended. At a full buffer, appending a non-empty text without
newline drops the oldest line, moves every other line down by one slot and
stores the text in the last slot; and after any sequence of appends from
`tb_init` the buffer holds the last `MAX_LINES` of all lines appended, in
append order, where the lines of a text are its pieces between newline bytes
except that a final empty piece is not a line. -/
theorem tb_append_fifo :
    (∀ (tb : TextBuffer) (s : CStr), tb.line_count = MAX_LINES → s ≠ [] → '\n' ∉ s →
      (tb_append tb s).line_count = MAX_LINES ∧
      (∀ i, i < MAX_LINES - 1 → (tb_append tb s).lines[i]? = tb.lines[i + 1]?) ∧
      (tb_append tb s).lines[MAX_LINES - 1]? = some s) ∧
    (∀ texts : List CStr,
      (texts.foldl tb_append tb_init).lines =
        lastN MAX_LINES (texts.flatMap visibleLines)) := by
  constructor
  · intro tb s hfull hne hnl
    have hfull2 : tb.lines.length = 20000 := hfull
    have happ : (tb_append tb s).lines = tb.lines.drop 1 ++ [s] := by
      rw [tb_append_eq, visibleLines_single s hne hnl]
      simp [tb_store, MAX_LINES, hfull2]
    have hlen : (tb.lines.drop 1).length = 19999 := by
      rw [List.length_drop, hfull2]
    refine ⟨?_, ?_, ?_⟩
    · show (tb_append tb s).lines.length = MAX_LINES
      rw [happ, List.length_append, hlen]
      rfl
    · intro i hi
      simp only [MAX_LINES] at hi
      rw [happ, List.getElem?_append_left (by omega), List.getElem?_drop, Nat.add_comm]
    · rw [happ]
      simp only [MAX_LINES]
      rw [List.getElem?_append_right (by omega), hlen]
      rfl
  · intro texts
    have h := (tb_append_foldl_lines texts tb_init (by simp [tb_init])).2
    simpa [tb_init] using h

/-- C2, an instance of `tb_append_fifo` at a full buffer of empty lines. -/
theorem tb_append_fifo_witness :
    (TextBuffer.mk (List.replicate MAX_LINES [])).line_count = MAX_LINES ∧
    (['x'] : CStr) ≠ [] ∧ '\n' ∉ (['x'] : CStr) ∧
    (tb_append (TextBuffer.mk (List.replicate MAX_LINES [])) ['x']).line_count = MAX_LINES ∧
    (tb_append (TextBuffer.mk (List.replicate MAX_LINES [])) ['x']).lines[MAX_LINES - 1]?
      = some ['x'] :=
  have h := tb_append_fifo.1 (TextBuffer.mk (List.replicate MAX_LINES [])) ['x']
    (by simp [TextBuffer.line_count]) (by simp) (by simp)
  ⟨by simp [TextBuffer.line_count], by simp, by simp, h.1, h.2.2⟩

/-- C2, as stated, fails: with the lines of a text read as the text split on
the newline byte, appending the one text `a\n` to the empty buffer should
leave the two lines `a` and the empty line, but `tb_append` stores only `a`. -/
theorem tb_append_split_counterexample :
    (["a\n".toList].foldl tb_append tb_init).lines = ["a".toList] ∧
    lastN MAX_LINES (["a\n".toList].flatMap splitLines) = ["a".toList, []] ∧
    (["a\n".toList].foldl tb_append tb_init).lines ≠
      lastN MAX_LINES (["a\n".toList].flatMap splitLines) := by
  decide



/-! ## History: auxiliary lemmas -/

theorem fgets_read_rest_le (k : Nat) : ∀ fp : List Char,
    (fgets_read k fp).2.length ≤ fp.length := by
  induction k with
  | zero => intro fp; simp [fgets_read]
  | succ k ih =>
    intro fp
    cases fp with
    | nil => simp [fgets_read]
    | cons c q =>
      simp only [fgets_read]
      split
      · simp
      · have := ih q
        simp only [List.length_cons]
        omega

theorem fgets_read_rest_lt (k : Nat) (c : Char) (q : List Char) :
    (fgets_read (k + 1) (c :: q)).2.length ≤ q.length := by
  simp only [fgets_read]
  split
  · simp
  · exact fgets_read_rest_le k q

/-- One iteration of the loop of `load_history` on a stream that is not at
its end. -/
theorem load_history_loop_succ (m : Nat) (c : Char) (q : List Char) (hist : List CStr) :
    load_history_loop (m + 1) (c :: q) hist =
      if ((fgets_read 8191 (c :: q)).1.takeWhile (fun c => c != '\n')).length = 0 then
        load_history_loop m (fgets_read 8191 (c :: q)).2 hist
      else if hist.length < MAX_HISTORY then
        load_history_loop m (fgets_read 8191 (c :: q)).2
          (hist ++ [(fgets_read 8191 (c :: q)).1.takeWhile (fun c => c != '\n')])
      else load_history_loop m (fgets_read 8191 (c :: q)).2 hist := by
  simp [load_history_loop, fgets, INPUT_MAX]

theorem load_history_loop_step (m : Nat) (fp : List Char) (hfp : fp ≠ []) (hist : List CStr) :
    load_history_loop (m + 1) fp hist =
      if ((fgets_read 8191 fp).1.takeWhile (fun c => c != '\n')).length = 0 then
        load_history_loop m (fgets_read 8191 fp).2 hist
      else if hist.length < MAX_HISTORY then
        load_history_loop m (fgets_read 8191 fp).2
          (hist ++ [(fgets_read 8191 fp).1.takeWhile (fun c => c != '\n')])
      else load_history_loop m (fgets_read 8191 fp).2 hist := by
  cases fp with
  | nil => exact absurd rfl hfp
  | cons c q => exact load_history_loop_succ m c q hist

theorem load_history_loop_nil (n : Nat) (hist : List CStr) :
    load_history_loop n [] hist = hist := by
  cases n <;> simp [load_history_loop, fgets]

/-- The iteration bound of `load_history_loop` is never the reason the loop
stops: any bound of at least the length of the stream gives the same
history. -/
theorem load_history_loop_fuel (n : Nat) : ∀ (fp : List Char) (hist : List CStr),
    fp.length ≤ n → load_history_loop n fp hist = load_history_loop fp.length fp hist := by
  induction n using Nat.strong_induction_on with
  | _ n ih =>
    intro fp hist hp
    cases fp with
    | nil => rw [load_history_loop_nil, load_history_loop_nil]
    | cons c q =>
      cases n with
      | zero => simp at hp
      | succ m =>
        have hlen : (c :: q).length = q.length + 1 := rfl
        have hr : (fgets_read 8191 (c :: q)).2.length ≤ q.length := fgets_read_rest_lt 8190 c q
        simp only [List.length_cons] at hp
        have key : ∀ X : List CStr,
            load_history_loop m (fgets_read 8191 (c :: q)).2 X =
            load_history_loop q.length (fgets_read 8191 (c :: q)).2 X := by
          intro X
          rw [ih m (by omega) _ X (by omega)]
          by_cases hq : q.length = m
          · rw [hq, ih m (by omega) _ X (by omega)]
          · rw [ih q.length (by omega) _ X (by omega)]
        rw [hlen, load_history_loop_succ, load_history_loop_succ, key, key]

theorem load_history_loop_length (n : Nat) : ∀ (fp : List Char) (hist : List CStr),
    hist.length ≤ MAX_HISTORY → (load_history_loop n fp hist).length ≤ MAX_HISTORY := by
  induction n with
  | zero => intro fp hist h; simpa [load_history_loop] using h
  | succ m ih =>
    intro fp hist h
    cases fp with
    | nil => rw [load_history_loop_nil]; exact h
    | cons c q =>
      rw [load_history_loop_succ]
      split
      · exact ih _ _ h
      · split
        · apply ih
          rw [List.length_append, List.length_singleton]
          omega
        · exact ih _ _ h

theorem load_history_length (file : Option (List Char)) (t : Tab)
    (h : t.history.length ≤ MAX_HISTORY) :
    (load_history file t).history.length ≤ MAX_HISTORY := by
  cases file with
  | none => exact h
  | some fp => exact load_history_loop_length _ _ _ h

theorem run_command_history_length (t : Tab) (h : t.history.length ≤ MAX_HISTORY) :
    (run_command_history t).history.length ≤ MAX_HISTORY := by
  unfold run_command_history
  split
  · exact h
  · simp only
    split
    · simp only [List.length_append, List.length_singleton]
      omega
    · simp only [List.length_append, List.length_singleton, List.length_drop]
      simp only [MAX_HISTORY] at *
      omega

/-- What `fgets` reads from a stream that starts with a line `e` and its
newline: the whole line when it fits, else its first `k` bytes. -/
theorem fgets_read_line (k : Nat) : ∀ (e rest : List Char), '\n' ∉ e →
    fgets_read k (e ++ '\n' :: rest) =
      if e.length < k then (e ++ ['\n'], rest)
      else (e.take k, e.drop k ++ '\n' :: rest) := by
  induction k with
  | zero => intro e rest _; simp [fgets_read]
  | succ k ih =>
    intro e rest hnl
    cases e with
    | nil => simp [fgets_read]
    | cons c e1 =>
      have hc : c ≠ '\n' := fun h => hnl (h ▸ List.mem_cons_self _ _)
      have hnl1 : '\n' ∉ e1 := fun h => hnl (List.mem_cons_of_mem _ h)
      have ih1 := ih e1 rest hnl1
      simp only [List.cons_append, fgets_read, hc, if_false,
        List.length_cons, Nat.add_lt_add_iff_right, List.append_eq]
      rw [ih1]
      split <;> simp

theorem takeWhile_no_newline (e : List Char) (hnl : '\n' ∉ e) :
    e.takeWhile (fun c => c != '\n') = e := by
  rw [List.takeWhile_eq_self_iff]
  intro c hc
  have : c ≠ '\n' := fun h => hnl (h ▸ hc)
  simpa using this

theorem takeWhile_line_newline (e : List Char) (hnl : '\n' ∉ e) :
    (e ++ ['\n']).takeWhile (fun c => c != '\n') = e := by
  induction e with
  | nil => simp [List.takeWhile]
  | cons c e1 ih =>
    have hc : c ≠ '\n' := fun h => hnl (h ▸ List.mem_cons_self _ _)
    have hnl1 : '\n' ∉ e1 := fun h => hnl (List.mem_cons_of_mem _ h)
    have hb : (c != '\n') = true := by simpa using hc
    have ih1 := ih hnl1
    simp only [List.cons_append, List.takeWhile, hb, List.append_eq]
    rw [ih1]

/-- Loading one saved entry: the loop of `load_history` turns the line `e`
and its newline into the history entry `e`. -/
theorem load_history_loop_entry (e rest : List Char) (acc : List CStr) (n : Nat)
    (hnl : '\n' ∉ e) (hne : e ≠ []) (hlen : e.length ≤ 8191)
    (hacc : acc.length < MAX_HISTORY) (hn : (e ++ '\n' :: rest).length ≤ n) :
    load_history_loop n (e ++ '\n' :: rest) acc =
      load_history_loop rest.length rest (acc ++ [e]) := by
  have hpos : 0 < e.length := List.length_pos.mpr hne
  simp only [List.length_append, List.length_cons] at hn
  cases n with
  | zero => omega
  | succ m =>
    rw [load_history_loop_step m _ (by simp), fgets_read_line 8191 e rest hnl]
    by_cases hfit : e.length < 8191
    · simp only [hfit, if_true, takeWhile_line_newline e hnl]
      have h0 : ¬ e.length = 0 := by omega
      simp only [h0, if_false, hacc, if_true]
      exact load_history_loop_fuel m rest _ (by omega)
    · have hlen2 : e.length = 8191 := by omega
      simp only [hfit, if_false, List.take_of_length_le (Nat.le_of_eq hlen2),
        List.drop_of_length_le (Nat.le_of_eq hlen2), List.nil_append,
        takeWhile_no_newline e hnl]
      have h0 : ¬ e.length = 0 := by omega
      simp only [h0, if_false, hacc, if_true]
      cases m with
      | zero => omega
      | succ m1 =>
        rw [load_history_loop_step m1 _ (by simp)]
        have hread : fgets_read 8191 ('\n' :: rest) = (['\n'], rest) := by
          simp [fgets_read]
        rw [hread]
        simp only [List.takeWhile]
        simp only [bne_self_eq_false, List.length_nil, if_true]
        exact load_history_loop_fuel m1 rest _ (by omega)

theorem load_history_loop_saved (H : List CStr) : ∀ (acc : List CStr),
    (∀ e ∈ H, e ≠ [] ∧ e.length ≤ 8191 ∧ '\n' ∉ e) →
    acc.length + H.length ≤ MAX_HISTORY →
    load_history_loop (H.flatMap (fun e => e ++ ['\n'])).length
      (H.flatMap (fun e => e ++ ['\n'])) acc = acc ++ H := by
  induction H with
  | nil => intro acc _ _; simp [load_history_loop]
  | cons e H ih =>
    intro acc hgood hcount
    obtain ⟨hne, hlen, hnl⟩ := hgood e (List.mem_cons_self _ _)
    simp only [List.length_cons] at hcount
    have hsave : (e :: H).flatMap (fun e => e ++ ['\n']) =
        e ++ '\n' :: H.flatMap (fun e => e ++ ['\n']) := by
      simp [List.flatMap_cons]
    rw [hsave, load_history_loop_entry e _ acc _ hnl hne hlen (by omega) (Nat.le_refl _),
      ih (acc ++ [e]) (fun x hx => hgood x (List.mem_cons_of_mem _ hx))
        (by rw [List.length_append, List.length_singleton]; omega)]
    simp

/-! ## History: main theorems -/

/-- C3. `hist_count <= MAX_HISTORY` is preserved by `load_history`, for a
file with any content, and by the history append of `run_command`, for every
submitted line, and it holds in every state reachable from `create_tab`. -/
theorem hist_count_bounded :
    (∀ (file : Option (List Char)) (t : Tab), t.hist_count ≤ MAX_HISTORY →
      (load_history file t).hist_count ≤ MAX_HISTORY) ∧
    (∀ t : Tab, t.hist_count ≤ MAX_HISTORY →
      (run_command_history t).hist_count ≤ MAX_HISTORY) ∧
    (∀ t : Tab, Reachable t → t.hist_count ≤ MAX_HISTORY) := by
  refine ⟨load_history_length, run_command_history_length, ?_⟩
  intro t ht
  induction ht with
  | create file =>
    apply load_history_length
    simp
  | submit t _ ih => exact run_command_history_length t ih
  | other t u _ hu ih =>
    show u.history.length ≤ MAX_HISTORY
    rw [hu]
    exact ih

/-- C3, an instance of `hist_count_bounded`: a tab created from a history
file of two lines, after one submitted line. -/
theorem hist_count_bounded_witness :
    Reachable (run_command_history { create_tab (some "ls\ncd x\n".toList) with
      input := "pwd".toList }) ∧
    (run_command_history { create_tab (some "ls\ncd x\n".toList) with
      input := "pwd".toList }).hist_count ≤ MAX_HISTORY :=
  have hr : Reachable (run_command_history { create_tab (some "ls\ncd x\n".toList) with
      input := "pwd".toList }) :=
    Reachable.submit _ (Reachable.other _ _ (Reachable.create (some "ls\ncd x\n".toList)) rfl)
  ⟨hr, hist_count_bounded.2.2 _ hr⟩

/-- C4. History append is FIFO: for every tab and every non-empty submitted
line, `run_command` leaves the history equal to the old history followed by
the line when `hist_count < MAX_HISTORY`, and equal to the old history
without its first entry followed by the line when
`hist_count = MAX_HISTORY`. -/
theorem run_command_history_fifo (t : Tab) (hne : t.input ≠ []) :
    (t.hist_count < MAX_HISTORY →
      (run_command_history t).history = t.history ++ [t.input]) ∧
    (t.hist_count = MAX_HISTORY →
      (run_command_history t).history = t.history.drop 1 ++ [t.input] ∧
      (run_command_history t).hist_count = MAX_HISTORY) := by
  have hlen : ¬ t.input.length = 0 := by
    intro h; exact hne (List.length_eq_zero.mp h)
  constructor
  · intro h
    have h2 : t.history.length < MAX_HISTORY := h
    simp [run_command_history, hlen, h2]
  · intro h
    have h2 : t.history.length = MAX_HISTORY := h
    have h3 : ¬ t.history.length < MAX_HISTORY := by omega
    constructor
    · simp [run_command_history, hlen, h3]
    · show (run_command_history t).history.length = MAX_HISTORY
      simp [run_command_history, hlen, h3]
      simp only [MAX_HISTORY] at *
      omega

/-- C4, instances of `run_command_history_fifo`: below capacity, and at
capacity with a history of `MAX_HISTORY` entries. -/
theorem run_command_history_fifo_witness :
    ((run_command_history { create_tab none with
        history := ["ls".toList], input := "pwd".toList }).history
      = ["ls".toList, "pwd".toList]) ∧
    ((run_command_history { create_tab none with
        history := "ls".toList :: List.replicate 9999 "cd".toList,
        input := "pwd".toList }).history
      = List.replicate 9999 "cd".toList ++ ["pwd".toList]) :=
  ⟨(run_command_history_fifo { create_tab none with
        history := ["ls".toList], input := "pwd".toList } (by decide)).1 (by decide),
   ((run_command_history_fifo { create_tab none with
        history := "ls".toList :: List.replicate 9999 "cd".toList,
        input := "pwd".toList } (by decide)).2
      (by
        show ("ls".toList :: List.replicate 9999 "cd".toList).length = 10000
        rw [List.length_cons, List.length_replicate])).1⟩

/-- C5, as amended. Save-then-load round trip: for every history of at most
`MAX_HISTORY` entries, each of them non-empty, of at most `INPUT_MAX - 1`
bytes and without a newline byte, loading with `load_history` into an empty
history the text written by `save_history` yields exactly the same sequence
of strings in the same order. -/
theorem history_save_load_roundtrip (t t0 : Tab) (h0 : t0.history = [])
    (hcount : t.hist_count ≤ MAX_HISTORY)
    (hgood : ∀ e ∈ t.history, e ≠ [] ∧ e.length ≤ INPUT_MAX - 1 ∧ '\n' ∉ e) :
    (load_history (some (save_history t)) t0).history = t.history := by
  show load_history_loop (save_history t).length (save_history t) t0.history = t.history
  rw [h0]
  unfold save_history
  rw [load_history_loop_saved t.history [] hgood (by simpa using hcount)]
  simp

/-- C5, an instance of `history_save_load_roundtrip` at a history of two
single-line commands. -/
theorem history_save_load_roundtrip_witness :
    (load_history (some (save_history { create_tab none with
        history := ["ls -la".toList, "cd project".toList] })) (create_tab none)).history
      = ["ls -la".toList, "cd project".toList] :=
  history_save_load_roundtrip
    { create_tab none with history := ["ls -la".toList, "cd project".toList] }
    (create_tab none) (by decide) (by decide) (by decide)

/-- C5, as stated, fails for a line built by backslash continuation: Enter
after `echo a\` continues the line with a newline, Enter after `echo a`,
newline, `b` stores that two-line text as one history entry, and the saved
file loads back as the two entries `echo a` and `b`. -/
theorem history_roundtrip_counterexample :
    (key_enter { create_tab none with input := "echo a\\".toList }).input
      = "echo a\n".toList ∧
    (key_enter { create_tab none with input := "echo a\nb".toList }).history
      = ["echo a\nb".toList] ∧
    (load_history (some (save_history
        (key_enter { create_tab none with input := "echo a\nb".toList })))
      (create_tab none)).history = ["echo a".toList, "b".toList] ∧
    (load_history (some (save_history
        (key_enter { create_tab none with input := "echo a\nb".toList })))
      (create_tab none)).history ≠
      (key_enter { create_tab none with input := "echo a\nb".toList }).history := by
  decide

/-! ## History search: exact match -/

theorem history_exact_match_loop_spec (history : List CStr) (term : CStr) (n : Nat) :
    (history_exact_match_loop history term n = -1 ∧
      ∀ j, j < n → history[j]? ≠ some term) ∨
    (∃ i : Nat, i < n ∧ history_exact_match_loop history term n = (i : Int) ∧
      history[i]? = some term ∧ ∀ j, i < j → j < n → history[j]? ≠ some term) := by
  induction n with
  | zero =>
    left
    exact ⟨rfl, fun j hj => absurd hj (Nat.not_lt_zero j)⟩
  | succ m ih =>
    by_cases hm : history[m]? = some term
    · right
      refine ⟨m, Nat.lt_succ_self m, ?_, hm, ?_⟩
      · simp [history_exact_match_loop, hm]
      · intro j h1 h2
        omega
    · have hstep : history_exact_match_loop history term (m + 1) =
          history_exact_match_loop history term m := by
        simp [history_exact_match_loop, hm]
      rw [hstep]
      rcases ih with ⟨h1, h2⟩ | ⟨i, hi, h1, h2, h3⟩
      · left
        refine ⟨h1, ?_⟩
        intro j hj
        by_cases hjm : j = m
        · rw [hjm]; exact hm
        · exact h2 j (by omega)
      · right
        refine ⟨i, by omega, h1, h2, ?_⟩
        intro j hij hj
        by_cases hjm : j = m
        · rw [hjm]; exact hm
        · exact h3 j hij (by omega)

/-- C6. `history_exact_match` returns the most recent exact match: for every
history and every non-empty term the result is `-1` exactly when no entry
equals the term, and it is the index `i` exactly when `i` is the largest index
below `hist_count` whose entry equals the term; on the history `ls -la`,
`cd project`, `ls -la` the term `ls -la` gives index 2. -/
theorem history_exact_match_most_recent (t : Tab) (term : CStr) (hne : term ≠ []) :
    (history_exact_match t term = -1 ↔ term ∉ t.history) ∧
    (∀ i : Nat, history_exact_match t term = (i : Int) ↔
      (i < t.hist_count ∧ t.history[i]? = some term ∧
        ∀ j, i < j → j < t.hist_count → t.history[j]? ≠ some term)) ∧
    history_exact_match
      { create_tab none with
        history := ["ls -la".toList, "cd project".toList, "ls -la".toList] }
      "ls -la".toList = 2 := by
  have hdef : history_exact_match t term =
      history_exact_match_loop t.history term t.history.length := by
    simp [history_exact_match, hne, Tab.hist_count]
  have hnot : term ∉ t.history ↔ ∀ j, j < t.history.length → t.history[j]? ≠ some term := by
    constructor
    · intro h j _ hj
      exact h (List.getElem?_mem hj)
    · intro h hmem
      obtain ⟨j, hj, hget⟩ := List.mem_iff_getElem.mp hmem
      exact h j hj (by rw [List.getElem?_eq_getElem hj, hget])
  refine ⟨?_, ?_, by decide⟩
  · rw [hdef, hnot]
    rcases history_exact_match_loop_spec t.history term t.history.length with
      ⟨h1, h2⟩ | ⟨i, hi, h1, h2, h3⟩
    · exact ⟨fun _ => h2, fun _ => h1⟩
    · constructor
      · intro h
        rw [h1] at h
        omega
      · intro h
        exact absurd h2 (h i hi)
  · intro i
    rw [hdef]
    show _ ↔ (i < t.history.length ∧ _ ∧ ∀ j, i < j → j < t.history.length → _)
    rcases history_exact_match_loop_spec t.history term t.history.length with
      ⟨h1, h2⟩ | ⟨k, hk, h1, h2, h3⟩
    · constructor
      · intro h
        rw [h1] at h
        omega
      · rintro ⟨hi, hget, _⟩
        exact absurd hget (h2 i hi)
    · constructor
      · intro h
        rw [h1] at h
        have hki : k = i := by omega
        subst hki
        exact ⟨hk, h2, h3⟩
      · rintro ⟨hi, hget, hmax⟩
        rw [h1]
        have hki : k = i := by
          rcases Nat.lt_trichotomy k i with hlt | heq | hgt
          · exact absurd hget (h3 i hlt hi)
          · exact heq
          · exact absurd h2 (hmax k hgt hk)
        rw [hki]

/-- C6, an instance of `history_exact_match_most_recent`: the history and the
term of the specification's example; index 2 is the largest index of a
match. -/
theorem history_exact_match_most_recent_witness :
    ("ls -la".toList ≠ []) ∧
    history_exact_match
      { create_tab none with
        history := ["ls -la".toList, "cd project".toList, "ls -la".toList] }
      "ls -la".toList = ((2 : Nat) : Int) :=
  ⟨by decide,
    ((history_exact_match_most_recent
      { create_tab none with
        history := ["ls -la".toList, "cd project".toList, "ls -la".toList] }
      "ls -la".toList (by decide)).2.1 2).mpr
      ⟨by decide, by decide, fun j h1 h2 => by
        have h3 : j < 3 := h2
        omega⟩⟩

/-! ## History search: longest substring -/

theorem strstr_iff (h sub : CStr) : strstr h sub = true ↔ sub <:+: h := by
  induction h with
  | nil => simp [strstr, List.infix_nil]
  | cons c h1 ih =>
    rw [List.infix_cons_iff, ← ih, ← List.isPrefixOf_iff_prefix]
    simp [strstr]

theorem matchAt_length_le (h term : CStr) (L : Nat) (hm : MatchAt h term L) :
    L ≤ term.length := by
  obtain ⟨sub, h1, _, h3⟩ := hm
  rw [← h3]
  exact h1.length_le

/-- A substring of `term` of length `len` is the `len` bytes from some
`start` with `start + len <= tlen`. -/
theorem matchAt_iff_start (h term : CStr) (len : Nat) :
    MatchAt h term len ↔
      ∃ start, start + len ≤ term.length ∧ (term.drop start).take len <:+: h := by
  constructor
  · rintro ⟨sub, ⟨s, u, hsu⟩, hin, hlen⟩
    refine ⟨s.length, ?_, ?_⟩
    · have := congrArg List.length hsu
      simp only [List.length_append] at this
      omega
    · rw [← hsu, List.append_assoc, List.drop_left, List.take_left' hlen]
      exact hin
  · rintro ⟨start, hle, hin⟩
    refine ⟨(term.drop start).take len, ?_, hin, ?_⟩
    · exact (List.take_prefix _ _).isInfix.trans (List.drop_suffix _ _).isInfix
    · rw [List.length_take, List.length_drop]
      omega

theorem substring_found_sound (h term : CStr) (len : Nat) (hle : len ≤ term.length)
    (hf : substring_found h term len = true) : MatchAt h term len ∧ len < 256 := by
  unfold substring_found at hf
  rw [List.any_eq_true] at hf
  obtain ⟨start, hmem, hp⟩ := hf
  rw [List.mem_range] at hmem
  by_cases h256 : len ≥ 256
  · simp [h256] at hp
  · simp only [h256, if_false] at hp
    refine ⟨(matchAt_iff_start h term len).mpr ⟨start, by omega, (strstr_iff _ _).mp hp⟩, ?_⟩
    omega

theorem substring_found_complete (h term : CStr) (len : Nat) (h256 : len < 256)
    (hm : MatchAt h term len) : substring_found h term len = true := by
  obtain ⟨start, hle, hin⟩ := (matchAt_iff_start h term len).mp hm
  unfold substring_found
  rw [List.any_eq_true]
  refine ⟨start, ?_, ?_⟩
  · rw [List.mem_range]; omega
  · have : ¬ len ≥ 256 := by omega
    simp only [this, if_false]
    exact (strstr_iff _ _).mpr hin

theorem entry_match_len_some (h term : CStr) (n : Nat) : ∀ l,
    n ≤ term.length → entry_match_len h term n = some l →
    3 ≤ l ∧ l ≤ n ∧ MatchAt h term l := by
  induction n with
  | zero => intro l _ hl; simp [entry_match_len] at hl
  | succ m ih =>
    intro l hn hl
    simp only [entry_match_len] at hl
    by_cases h3 : m + 1 < 3
    · simp [h3] at hl
    · simp only [h3, if_false] at hl
      by_cases hf : substring_found h term (m + 1) = true
      · simp only [hf, if_true, Option.some.injEq] at hl
        subst hl
        exact ⟨by omega, Nat.le_refl _, (substring_found_sound h term _ hn hf).1⟩
      · simp only [hf] at hl
        obtain ⟨a, b, c⟩ := ih l (by omega) hl
        exact ⟨a, by omega, c⟩

theorem entry_match_len_max (h term : CStr) (n : Nat) : ∀ l,
    n < 256 → entry_match_len h term n = some l →
    ∀ l1, l < l1 → l1 ≤ n → ¬ MatchAt h term l1 := by
  induction n with
  | zero => intro l _ hl; simp [entry_match_len] at hl
  | succ m ih =>
    intro l hn hl l1 hlt hle hm
    simp only [entry_match_len] at hl
    by_cases h3 : m + 1 < 3
    · simp [h3] at hl
    · simp only [h3, if_false] at hl
      by_cases hf : substring_found h term (m + 1) = true
      · simp only [hf, if_true, Option.some.injEq] at hl
        omega
      · simp only [hf] at hl
        by_cases h1 : l1 = m + 1
        · subst h1
          exact hf (substring_found_complete h term _ hn hm)
        · exact ih l (by omega) hl l1 hlt (by omega) hm

theorem entry_match_len_none (h term : CStr) (n : Nat) :
    n < 256 → entry_match_len h term n = none →
    ∀ l1, 3 ≤ l1 → l1 ≤ n → ¬ MatchAt h term l1 := by
  induction n with
  | zero => intro _ _ l1 h3 hle; omega
  | succ m ih =>
    intro hn hl l1 h3l hle hm
    simp only [entry_match_len] at hl
    by_cases h3 : m + 1 < 3
    · omega
    · simp only [h3, if_false] at hl
      by_cases hf : substring_found h term (m + 1) = true
      · simp [hf] at hl
      · simp only [hf] at hl
        by_cases h1 : l1 = m + 1
        · subst h1
          exact hf (substring_found_complete h term _ hn hm)
        · exact ih (by omega) hl l1 h3l (by omega) hm

theorem entry_match_len_no_match (h term : CStr)
    (hno : ∀ L, 3 ≤ L → ¬ MatchAt h term L) (n : Nat) :
    n ≤ term.length → entry_match_len h term n = none := by
  induction n with
  | zero => intro _; rfl
  | succ m ih =>
    intro hn
    simp only [entry_match_len]
    by_cases h3 : m + 1 < 3
    · simp [h3]
    · simp only [h3, if_false]
      by_cases hf : substring_found h term (m + 1) = true
      · exact absurd (substring_found_sound h term _ hn hf).1 (hno _ (by omega))
      · simp only [hf]
        exact ih (by omega)

/-- What `entry_best` is when it is not 0: a length of at least 3 at which the
entry contains a substring of the term. -/
theorem entry_best_pos (h term : CStr) (hpos : 0 < entry_best h term) :
    3 ≤ entry_best h term ∧ MatchAt h term (entry_best h term) := by
  unfold entry_best at *
  cases hm : entry_match_len h term term.length with
  | none => simp [hm] at hpos
  | some l =>
    obtain ⟨a, _, c⟩ := entry_match_len_some h term _ l (Nat.le_refl _) hm
    simp only [Option.getD_some]
    exact ⟨a, c⟩

/-- For a term that fits the buffer `sub[256]`, `entry_best` is at least every
length, from 3 on, at which the entry contains a substring of the term. -/
theorem entry_best_ge (h term : CStr) (hlen : term.length < 256) (L : Nat)
    (h3 : 3 ≤ L) (hm : MatchAt h term L) : L ≤ entry_best h term := by
  have hL := matchAt_length_le h term L hm
  unfold entry_best
  cases he : entry_match_len h term term.length with
  | none => exact absurd hm (entry_match_len_none h term _ hlen he L h3 hL)
  | some l =>
    simp only [Option.getD_some]
    by_contra hcon
    exact entry_match_len_max h term _ l hlen he L (by omega) hL hm

theorem entry_best_no_match (h term : CStr)
    (hno : ∀ L, 3 ≤ L → ¬ MatchAt h term L) : entry_best h term = 0 := by
  unfold entry_best
  rw [entry_match_len_no_match h term hno _ (Nat.le_refl _)]
  rfl

/-- The entry loop of `history_longest_substring`: either no entry beats
`best_len` and `best_idx` is returned, or the result is the first index whose
entry has the greatest `entry_best`, which is above `best_len`. -/
theorem history_longest_substring_loop_spec (term : CStr) (rest : List CStr) :
    ∀ (i best_len : Nat) (best_idx : Int),
    (history_longest_substring_loop term rest i best_len best_idx = best_idx ∧
      ∀ h ∈ rest, entry_best h term ≤ best_len) ∨
    (∃ (k : Nat) (hk : CStr), rest[k]? = some hk ∧
      history_longest_substring_loop term rest i best_len best_idx = ((i + k : Nat) : Int) ∧
      best_len < entry_best hk term ∧
      (∀ h ∈ rest, entry_best h term ≤ entry_best hk term) ∧
      (∀ j hj, j < k → rest[j]? = some hj → entry_best hj term < entry_best hk term)) := by
  induction rest with
  | nil =>
    intro i bl bi
    left
    exact ⟨rfl, fun h hh => absurd hh (List.not_mem_nil h)⟩
  | cons h rest1 ih =>
    intro i bl bi
    by_cases hbeat : bl < entry_best h term
    · have hstep : history_longest_substring_loop term (h :: rest1) i bl bi =
          history_longest_substring_loop term rest1 (i + 1) (entry_best h term) i := by
        unfold entry_best at hbeat ⊢
        cases hm : entry_match_len h term term.length with
        | none => simp [hm] at hbeat
        | some l =>
          simp only [hm, Option.getD_some] at hbeat
          simp [history_longest_substring_loop, hm, hbeat]
      rw [hstep]
      right
      rcases ih (i + 1) (entry_best h term) i with ⟨h1, h2⟩ | ⟨k, hk, hget, h1, h2, h3, h4⟩
      · refine ⟨0, h, by simp, by simpa using h1, hbeat, ?_, ?_⟩
        · intro x hx
          rcases List.mem_cons.mp hx with rfl | hx
          · exact Nat.le_refl _
          · exact h2 x hx
        · intro j hj hlt
          omega
      · refine ⟨k + 1, hk, by simpa using hget, ?_, by omega, ?_, ?_⟩
        · rw [h1]
          congr 1
          omega
        · intro x hx
          rcases List.mem_cons.mp hx with rfl | hx
          · omega
          · exact h3 x hx
        · intro j hj hlt hgetj
          cases j with
          | zero =>
            simp only [List.getElem?_cons_zero, Option.some.injEq] at hgetj
            subst hgetj
            exact h2
          | succ j1 =>
            simp only [List.getElem?_cons_succ] at hgetj
            exact h4 j1 hj (by omega) hgetj
    · have hstep : history_longest_substring_loop term (h :: rest1) i bl bi =
          history_longest_substring_loop term rest1 (i + 1) bl bi := by
        unfold entry_best at hbeat
        cases hm : entry_match_len h term term.length with
        | none => simp [history_longest_substring_loop, hm]
        | some l =>
          simp only [hm, Option.getD_some] at hbeat
          simp [history_longest_substring_loop, hm, hbeat]
      rw [hstep]
      rcases ih (i + 1) bl bi with ⟨h1, h2⟩ | ⟨k, hk, hget, h1, h2, h3, h4⟩
      · left
        refine ⟨h1, ?_⟩
        intro x hx
        rcases List.mem_cons.mp hx with rfl | hx
        · omega
        · exact h2 x hx
      · right
        refine ⟨k + 1, hk, by simpa using hget, ?_, h2, ?_, ?_⟩
        · rw [h1]
          congr 1
          omega
        · intro x hx
          rcases List.mem_cons.mp hx with rfl | hx
          · omega
          · exact h3 x hx
        · intro j hj hlt hgetj
          cases j with
          | zero =>
            simp only [List.getElem?_cons_zero, Option.some.injEq] at hgetj
            subst hgetj
            omega
          | succ j1 =>
            simp only [List.getElem?_cons_succ] at hgetj
            exact h4 j1 hj (by omega) hgetj

/-- For a term that fits the buffer and a greatest matching length `L >= 3`,
`history_longest_substring` returns the first index whose entry contains a
substring of the term of length `L`. -/
theorem history_longest_substring_first (history : List CStr) (term : CStr)
    (hlen : term.length < 256) (L : Nat) (hL : IsLongestMatch history term L)
    (h3 : 3 ≤ L) :
    ∃ (k : Nat) (hk : CStr), history[k]? = some hk ∧
      history_longest_substring_loop term history 0 0 (-1) = (k : Int) ∧
      MatchAt hk term L ∧
      ∀ j hj, j < k → history[j]? = some hj → ¬ MatchAt hj term L := by
  obtain ⟨⟨h0, hmem0, hm0⟩, hmax⟩ := hL
  have hge0 := entry_best_ge h0 term hlen L h3 hm0
  rcases history_longest_substring_loop_spec term history 0 0 (-1) with
    ⟨_, h2⟩ | ⟨k, hk, hget, h1, h2, h3a, h4⟩
  · have := h2 h0 hmem0
    omega
  · have hkmem : hk ∈ history := List.getElem?_mem hget
    obtain ⟨_, hmk⟩ := entry_best_pos hk term h2
    have hle : entry_best hk term ≤ L := hmax hk hkmem _ hmk
    have hge : L ≤ entry_best hk term := Nat.le_trans hge0 (h3a h0 hmem0)
    have heq : entry_best hk term = L := Nat.le_antisymm hle hge
    refine ⟨k, hk, hget, by simpa using h1, heq ▸ hmk, ?_⟩
    intro j hj hlt hgetj hmj
    have h5 := h4 j hj hlt hgetj
    have h6 := entry_best_ge hj term hlen L h3 hmj
    omega

theorem history_longest_substring_none (history : List CStr) (term : CStr)
    (hno : ∀ h ∈ history, ∀ L, 3 ≤ L → ¬ MatchAt h term L) :
    history_longest_substring_loop term history 0 0 (-1) = -1 := by
  rcases history_longest_substring_loop_spec term history 0 0 (-1) with
    ⟨h1, _⟩ | ⟨k, hk, hget, _, h2, _, _⟩
  · exact h1
  · have hkmem : hk ∈ history := List.getElem?_mem hget
    rw [entry_best_no_match hk term (hno hk hkmem)] at h2
    omega

theorem getElem?_some_lt {α : Type} (l : List α) (k : Nat) (a : α)
    (h : l[k]? = some a) : k < l.length := by
  by_contra hc
  rw [List.getElem?_eq_none (by omega)] at h
  cases h

/-- The longest match of a term that occurs whole in some entry is the term
itself. -/
theorem isLongestMatch_whole (history : List CStr) (term h : CStr)
    (hmem : h ∈ history) (hin : strstr h term = true) :
    IsLongestMatch history term term.length :=
  ⟨⟨h, hmem, term, List.infix_refl term, (strstr_iff h term).mp hin, rfl⟩,
    fun h1 _ L1 hm => matchAt_length_le h1 term L1 hm⟩

/-- C7, as amended. `history_longest_substring` finds the longest match of a
term of fewer than 256 bytes: if the greatest length `L` of a contiguous
substring of the term that occurs inside some history entry is at least 3, the
function returns the index of an entry that contains a substring of the term
of length `L`.  For every term, if no substring of the term of length at least
3 occurs in any entry, in particular when the term is shorter than 3 bytes, it
returns `-1`.  On the history `ls -la`, `cd project`, `ls -la` the term `proj`
gives the index of `cd project`. -/
theorem history_longest_substring_longest (t : Tab) (term : CStr) :
    (term.length < 256 → ∀ L, IsLongestMatch t.history term L → 3 ≤ L →
      ∃ (k : Nat) (hk : CStr), history_longest_substring t term = (k : Int) ∧
        k < t.hist_count ∧ t.history[k]? = some hk ∧ MatchAt hk term L) ∧
    ((∀ h ∈ t.history, ∀ L, 3 ≤ L → ¬ MatchAt h term L) →
      history_longest_substring t term = -1) ∧
    (term.length < 3 → history_longest_substring t term = -1) ∧
    history_longest_substring
      { create_tab none with
        history := ["ls -la".toList, "cd project".toList, "ls -la".toList] }
      "proj".toList = 1 := by
  refine ⟨?_, ?_, ?_, by decide⟩
  · intro hlen L hL h3
    obtain ⟨k, hk, hget, hres, hm, _⟩ :=
      history_longest_substring_first t.history term hlen L hL h3
    have htl : ¬ term.length < 3 := by
      have := matchAt_length_le hk term L hm
      omega
    refine ⟨k, hk, ?_, getElem?_some_lt _ _ _ hget, hget, hm⟩
    simp only [history_longest_substring, htl, if_false]
    exact hres
  · intro hno
    unfold history_longest_substring
    split
    · rfl
    · exact history_longest_substring_none t.history term hno
  · intro hlt
    simp [history_longest_substring, hlt]

/-- C7, an instance of `history_longest_substring_longest`: the history of the
specification's example and the term `proj`, whose longest match has length
4. -/
theorem history_longest_substring_longest_witness :
    "proj".toList.length < 256 ∧
    IsLongestMatch ["ls -la".toList, "cd project".toList, "ls -la".toList] "proj".toList 4 ∧
    ∃ (k : Nat) (hk : CStr),
      history_longest_substring
        { create_tab none with
          history := ["ls -la".toList, "cd project".toList, "ls -la".toList] }
        "proj".toList = (k : Int) ∧
      k < 3 ∧
      ["ls -la".toList, "cd project".toList, "ls -la".toList][k]? = some hk ∧
      MatchAt hk "proj".toList 4 :=
  have hL : IsLongestMatch ["ls -la".toList, "cd project".toList, "ls -la".toList]
      "proj".toList 4 :=
    isLongestMatch_whole _ "proj".toList "cd project".toList (by decide) (by decide)
  ⟨by decide, hL,
    (history_longest_substring_longest
      { create_tab none with
        history := ["ls -la".toList, "cd project".toList, "ls -la".toList] }
      "proj".toList).1 (by decide) 4 hL (by decide)⟩

/-- A term of 256 bytes: the length 256 is skipped by the buffer guard, and an
entry that contains the first 255 bytes of the term is left at length 255. -/
theorem entry_match_len_long_term (h term : CStr) (hlen : term.length = 256)
    (hin : term.take 255 <:+: h) :
    entry_match_len h term term.length = some 255 := by
  have hskip : substring_found h term 256 = false := by
    simp [substring_found]
  have hm : MatchAt h term 255 :=
    (matchAt_iff_start h term 255).mpr ⟨0, by omega, by simpa using hin⟩
  have hfound : substring_found h term 255 = true :=
    substring_found_complete h term 255 (by decide) hm
  rw [hlen]
  show entry_match_len h term (255 + 1) = some 255
  rw [entry_match_len, if_neg (by decide)]
  show (if substring_found h term 256 = true then some 256
    else entry_match_len h term (254 + 1)) = some 255
  rw [hskip, if_neg (by decide), entry_match_len, if_neg (by decide)]
  show (if substring_found h term 255 = true then some 255
    else entry_match_len h term 254) = some 255
  rw [hfound, if_pos rfl]

/-- Two entries that are left at the same length: the first one is kept. -/
theorem history_longest_substring_two (t : Tab) (term h0 h1 : CStr) (l : Nat)
    (ht : t.history = [h0, h1]) (h3 : 3 ≤ term.length) (hpos : 0 < l)
    (he0 : entry_match_len h0 term term.length = some l)
    (he1 : entry_match_len h1 term term.length = some l) :
    history_longest_substring t term = 0 := by
  have hlen : ¬ term.length < 3 := by omega
  simp [history_longest_substring, hlen, ht, history_longest_substring_loop, he0, he1, hpos]

/-- C7, as stated, fails for a term that does not fit the buffer `sub[256]`:
with the entries `a` repeated 255 times and `a` repeated 256 times and the
term `a` repeated 256 times, the greatest matching length is 256, but the
function returns index 0, whose entry contains no substring of length 256. -/
theorem history_longest_substring_counterexample :
    IsLongestMatch [List.replicate 255 'a', List.replicate 256 'a']
      (List.replicate 256 'a') 256 ∧
    history_longest_substring
      { create_tab none with
        history := [List.replicate 255 'a', List.replicate 256 'a'] }
      (List.replicate 256 'a') = 0 ∧
    ¬ MatchAt (List.replicate 255 'a') (List.replicate 256 'a') 256 ∧
    ¬ ∃ (k : Nat) (hk : CStr),
      history_longest_substring
        { create_tab none with
          history := [List.replicate 255 'a', List.replicate 256 'a'] }
        (List.replicate 256 'a') = (k : Int) ∧
      [List.replicate 255 'a', List.replicate 256 'a'][k]? = some hk ∧
      MatchAt hk (List.replicate 256 'a') 256 := by
  have hlen : (List.replicate 256 'a').length = 256 := List.length_replicate _ _
  have he0 : entry_match_len (List.replicate 255 'a') (List.replicate 256 'a')
      (List.replicate 256 'a').length = some 255 := by
    apply entry_match_len_long_term _ _ hlen
    rw [List.take_replicate]
    exact List.infix_refl _
  have he1 : entry_match_len (List.replicate 256 'a') (List.replicate 256 'a')
      (List.replicate 256 'a').length = some 255 :=
    entry_match_len_long_term _ _ hlen (List.take_prefix _ _).isInfix
  have hres : history_longest_substring
      { create_tab none with
        history := [List.replicate 255 'a', List.replicate 256 'a'] }
      (List.replicate 256 'a') = 0 :=
    history_longest_substring_two _ _ _ _ 255 rfl (by rw [hlen]; decide) (by decide) he0 he1
  have hno : ¬ MatchAt (List.replicate 255 'a') (List.replicate 256 'a') 256 := by
    rintro ⟨sub, _, hin, hsub⟩
    have := hin.length_le
    rw [hsub, List.length_replicate] at this
    omega
  have hL : IsLongestMatch [List.replicate 255 'a', List.replicate 256 'a']
      (List.replicate 256 'a') 256 := by
    refine ⟨⟨List.replicate 256 'a', List.mem_cons_of_mem _ (List.mem_cons_self _ _),
      List.replicate 256 'a', List.infix_refl _, List.infix_refl _, hlen⟩, ?_⟩
    intro h1 _ L1 hm
    have := matchAt_length_le h1 _ L1 hm
    rwa [hlen] at this
  refine ⟨hL, hres, hno, ?_⟩
  rintro ⟨k, hk, hk1, hk2, hk3⟩
  rw [hres] at hk1
  have hk0 : k = 0 := by omega
  subst hk0
  have hk4 : hk = List.replicate 255 'a' := by
    have h5 : some (List.replicate 255 'a') = some hk := hk2
    exact (Option.some.inj h5).symm
  rw [hk4] at hk3
  exact hno hk3

/-- C8, as amended. Tie-break of `history_longest_substring`: for every
history and every term of fewer than 256 bytes whose greatest matching length
`L` is at least 3, the returned index is the smallest index of an entry that
contains a substring of the term of length `L`, that is the earliest added of
the tied entries. -/
theorem history_longest_substring_tie_first (t : Tab) (term : CStr)
    (hlen : term.length < 256) (L : Nat) (hL : IsLongestMatch t.history term L)
    (h3 : 3 ≤ L) :
    ∃ (k : Nat) (hk : CStr), history_longest_substring t term = (k : Int) ∧
      t.history[k]? = some hk ∧ MatchAt hk term L ∧
      ∀ j hj, j < k → t.history[j]? = some hj → ¬ MatchAt hj term L := by
  obtain ⟨k, hk, hget, hres, hm, hfirst⟩ :=
    history_longest_substring_first t.history term hlen L hL h3
  have htl : ¬ term.length < 3 := by
    have := matchAt_length_le hk term L hm
    omega
  refine ⟨k, hk, ?_, hget, hm, hfirst⟩
  simp only [history_longest_substring, htl, if_false]
  exact hres

/-- C8, an instance of `history_longest_substring_tie_first`: the term
`ls -la`, which occurs whole in two entries of the history. -/
theorem history_longest_substring_tie_first_witness :
    "ls -la".toList.length < 256 ∧
    IsLongestMatch ["ls -la".toList, "cd project".toList, "ls -la".toList]
      "ls -la".toList 6 ∧
    ∃ (k : Nat) (hk : CStr),
      history_longest_substring
        { create_tab none with
          history := ["ls -la".toList, "cd project".toList, "ls -la".toList] }
        "ls -la".toList = (k : Int) ∧
      ["ls -la".toList, "cd project".toList, "ls -la".toList][k]? = some hk ∧
      MatchAt hk "ls -la".toList 6 ∧
      ∀ j hj, j < k →
        ["ls -la".toList, "cd project".toList, "ls -la".toList][j]? = some hj →
        ¬ MatchAt hj "ls -la".toList 6 :=
  have hL : IsLongestMatch ["ls -la".toList, "cd project".toList, "ls -la".toList]
      "ls -la".toList 6 :=
    isLongestMatch_whole _ "ls -la".toList "ls -la".toList (by decide) (by decide)
  ⟨by decide, hL,
    history_longest_substring_tie_first
      { create_tab none with
        history := ["ls -la".toList, "cd project".toList, "ls -la".toList] }
      "ls -la".toList (by decide) 6 hL (by decide)⟩

/-- C8, as stated, fails: on the history `ls -la`, `cd project`, `ls -la` the
term `ls -la` occurs whole, with the greatest matching length 6, in the
entries 0 and 2, and the function returns 0, not the largest tied index 2. -/
theorem history_longest_substring_tie_counterexample :
    IsLongestMatch ["ls -la".toList, "cd project".toList, "ls -la".toList]
      "ls -la".toList 6 ∧
    MatchAt "ls -la".toList "ls -la".toList 6 ∧
    ["ls -la".toList, "cd project".toList, "ls -la".toList][0]? = some "ls -la".toList ∧
    ["ls -la".toList, "cd project".toList, "ls -la".toList][2]? = some "ls -la".toList ∧
    history_longest_substring
      { create_tab none with
        history := ["ls -la".toList, "cd project".toList, "ls -la".toList] }
      "ls -la".toList = 0 ∧
    history_longest_substring
      { create_tab none with
        history := ["ls -la".toList, "cd project".toList, "ls -la".toList] }
      "ls -la".toList ≠ 2 :=
  ⟨isLongestMatch_whole _ "ls -la".toList "ls -la".toList (by decide) (by decide),
    ⟨"ls -la".toList, List.infix_refl _, List.infix_refl _, by decide⟩,
    by decide, by decide, by decide, by decide⟩

/-! ## Job table -/

theorem add_job_job_count_le (t : Tab) (pid master_fd : Int) (cmd : CStr)
    (h : t.jobs.length ≤ MAX_JOBS) : (add_job t pid master_fd cmd).jobs.length ≤ MAX_JOBS := by
  unfold add_job
  split
  · exact h
  · simp only [List.length_append, List.length_singleton]
    omega

theorem add_job_foldl_job_count_le (calls : List (Int × Int × CStr)) : ∀ t : Tab,
    t.jobs.length ≤ MAX_JOBS →
    (calls.foldl (fun u c => add_job u c.1 c.2.1 c.2.2) t).jobs.length ≤ MAX_JOBS := by
  induction calls with
  | nil => intro t h; simpa using h
  | cons c rest ih =>
    intro t h
    exact ih _ (add_job_job_count_le t c.1 c.2.1 c.2.2 h)

theorem create_tab_jobs (file : Option (List Char)) : (create_tab file).jobs = [] := by
  cases file <;> rfl

/-- C9. `add_job` registers a new active job: for every job table with
`job_count < MAX_JOBS` and every pid, descriptor and label, `add_job` increases
`job_count` by exactly one, the new entry at index old `job_count` has the
given pid, the given descriptor, `active = 1` and `cmd` equal to the label
truncated to at most 255 bytes, and every entry at a lower index is
unchanged. -/
theorem add_job_registers (t : Tab) (pid master_fd : Int) (cmd : CStr)
    (h : t.job_count < MAX_JOBS) :
    (add_job t pid master_fd cmd).job_count = t.job_count + 1 ∧
    (add_job t pid master_fd cmd).jobs[t.job_count]? =
      some { pid := pid, master_fd := master_fd, active := 1, cmd := cmd.take 255 } ∧
    (cmd.take 255).length ≤ 255 ∧
    (cmd.length ≤ 255 → cmd.take 255 = cmd) ∧
    (∀ i, i < t.job_count → (add_job t pid master_fd cmd).jobs[i]? = t.jobs[i]?) := by
  have hlt : ¬ t.jobs.length ≥ MAX_JOBS := by
    have : t.jobs.length < MAX_JOBS := h
    omega
  have hjobs : (add_job t pid master_fd cmd).jobs = t.jobs ++
      [{ pid := pid, master_fd := master_fd, active := 1, cmd := cmd.take 255 }] := by
    simp only [add_job, hlt, if_false]
  refine ⟨?_, ?_, ?_, ?_, ?_⟩
  · show (add_job t pid master_fd cmd).jobs.length = t.jobs.length + 1
    rw [hjobs, List.length_append, List.length_singleton]
  · show (add_job t pid master_fd cmd).jobs[t.jobs.length]? = _
    rw [hjobs, List.getElem?_append_right (Nat.le_refl _), Nat.sub_self]
    rfl
  · rw [List.length_take]
    omega
  · intro hc
    exact List.take_of_length_le hc
  · intro i hi
    have hi2 : i < t.jobs.length := hi
    rw [hjobs, List.getElem?_append_left hi2]

/-- C9, an instance of `add_job_registers`: the first background job of a new
tab. -/
theorem add_job_registers_witness :
    (create_tab none).job_count < MAX_JOBS ∧
    (add_job (create_tab none) 4242 7 "sleep 1 &".toList).job_count = 1 ∧
    (add_job (create_tab none) 4242 7 "sleep 1 &".toList).jobs[0]? =
      some { pid := 4242, master_fd := 7, active := 1, cmd := "sleep 1 &".toList } :=
  have h := add_job_registers (create_tab none) 4242 7 "sleep 1 &".toList (by decide)
  ⟨by decide, h.1, h.2.1⟩

/-- C10. A full job table drops registrations: for every job table with
`job_count = MAX_JOBS`, `add_job` with any arguments leaves the tab, so
`job_count` and every entry, unchanged; and `job_count <= MAX_JOBS` holds
after every sequence of `add_job` calls, from a new tab and from every tab
within the bound. -/
theorem add_job_full_drops :
    (∀ (t : Tab) (pid master_fd : Int) (cmd : CStr), t.job_count = MAX_JOBS →
      add_job t pid master_fd cmd = t) ∧
    (∀ (t : Tab) (calls : List (Int × Int × CStr)), t.job_count ≤ MAX_JOBS →
      (calls.foldl (fun u c => add_job u c.1 c.2.1 c.2.2) t).job_count ≤ MAX_JOBS) ∧
    (∀ (file : Option (List Char)) (calls : List (Int × Int × CStr)),
      (calls.foldl (fun u c => add_job u c.1 c.2.1 c.2.2) (create_tab file)).job_count
        ≤ MAX_JOBS) := by
  refine ⟨?_, ?_, ?_⟩
  · intro t pid master_fd cmd h
    have hfull : t.jobs.length ≥ MAX_JOBS := by
      have : t.jobs.length = MAX_JOBS := h
      omega
    simp only [add_job, hfull, if_true]
  · intro t calls h
    exact add_job_foldl_job_count_le calls t h
  · intro file calls
    apply add_job_foldl_job_count_le
    rw [create_tab_jobs]
    exact Nat.zero_le _

/-- C10, an instance of `add_job_full_drops`: a table of `MAX_JOBS` finished
jobs keeps its entries when one more job is registered. -/
theorem add_job_full_drops_witness :
    ({ create_tab none with
        jobs := List.replicate 64 { pid := 1, master_fd := -1, active := 0, cmd := [] } } :
      Tab).job_count = MAX_JOBS ∧
    add_job { create_tab none with
        jobs := List.replicate 64 { pid := 1, master_fd := -1, active := 0, cmd := [] } }
      4242 7 "sleep 1 &".toList =
      { create_tab none with
        jobs := List.replicate 64 { pid := 1, master_fd := -1, active := 0, cmd := [] } } :=
  ⟨by decide,
    add_job_full_drops.1 { create_tab none with
        jobs := List.replicate 64 { pid := 1, master_fd := -1, active := 0, cmd := [] } }
      4242 7 "sleep 1 &".toList (by decide)⟩

/-! ## Signal handlers and the pending message -/

theorem digitChar_ne_newline : ∀ k, k < 10 → Nat.digitChar k ≠ '\n' := by decide

theorem toDigitsCore_no_newline (fuel : Nat) : ∀ (n : Nat) (ds : List Char),
    '\n' ∉ ds → '\n' ∉ Nat.toDigitsCore 10 fuel n ds := by
  induction fuel with
  | zero => intro n ds h; simpa [Nat.toDigitsCore] using h
  | succ f ih =>
    intro n ds h
    have hd : '\n' ∉ Nat.digitChar (n % 10) :: ds := by
      intro hmem
      rcases List.mem_cons.mp hmem with h1 | h1
      · exact digitChar_ne_newline (n % 10) (Nat.mod_lt _ (by decide)) h1.symm
      · exact h h1
    simp only [Nat.toDigitsCore]
    split
    · exact hd
    · exact ih _ _ hd

theorem fmt_d_no_newline (n : Int) : '\n' ∉ fmt_d n := by
  have h : ∀ k : Nat, '\n' ∉ Nat.toDigits 10 k := fun k =>
    toDigitsCore_no_newline _ _ _ (List.not_mem_nil _)
  unfold fmt_d
  split
  · intro hmem
    rcases List.mem_cons.mp hmem with h1 | h1
    · exact absurd h1 (by decide)
    · exact h _ h1
  · exact h _

theorem snprintf256_line (s : CStr) (hne : s ≠ []) (hnl : '\n' ∉ s) :
    snprintf256 s ≠ [] ∧ '\n' ∉ snprintf256 s := by
  unfold snprintf256
  constructor
  · cases s with
    | nil => exact absurd rfl hne
    | cons c q => simp
  · intro h
    exact hnl (List.mem_of_mem_take h)

theorem fmt_msg_line (a b : CStr) (n : Int) (ha : a ≠ []) (hna : '\n' ∉ a)
    (hnb : '\n' ∉ b) :
    snprintf256 (a ++ fmt_d n ++ b) ≠ [] ∧ '\n' ∉ snprintf256 (a ++ fmt_d n ++ b) := by
  apply snprintf256_line
  · cases a with
    | nil => exact absurd rfl ha
    | cons c q => simp
  · intro h
    rcases List.mem_append.mp h with h1 | h1
    · rcases List.mem_append.mp h1 with h2 | h2
      · exact hna h2
      · exact fmt_d_no_newline n h2
    · exact hnb h1

/-- Every message a handler stages is one non-empty line. -/
theorem handler_msg_line (h : Handler) (fg_pid : Int) :
    h.msg fg_pid ≠ [] ∧ '\n' ∉ h.msg fg_pid := by
  cases h with
  | sigint =>
    show sigint_msg fg_pid ≠ [] ∧ '\n' ∉ sigint_msg fg_pid
    unfold sigint_msg
    split
    · exact fmt_msg_line _ _ _ (by decide) (by decide) (by decide)
    · exact snprintf256_line _ (by decide) (by decide)
  | sigtstp =>
    show sigtstp_msg fg_pid ≠ [] ∧ '\n' ∉ sigtstp_msg fg_pid
    unfold sigtstp_msg
    split
    · exact fmt_msg_line _ _ _ (by decide) (by decide) (by decide)
    · exact snprintf256_line _ (by decide) (by decide)

/-- Appending one non-empty line without newline is one `tb_store`. -/
theorem tb_append_line (tb : TextBuffer) (s : CStr) (hne : s ≠ []) (hnl : '\n' ∉ s) :
    tb_append tb s = tb_store tb s := by
  rw [tb_append_eq, visibleLines_single s hne hnl]
  rfl

theorem handler_run_msg (h : Handler) (p : Proc) :
    (h.run p).pending_signal_msg = h.msg p.fg_pid ∧ (h.run p).signal_msg_ready = 1 := by
  cases h with
  | sigint =>
    show (handle_sigint p).pending_signal_msg = sigint_msg p.fg_pid ∧ _
    unfold handle_sigint
    split <;> exact ⟨rfl, rfl⟩
  | sigtstp =>
    show (handle_sigtstp p).pending_signal_msg = sigtstp_msg p.fg_pid ∧ _
    unfold handle_sigtstp
    split
    · simp only
      split <;> exact ⟨rfl, rfl⟩
    · exact ⟨rfl, rfl⟩

theorem handler_run_fg_pid (h : Handler) (p : Proc) (hfg : p.fg_pid ≤ 0) :
    (h.run p).fg_pid = p.fg_pid := by
  have hn : ¬ p.fg_pid > 0 := by omega
  cases h with
  | sigint =>
    show (handle_sigint p).fg_pid = p.fg_pid
    simp [handle_sigint, hn]
  | sigtstp =>
    show (handle_sigtstp p).fg_pid = p.fg_pid
    simp [handle_sigtstp, hn]

theorem handle_sigtstp_fg_pid (p : Proc) (hfg : p.fg_pid > 0) :
    (handle_sigtstp p).fg_pid = -1 := by
  unfold handle_sigtstp
  simp only [hfg, if_true]

theorem drain_signal_msg_fg_pid (m : Main) :
    (drain_signal_msg m).proc.fg_pid = m.proc.fg_pid := by
  unfold drain_signal_msg
  split <;> rfl

theorem noNewForeground_fg_pid (m u : Main) (h : NoNewForeground m u)
    (hfg : m.proc.fg_pid ≤ 0) : u.proc.fg_pid ≤ 0 := by
  induction h with
  | refl => exact hfg
  | handler u hd _ ih =>
    show (hd.run u.proc).fg_pid ≤ 0
    rw [handler_run_fg_pid hd u.proc ih]
    exact ih
  | drain u _ ih =>
    rw [drain_signal_msg_fg_pid]
    exact ih
  | other u v _ hv ih =>
    rw [hv]
    exact ih

/-- The file-scope `active` keeps the value of its initialiser: the handlers
do not assign it. -/
theorem handler_run_active (h : Handler) (p : Proc) : (h.run p).active = p.active := by
  cases h with
  | sigint =>
    show (handle_sigint p).active = p.active
    unfold handle_sigint
    split <;> rfl
  | sigtstp =>
    show (handle_sigtstp p).active = p.active
    unfold handle_sigtstp
    split
    · simp only
      split <;> rfl
    · rfl

/-- While the file-scope `active` is negative, `handle_sigtstp` registers no
job: the file-scope `tabs` are left as they are. -/
theorem handle_sigtstp_no_job (p : Proc) (hact : p.active < 0) :
    (handle_sigtstp p).tabs = p.tabs := by
  have hn : ¬ p.active ≥ 0 := by omega
  unfold handle_sigtstp
  split
  · simp only [hn, if_false]
  · rfl

theorem drain_signal_msg_active (m : Main) :
    (drain_signal_msg m).proc.active = m.proc.active := by
  unfold drain_signal_msg
  split <;> rfl

theorem mainReachable_active (m : Main) (h : MainReachable m) : m.proc.active = -1 := by
  induction h with
  | init file => rfl
  | handler u hd _ ih =>
    show (hd.run u.proc).active = -1
    rw [handler_run_active, ih]
  | drain u _ ih => rw [drain_signal_msg_active, ih]
  | other u v _ hv ih => rw [hv, ih]

/-- In every state of the loop of `main`, `handle_sigtstp` registers no job,
neither in a tab of `main` nor in a file-scope tab. -/
theorem handle_sigtstp_never_registers (m : Main) (h : MainReachable m) :
    (m.handler Handler.sigtstp).tabs = m.tabs ∧
    (m.handler Handler.sigtstp).proc.tabs = m.proc.tabs :=
  ⟨rfl, handle_sigtstp_no_job m.proc (by rw [mainReachable_active m h]; decide)⟩

/-- C11. Evaluation of the stop handler at a foreground job: in the loop of
`main` with one tab (the local `active` is 0) and `fg_pid = 1234`,
`handle_sigtstp` delivers the stop signal, clears the foreground reference and
stages its message, but it reads the file-scope `active`, which is still -1,
and registers no job: the job table of the session that is active in the event
loop stays empty, and so does every file-scope tab. -/
theorem handle_sigtstp_registers_no_job :
    (main_init none).active = 0 ∧
    ((Main.handler Handler.sigtstp
        { main_init none with proc := { proc_init with fg_pid := 1234 } }).proc.fg_pid = -1) ∧
    ((Main.handler Handler.sigtstp
        { main_init none with proc := { proc_init with fg_pid := 1234 } }).proc.signal_msg_ready
      = 1) ∧
    ((Main.handler Handler.sigtstp
        { main_init none with proc := { proc_init with fg_pid := 1234 } }).proc.signals
      = [(1234, Signal.SIGTSTP)]) ∧
    ((Main.handler Handler.sigtstp
        { main_init none with proc := { proc_init with fg_pid := 1234 } }).tabs.map Tab.job_count
      = [0]) ∧
    ((Main.handler Handler.sigtstp
        { main_init none with proc := { proc_init with fg_pid := 1234 } }).proc.tabs.map
        Tab.job_count = List.replicate 12 0) := by
  decide

/-- C12. Interrupt after stop: from every state in which the foreground
reference is set, after the stop handler has run, every invocation of
`handle_sigint` that occurs before `run_command` sets a new foreground
reference delivers no signal and stages the message
`[MyTerm] No foreground job to interrupt`. -/
theorem handle_sigint_after_stop (m u : Main) (hfg : m.proc.fg_pid > 0)
    (hq : NoNewForeground (m.handler Handler.sigtstp) u) :
    (m.handler Handler.sigtstp).proc.fg_pid = -1 ∧
    (u.handler Handler.sigint).proc.signals = u.proc.signals ∧
    (u.handler Handler.sigint).proc.pending_signal_msg =
      "[MyTerm] No foreground job to interrupt".toList ∧
    (u.handler Handler.sigint).proc.signal_msg_ready = 1 := by
  have h1 : (m.handler Handler.sigtstp).proc.fg_pid = -1 :=
    handle_sigtstp_fg_pid m.proc hfg
  have h2 : u.proc.fg_pid ≤ 0 :=
    noNewForeground_fg_pid _ u hq (by rw [h1]; decide)
  have hn : ¬ u.proc.fg_pid > 0 := by omega
  refine ⟨h1, ?_, ?_, ?_⟩
  · show (handle_sigint u.proc).signals = u.proc.signals
    simp [handle_sigint, hn]
  · show (handle_sigint u.proc).pending_signal_msg = _
    simp only [handle_sigint, hn, if_false, sigint_msg]
    decide
  · show (handle_sigint u.proc).signal_msg_ready = 1
    simp [handle_sigint, hn]

/-- C12, an instance of `handle_sigint_after_stop`: foreground pid 1234, a
stop, then an interrupt and a drain of the mailbox before the next
interrupt. -/
theorem handle_sigint_after_stop_witness :
    ({ main_init none with proc := { proc_init with fg_pid := 1234 } } : Main).proc.fg_pid > 0 ∧
    (Main.handler Handler.sigint (drain_signal_msg (Main.handler Handler.sigint
      (Main.handler Handler.sigtstp
        { main_init none with proc := { proc_init with fg_pid := 1234 } })))).proc.signals
      = [(1234, Signal.SIGTSTP)] ∧
    (Main.handler Handler.sigint (drain_signal_msg (Main.handler Handler.sigint
      (Main.handler Handler.sigtstp
        { main_init none with proc := { proc_init with fg_pid := 1234 } })))).proc.pending_signal_msg
      = "[MyTerm] No foreground job to interrupt".toList :=
  have h := handle_sigint_after_stop
    { main_init none with proc := { proc_init with fg_pid := 1234 } }
    (drain_signal_msg (Main.handler Handler.sigint (Main.handler Handler.sigtstp
      { main_init none with proc := { proc_init with fg_pid := 1234 } })))
    (by decide)
    (NoNewForeground.drain _ _ (NoNewForeground.handler _ _ Handler.sigint
      (NoNewForeground.refl _)))
  ⟨by decide, h.2.1.trans (by decide), h.2.2.1⟩

theorem update_tab_get (tabs : List Tab) (i : Nat) (f : Tab → Tab) (t : Tab)
    (h : tabs[i]? = some t) : update_tab tabs i f = tabs.set i (f t) := by
  simp [update_tab, h]

/-- C13. The pending-message mailbox is single-slot, last-write-wins: after
two handler invocations with no drain in between, the mailbox holds exactly
the message staged by the second invocation and the logs of the tabs are as
they were before the first; the next drain in the main loop appends that one
message, as one line, to the log of the active session and resets
`signal_msg_ready` to 0. -/
theorem mailbox_last_write_wins (h1 h2 : Handler) (m : Main) :
    ((m.handler h1).handler h2).proc.pending_signal_msg =
      h2.msg (m.handler h1).proc.fg_pid ∧
    ((m.handler h1).handler h2).proc.signal_msg_ready = 1 ∧
    ((m.handler h1).handler h2).tabs = m.tabs ∧
    (∀ t : Tab, 0 ≤ m.active → m.tabs[m.active.toNat]? = some t →
      (drain_signal_msg ((m.handler h1).handler h2)).tabs =
        m.tabs.set m.active.toNat
          { t with tb := tb_store t.tb (h2.msg (m.handler h1).proc.fg_pid) } ∧
      (drain_signal_msg ((m.handler h1).handler h2)).proc.signal_msg_ready = 0) := by
  have hmsg := handler_run_msg h2 (m.handler h1).proc
  refine ⟨hmsg.1, hmsg.2, rfl, ?_⟩
  intro t hact hget
  have hready : ((m.handler h1).handler h2).proc.signal_msg_ready ≠ 0 := by
    rw [show ((m.handler h1).handler h2).proc.signal_msg_ready = 1 from hmsg.2]
    decide
  have hact2 : ((m.handler h1).handler h2).active ≥ 0 := hact
  have hline := handler_msg_line h2 (m.handler h1).proc.fg_pid
  have hpend : ((m.handler h1).handler h2).proc.pending_signal_msg =
      h2.msg (m.handler h1).proc.fg_pid := hmsg.1
  have hget2 : ((m.handler h1).handler h2).tabs[((m.handler h1).handler h2).active.toNat]?
      = some t := hget
  constructor
  · unfold drain_signal_msg
    rw [if_pos ⟨hready, hact2⟩]
    show update_tab ((m.handler h1).handler h2).tabs
      ((m.handler h1).handler h2).active.toNat _ = _
    rw [update_tab_get _ _ _ t hget2, hpend, tb_append_line _ _ hline.1 hline.2]
    rfl
  · unfold drain_signal_msg
    rw [if_pos ⟨hready, hact2⟩]

/-- C13, an instance of `mailbox_last_write_wins`: a stop of the foreground
job 1234 followed by an interrupt; the drain appends the message of the
interrupt only. -/
theorem mailbox_last_write_wins_witness :
    (drain_signal_msg (Main.handler Handler.sigint (Main.handler Handler.sigtstp
      { main_init none with proc := { proc_init with fg_pid := 1234 } }))).tabs =
      [{ create_tab none with
          tb := tb_store (create_tab none).tb
            "[MyTerm] No foreground job to interrupt".toList }] :=
  ((mailbox_last_write_wins Handler.sigtstp Handler.sigint
      { main_init none with proc := { proc_init with fg_pid := 1234 } }).2.2.2
    (create_tab none) (by decide) (by decide)).1.trans (by decide)

/-! ## Command line: background flag, dispatch, watcher builtins -/

theorem strtok_r_spec (d : Char) (s tok rest : CStr) (h : strtok_r d s = some (tok, rest)) :
    tok <:+: s ∧ rest <:+ s ∧ rest.length < s.length ∧ tok ≠ [] := by
  unfold strtok_r at h
  simp only at h
  split at h
  · cases h
  · rename_i hne
    simp only [Option.some.injEq, Prod.mk.injEq] at h
    obtain ⟨h1, h2⟩ := h
    have hs1 : s.dropWhile (fun c => c == d) <:+ s := List.dropWhile_suffix _
    have htd := List.takeWhile_append_dropWhile (fun c => c != d) (s.dropWhile fun c => c == d)
    have htok : tok <+: s.dropWhile (fun c => c == d) := by
      rw [← h1]; exact List.takeWhile_prefix _
    have hrest : rest <:+ s.dropWhile (fun c => c == d) := by
      rw [← h2]
      exact (List.drop_suffix _ _).trans (List.dropWhile_suffix _)
    have htokne : tok ≠ [] := by
      rw [← h1]
      cases hd : s.dropWhile (fun c => c == d) with
      | nil => exact absurd hd hne
      | cons c q =>
        have hc : ¬ ((c == d) = true) := by
          have := List.head_dropWhile_not (fun c => c == d) s (by rw [hd]; simp)
          simpa [hd] using this
        have hc2 : (c != d) = true := by simpa using hc
        simp [List.takeWhile, hc2]
    refine ⟨htok.isInfix.trans hs1.isInfix, hrest.trans hs1, ?_, htokne⟩
    have hlen := congrArg List.length htd
    rw [List.length_append, h1] at hlen
    have h3 : rest.length ≤ ((s.dropWhile fun c => c == d).dropWhile fun c => c != d).length := by
      rw [← h2, List.length_drop]; omega
    have h4 := hs1.length_le
    have h5 : 0 < tok.length := List.length_pos.mpr htokne
    omega

/-- The bound on the number of `strtok_r` calls is never the reason the loop
stops: any bound of at least the length of the text gives the same tokens. -/
theorem strtok_loop_fuel (d : Char) (n : Nat) : ∀ s : CStr,
    s.length ≤ n → strtok_loop d n s = strtok_loop d s.length s := by
  induction n using Nat.strong_induction_on with
  | _ n ih =>
    intro s hs
    cases n with
    | zero =>
      have : s.length = 0 := by omega
      rw [this]
    | succ m =>
      cases hlen : s.length with
      | zero =>
        have hnil : s = [] := List.length_eq_zero.mp hlen
        subst hnil
        simp [strtok_loop, strtok_r]
      | succ k =>
        simp only [strtok_loop]
        cases hst : strtok_r d s with
        | none => rfl
        | some pr =>
          obtain ⟨tok, rest⟩ := pr
          have hsp := strtok_r_spec d s tok rest hst
          simp only
          have hr : rest.length ≤ k := by omega
          rw [ih m (by omega) rest (by omega)]
          by_cases hk : k = m
          · rw [hk, ih m (by omega) rest (by omega)]
          · rw [ih k (by omega) rest (by omega)]

theorem strtok_loop_piece (d : Char) (n : Nat) : ∀ s : CStr,
    ∀ tok ∈ strtok_loop d n s, tok <:+: s := by
  induction n with
  | zero => intro s tok h; simp [strtok_loop] at h
  | succ m ih =>
    intro s tok h
    simp only [strtok_loop] at h
    cases hst : strtok_r d s with
    | none => simp [hst] at h
    | some pr =>
      obtain ⟨t1, rest⟩ := pr
      have hsp := strtok_r_spec d s t1 rest hst
      simp only [hst, List.mem_cons] at h
      rcases h with h | h
      · rw [h]; exact hsp.1
      · exact (ih rest tok h).trans hsp.2.1.isInfix

/-- Every token of every stage is a piece of the command line. -/
theorem stage_token_piece (cmdline seg tok : CStr) (hseg : seg ∈ split_pipeline cmdline)
    (htok : tok ∈ strtok_all ' ' seg) : tok <:+: cmdline := by
  unfold split_pipeline at hseg
  obtain ⟨raw, hraw, hrs⟩ := List.mem_map.mp hseg
  have h1 : raw <:+: cmdline := strtok_loop_piece '|' _ cmdline raw (List.mem_of_mem_take hraw)
  have h2 : seg <:+: raw := by
    rw [← hrs]; exact (List.dropWhile_suffix _).isInfix
  exact ((strtok_loop_piece ' ' _ seg tok htok).trans h2).trans h1

theorem strrchr_last (s : CStr) (c : Char) (h : s.getLast? = some c) :
    strrchr s c = some (s.length - 1) := by
  have hmem : c ∈ s := List.mem_of_getLast?_eq_some h
  have hrev : s.reverse.head? = some c := by rw [List.head?_reverse]; exact h
  unfold strrchr
  rw [if_pos hmem]
  cases hr : s.reverse with
  | nil => rw [hr] at hrev; cases hrev
  | cons x q =>
    rw [hr] at hrev
    simp only [List.head?_cons, Option.some.injEq] at hrev
    subst hrev
    simp [List.takeWhile]

/-- C15. Trailing `&`: for every submitted line whose last character is `&`
and in which that `&` is either the first character or immediately preceded by
a space, `run_command` sets the background flag and continues with the line
truncated just before that `&`: every token of every stage it parses is a
piece of the truncated line. -/
theorem background_detect_trailing_amp (input : CStr) (hlen : input.length < INPUT_MAX)
    (hlast : input.getLast? = some '&')
    (hprev : input.length = 1 ∨ input[input.length - 2]? = some ' ') :
    background_detect input = (1, input.dropLast) ∧
    (∀ seg ∈ split_pipeline (background_detect input).2,
      ∀ tok ∈ strtok_all ' ' seg, tok <:+: input.dropLast) := by
  have hcopy : input.take (INPUT_MAX - 1) = input := by
    apply List.take_of_length_le
    simp only [INPUT_MAX] at *
    omega
  have hbd : background_detect input = (1, input.dropLast) := by
    unfold background_detect
    simp only [hcopy, strrchr_last input '&' hlast]
    have hcond : input.length - 1 = 0 ∨ input[input.length - 1 - 1]? = some ' ' := by
      rcases hprev with h | h
      · left; omega
      · right
        have : input.length - 1 - 1 = input.length - 2 := by omega
        rw [this]; exact h
    rw [if_pos hcond, List.dropLast_eq_take]
  refine ⟨hbd, ?_⟩
  intro seg hseg tok htok
  rw [hbd] at hseg
  exact stage_token_piece _ seg tok hseg htok

/-- C15, an instance of `background_detect_trailing_amp`: the line
`sleep 1 &`. -/
theorem background_detect_trailing_amp_witness :
    background_detect "sleep 1 &".toList = (1, "sleep 1 ".toList) :=
  (background_detect_trailing_amp "sleep 1 &".toList (by decide) (by decide)
    (Or.inr (by decide))).1

theorem strtok_r_all_delims (d : Char) (s : CStr) (h : ∀ c ∈ s, c = d) :
    strtok_r d s = none := by
  have hd : s.dropWhile (fun c => c == d) = [] := by
    rw [List.dropWhile_eq_nil_iff]
    intro c hc
    simpa using h c hc
  simp [strtok_r, hd]

theorem strtok_all_all_delims (d : Char) (s : CStr) (h : ∀ c ∈ s, c = d) :
    strtok_all d s = [] := by
  unfold strtok_all
  cases hl : s.length with
  | zero => rfl
  | succ k => simp [strtok_loop, strtok_r_all_delims d s h]

/-- The lists that the `multiWatch` branch rejects: without `[`, without `]`,
with nothing between the first `[` and the last `]`, or with only commas
between them.  A message is appended and the file-scope variables, so the run
flag and the watcher threads, are left as they are. -/
theorem run_command_multiWatch_rejects (cmdline : CStr) (t : Tab) (p : Proc) :
    (strchr cmdline '[' = none →
      run_command_multiWatch cmdline t p =
        ({ t with tb := tb_append t.tb multiwatch_usage }, p)) ∧
    (strrchr cmdline ']' = none →
      run_command_multiWatch cmdline t p =
        ({ t with tb := tb_append t.tb multiwatch_usage }, p)) ∧
    (∀ start e, strchr cmdline '[' = some start → strrchr cmdline ']' = some e →
      e ≤ start + 1 →
      run_command_multiWatch cmdline t p =
        ({ t with tb := tb_append t.tb multiwatch_usage }, p)) ∧
    (∀ start e, strchr cmdline '[' = some start → strrchr cmdline ']' = some e →
      ¬ e ≤ start + 1 →
      (∀ c ∈ (cmdline.drop (start + 1)).take (e - start - 1), c = ',') →
      run_command_multiWatch cmdline t p =
        ({ t with tb := tb_append t.tb "multiWatch: no valid commands.".toList }, p)) := by
  refine ⟨?_, ?_, ?_, ?_⟩
  · intro h
    simp [run_command_multiWatch, h]
  · intro h
    unfold run_command_multiWatch
    rw [h]
    cases strchr cmdline '[' <;> rfl
  · intro start e hs he hle
    simp [run_command_multiWatch, hs, he, hle]
  · intro start e hs he hle hall
    simp [run_command_multiWatch, hs, he, hle, strtok_all_all_delims ',' _ hall]

/-- C14. Evaluation of `run_command` on the line `multiWatch-stop` while the
run flag is set: the test for the prefix `multiWatch` comes first in the
source and accepts the line, so the `multiWatch` branch runs, finds no bracket
and reports its usage error; the run flag stays 1 and the
`multiWatch-stop` branch is not reached. -/
theorem multiWatch_stop_not_reached :
    proc_init.multiwatch_active = 1 ∧
    run_command_dispatch (background_detect "multiWatch-stop".toList).2 = Branch.multiWatch ∧
    (run_command_watch { create_tab none with input := "multiWatch-stop".toList } proc_init).map
      (fun r => (r.2.multiwatch_active, r.2.watchers, r.1.tb.lines.getLast?))
      = some (1, [], some multiwatch_usage) := by
  decide

/-- C18. Evaluation of `run_command` on the line `multiWatch [ ]`, whose list
holds only a blank: the blank is a token for `strtok_r`, it is stripped to
the empty command and counted, so `ncmds` is 1 and a watcher thread is
started with the one empty command, with the confirmation message instead of
an error. -/
theorem multiWatch_blank_list_starts_watcher :
    run_command_dispatch (background_detect "multiWatch [ ]".toList).2 = Branch.multiWatch ∧
    (run_command_watch { create_tab none with input := "multiWatch [ ]".toList } proc_init).map
      (fun r => (r.2.multiwatch_active, r.2.watchers, r.1.tb.lines.getLast?))
      = some (1, [[[]]], some multiwatch_running) := by
  decide

/-! ## Stage parsing -/

theorem take_cap_append (a p y : List CStr) (n : Nat) (ha : a.length ≤ n) :
    ((a ++ p.take (n - a.length)) ++ y).take n = (a ++ (p ++ y)).take n := by
  by_cases hp : p.length ≤ n - a.length
  · rw [List.take_of_length_le hp, List.append_assoc]
  · have hlen : (a ++ p.take (n - a.length)).length = n := by
      rw [List.length_append, List.length_take]
      omega
    rw [List.take_append_of_le_length (by omega), List.take_of_length_le (by omega)]
    rw [List.take_append_eq_append_take, List.take_of_length_le ha]
    congr 1
    rw [List.take_append_of_le_length (by omega)]

theorem argv_push_all_length (argv paths : List CStr) (h : argv.length ≤ 127) :
    (argv_push_all argv paths).length ≤ 127 := by
  unfold argv_push_all
  rw [List.length_append, List.length_take]
  omega

theorem glob_nocheck_total (Gf : CStr → List CStr) (tok : CStr) (hg : has_glob_char tok = true) :
    glob_nocheck (fun t => some (Gf t)) tok = some (glob_expand Gf tok) := by
  simp [glob_nocheck, glob_expand, hg]

theorem plain_tokens_op (tok nxt : CStr) (rest2 : List CStr) (hop : is_redirect_op tok = true) :
    plain_tokens (tok :: nxt :: rest2) = plain_tokens rest2 := by
  simp [plain_tokens, hop]

theorem plain_tokens_op_last (tok : CStr) (hop : is_redirect_op tok = true) :
    plain_tokens [tok] = [] := by
  simp [plain_tokens, hop]

theorem plain_tokens_plain (tok : CStr) (rest : List CStr) (hop : is_redirect_op tok = false) :
    plain_tokens (tok :: rest) = tok :: plain_tokens rest := by
  cases rest <;> simp [plain_tokens, hop]

/-- The `argv` of a parse with a filesystem that `glob` can always read: the
contributions of the non-redirect tokens, in order, cut to 127 entries. -/
theorem parse_tokens_argv (Gf : CStr → List CStr) (n : Nat) :
    ∀ (tokens : List CStr) (st : Stage), tokens.length ≤ n → st.argv.length ≤ 127 →
    (parse_tokens (fun t => some (Gf t)) tokens st).argv =
      (st.argv ++ (plain_tokens tokens).flatMap (glob_expand Gf)).take 127 := by
  induction n using Nat.strong_induction_on with
  | _ n ih =>
    intro tokens st hn hst
    cases tokens with
    | nil => simp [parse_tokens, plain_tokens, List.take_of_length_le hst]
    | cons tok rest =>
      simp only [List.length_cons] at hn
      by_cases hfull : st.argv.length < 127
      · unfold parse_tokens
        simp only [hfull, if_true]
        by_cases h1 : tok = "<".toList
        · have hop : is_redirect_op tok = true := by rw [h1]; decide
          simp only [h1, if_true]
          cases rest with
          | nil =>
            rw [← h1, plain_tokens_op_last tok hop]
            simp [List.take_of_length_le hst]
          | cons nxt rest2 =>
            simp only [List.length_cons] at hn
            have hih := ih (n - 1) (by omega) rest2 { st with infile := some nxt } (by omega) hst
            rw [← h1, plain_tokens_op tok nxt rest2 hop]
            exact hih
        · simp only [h1, if_false]
          by_cases h2 : tok = ">".toList
          · have hop : is_redirect_op tok = true := by rw [h2]; decide
            simp only [h2, if_true]
            cases rest with
            | nil =>
              rw [← h2, plain_tokens_op_last tok hop]
              simp [List.take_of_length_le hst]
            | cons nxt rest2 =>
              simp only [List.length_cons] at hn
              have hih := ih (n - 1) (by omega) rest2 { st with outfile := some nxt, append_mode := 0 } (by omega) hst
              rw [← h2, plain_tokens_op tok nxt rest2 hop]
              exact hih
          · simp only [h2, if_false]
            by_cases h3 : tok = ">>".toList
            · have hop : is_redirect_op tok = true := by rw [h3]; decide
              simp only [h3, if_true]
              cases rest with
              | nil =>
                rw [← h3, plain_tokens_op_last tok hop]
                simp [List.take_of_length_le hst]
              | cons nxt rest2 =>
                simp only [List.length_cons] at hn
                have hih := ih (n - 1) (by omega) rest2 { st with outfile := some nxt, append_mode := 1 } (by omega) hst
                rw [← h3, plain_tokens_op tok nxt rest2 hop]
                exact hih
            · simp only [h3, if_false]
              have hop : is_redirect_op tok = false := by
                unfold is_redirect_op
                rw [Bool.or_eq_false_iff, Bool.or_eq_false_iff]
                exact ⟨⟨beq_eq_false_iff_ne.mpr h1, beq_eq_false_iff_ne.mpr h2⟩,
                  beq_eq_false_iff_ne.mpr h3⟩
              rw [plain_tokens_plain tok rest hop, List.flatMap_cons]
              by_cases hg : has_glob_char tok = true
              · simp only [hg, if_true, glob_nocheck_total Gf tok hg]
                have hih := ih (n - 1) (by omega) rest
                  { st with argv := argv_push_all st.argv (glob_expand Gf tok) } (by omega)
                  (argv_push_all_length _ _ hst)
                exact hih.trans (take_cap_append _ _ _ 127 hst)
              · have hg2 : has_glob_char tok = false := by
                  cases hgc : has_glob_char tok with
                  | true => exact absurd hgc hg
                  | false => rfl
                simp only [hg2, Bool.false_eq_true, if_false]
                have hih := ih (n - 1) (by omega) rest
                  { st with argv := st.argv ++ [tok] } (by omega)
                  (by simp only [List.length_append, List.length_singleton]; omega)
                have hexp : glob_expand Gf tok = [tok] := by simp [glob_expand, hg2]
                rw [hexp, ← List.append_assoc]
                exact hih
      · have heq : st.argv.length = 127 := by omega
        unfold parse_tokens
        simp only [hfull, if_false]
        rw [List.take_append_of_le_length (by omega), List.take_of_length_le hst]

/-- C17, as amended. Glob expansion of argv tokens, with the filesystem as a
function `G` from a pattern to its ordered list of matches: every
non-redirect token containing one of `* ? [ ] ~` contributes one separate
entry per element of `G (token)`, in the order of `G`, and the literal token
itself when `G (token)` is empty; every token without such a character
contributes itself unchanged; and `argv` is the first 127 of these entries.
The token `*.txt` with the matches `a.txt`, `b.txt` yields two entries. -/
theorem parse_stage_glob_argv (G : CStr → List CStr) (stage : CStr) :
    (parse_stage (fun t => some (G t)) stage).argv =
      ((plain_tokens (strtok_all ' ' stage)).flatMap (glob_expand G)).take 127 ∧
    (parse_stage
      (fun t => some (if t = "*.txt".toList then ["a.txt".toList, "b.txt".toList] else []))
      "ls *.txt".toList).argv = ["ls".toList, "a.txt".toList, "b.txt".toList] := by
  constructor
  · unfold parse_stage
    rw [parse_tokens_argv G _ _ _ (Nat.le_refl _) (by simp)]
    simp
  · decide

/-- C17, as stated, fails when the matches do not fit `argv`: for the stage
`ls *` in a directory of the 128 files `f0` to `f127`, the tokens contribute
129 entries, and `argv` holds 127. -/
theorem parse_stage_glob_counterexample :
    ((plain_tokens (strtok_all ' ' "ls *".toList)).flatMap
      (glob_expand fun _ => numbered_files ['f'] 128)).length = 129 ∧
    (parse_stage (fun _ => some (numbered_files ['f'] 128)) "ls *".toList).argv.length = 127 ∧
    (parse_stage (fun _ => some (numbered_files ['f'] 128)) "ls *".toList).argv ≠
      (plain_tokens (strtok_all ' ' "ls *".toList)).flatMap
        (glob_expand fun _ => numbered_files ['f'] 128) := by
  have htok : plain_tokens (strtok_all ' ' "ls *".toList) = ["ls".toList, "*".toList] := by
    decide
  have hlen : (numbered_files ['f'] 128).length = 128 := by
    unfold numbered_files
    rw [List.length_map, List.length_range]
  have hne : numbered_files ['f'] 128 ≠ [] := by
    intro h
    rw [h] at hlen
    cases hlen
  have hexp : (["ls".toList, "*".toList] : List CStr).flatMap
      (glob_expand fun _ => numbered_files ['f'] 128) =
      "ls".toList :: numbered_files ['f'] 128 := by
    have h1 : glob_expand (fun _ => numbered_files ['f'] 128) "ls".toList = ["ls".toList] := by
      unfold glob_expand
      rw [if_neg (by decide)]
    have h2 : glob_expand (fun _ => numbered_files ['f'] 128) "*".toList =
        numbered_files ['f'] 128 := by
      unfold glob_expand
      rw [if_pos (by decide), if_neg hne]
    rw [List.flatMap_cons, List.flatMap_cons, List.flatMap_nil, h1, h2, List.append_nil]
    rfl
  have hall : ((plain_tokens (strtok_all ' ' "ls *".toList)).flatMap
      (glob_expand fun _ => numbered_files ['f'] 128)).length = 129 := by
    rw [htok, hexp, List.length_cons, hlen]
  have hargv : (parse_stage (fun _ => some (numbered_files ['f'] 128)) "ls *".toList).argv.length
      = 127 := by
    unfold parse_stage
    rw [parse_tokens_argv (fun _ => numbered_files ['f'] 128) _ _ _ (Nat.le_refl _)
      (Nat.zero_le _)]
    rw [List.length_take]
    show min 127 (([] ++ _ : List CStr)).length = 127
    rw [List.nil_append, hall]
    rfl
  refine ⟨hall, hargv, ?_⟩
  intro h
  rw [h, hall] at hargv
  cases hargv

theorem any_cons_false (p : CStr → Bool) (tok : CStr) (rest : List CStr) (hp : p tok = false) :
    (tok :: rest).any p = rest.any p := by
  simp [List.any_cons, hp]

theorem token_after_last_cons (p : CStr → Bool) (tok : CStr) (rest : List CStr)
    (h : rest.any p = true) : token_after_last p (tok :: rest) = token_after_last p rest := by
  simp [token_after_last, h]

theorem token_after_last_none (p : CStr → Bool) (tokens : List CStr)
    (h : tokens.any p = false) : token_after_last p tokens = none := by
  cases tokens with
  | nil => rfl
  | cons tok rest =>
    rw [List.any_cons, Bool.or_eq_false_iff] at h
    simp [token_after_last, h.1, h.2]

theorem redirect_target_none (p : CStr → Bool) (tokens : List CStr) :
    redirect_target p tokens none = token_after_last p tokens := by
  unfold redirect_target
  split
  · rfl
  · rename_i h
    have h2 : tokens.any p = false := by
      cases hb : tokens.any p with
      | true => exact absurd hb h
      | false => rfl
    exact (token_after_last_none p tokens h2).symm

theorem redirect_target_cons_other (p : CStr → Bool) (tok : CStr) (rest : List CStr)
    (dflt : Option CStr) (hp : p tok = false) :
    redirect_target p (tok :: rest) dflt = redirect_target p rest dflt := by
  unfold redirect_target
  rw [any_cons_false p tok rest hp]
  by_cases h : rest.any p = true
  · rw [if_pos h, if_pos h, token_after_last_cons p tok rest h]
  · rw [if_neg h, if_neg h]

theorem redirect_target_op_last (p : CStr → Bool) (tok : CStr) (dflt : Option CStr)
    (hp : p tok = true) : redirect_target p [tok] dflt = none := by
  simp [redirect_target, token_after_last, hp]

theorem redirect_target_op_cons (p : CStr → Bool) (tok nxt : CStr) (rest2 : List CStr)
    (dflt : Option CStr) (hp : p tok = true) (hn : p nxt = false) :
    redirect_target p (tok :: nxt :: rest2) dflt = redirect_target p rest2 (some nxt) := by
  have hany : (tok :: nxt :: rest2).any p = true := by simp [List.any_cons, hp]
  have hany2 : (nxt :: rest2).any p = rest2.any p := any_cons_false p nxt rest2 hn
  unfold redirect_target
  rw [if_pos hany]
  by_cases h : rest2.any p = true
  · rw [if_pos h, token_after_last_cons p tok _ (by rw [hany2]; exact h),
      token_after_last_cons p nxt _ h]
  · rw [if_neg h]
    have h2 : (nxt :: rest2).any p = false := by
      rw [hany2]
      cases hb : rest2.any p with
      | true => exact absurd hb h
      | false => rfl
    simp [token_after_last, h2, hp]

theorem last_output_mode_cons_other (tok : CStr) (rest : List CStr) (dflt : Int)
    (h : is_output_op tok = false) :
    last_output_mode (tok :: rest) dflt = last_output_mode rest dflt := by
  simp [last_output_mode, List.filter_cons, h]

theorem last_output_mode_op (tok : CStr) (rest : List CStr) (dflt : Int)
    (h : is_output_op tok = true) :
    last_output_mode (tok :: rest) dflt =
      last_output_mode rest (if tok = ">>".toList then 1 else 0) := by
  unfold last_output_mode
  rw [List.filter_cons, if_pos h]
  cases hf : rest.filter is_output_op with
  | nil => simp
  | cons a l =>
    rw [List.getLast?_cons_cons]
    cases hl : (a :: l).getLast? with
    | none => simp at hl
    | some op => rfl

theorem no_adjacent_ops_tail (tok : CStr) (rest : List CStr)
    (h : no_adjacent_ops (tok :: rest) = true) : no_adjacent_ops rest = true := by
  cases rest with
  | nil => rfl
  | cons b rest2 =>
    simp only [no_adjacent_ops, Bool.and_eq_true] at h
    exact h.2

theorem no_adjacent_ops_next (tok nxt : CStr) (rest2 : List CStr)
    (h : no_adjacent_ops (tok :: nxt :: rest2) = true) (hop : is_redirect_op tok = true) :
    is_redirect_op nxt = false := by
  simp only [no_adjacent_ops, Bool.and_eq_true, Bool.not_eq_true', Bool.and_eq_false_iff] at h
  rcases h.1 with h1 | h1
  · rw [hop] at h1; cases h1
  · exact h1

theorem not_op_not_input (tok : CStr) (h : is_redirect_op tok = false) :
    is_input_op tok = false := by
  unfold is_redirect_op at h
  rw [Bool.or_eq_false_iff, Bool.or_eq_false_iff] at h
  exact h.1.1

theorem not_op_not_output (tok : CStr) (h : is_redirect_op tok = false) :
    is_output_op tok = false := by
  unfold is_redirect_op at h
  rw [Bool.or_eq_false_iff, Bool.or_eq_false_iff] at h
  unfold is_output_op
  rw [Bool.or_eq_false_iff]
  exact ⟨h.1.2, h.2⟩

/-- Without adjacent operators, the non-redirect tokens are the tokens that
are neither an operator nor immediately after one. -/
theorem spec_argv_eq_plain (n : Nat) : ∀ tokens : List CStr, tokens.length ≤ n →
    no_adjacent_ops tokens = true → spec_argv tokens = plain_tokens tokens := by
  induction n using Nat.strong_induction_on with
  | _ n ih =>
    intro tokens hn hadj
    cases tokens with
    | nil => rfl
    | cons tok rest =>
      simp only [List.length_cons] at hn
      by_cases hop : is_redirect_op tok = true
      · cases rest with
        | nil =>
          rw [plain_tokens_op_last tok hop]
          simp [spec_argv, spec_argv_from, hop]
        | cons nxt rest2 =>
          simp only [List.length_cons] at hn
          have hnxt := no_adjacent_ops_next tok nxt rest2 hadj hop
          have hadj2 := no_adjacent_ops_tail nxt rest2 (no_adjacent_ops_tail tok _ hadj)
          rw [plain_tokens_op tok nxt rest2 hop, ← ih (n - 1) (by omega) rest2 (by omega) hadj2]
          simp [spec_argv, spec_argv_from, hop, hnxt]
      · have hop2 : is_redirect_op tok = false := by
          cases hb : is_redirect_op tok with
          | true => exact absurd hb hop
          | false => rfl
        rw [plain_tokens_plain tok rest hop2,
          ← ih (n - 1) (by omega) rest (by omega) (no_adjacent_ops_tail tok rest hadj)]
        simp [spec_argv, spec_argv_from, hop2]

theorem redirect_target_nil (p : CStr → Bool) (dflt : Option CStr) :
    redirect_target p [] dflt = dflt := rfl

theorem last_output_mode_nil (dflt : Int) : last_output_mode [] dflt = dflt := rfl

theorem is_redirect_op_false (tok : CStr) (h1 : ¬ tok = "<".toList) (h2 : ¬ tok = ">".toList)
    (h3 : ¬ tok = ">>".toList) : is_redirect_op tok = false := by
  unfold is_redirect_op
  rw [Bool.or_eq_false_iff, Bool.or_eq_false_iff]
  exact ⟨⟨beq_eq_false_iff_ne.mpr h1, beq_eq_false_iff_ne.mpr h2⟩, beq_eq_false_iff_ne.mpr h3⟩

/-- The `argv` of a parse of tokens without glob characters, whatever `glob`
would return: the non-redirect tokens, cut to 127 entries. -/
theorem parse_tokens_argv_plain (G : CStr → Option (List CStr)) (n : Nat) :
    ∀ (tokens : List CStr) (st : Stage), tokens.length ≤ n →
    (∀ tok ∈ tokens, has_glob_char tok = false) → st.argv.length ≤ 127 →
    (parse_tokens G tokens st).argv = (st.argv ++ plain_tokens tokens).take 127 := by
  induction n using Nat.strong_induction_on with
  | _ n ih =>
    intro tokens st hn hglob hst
    cases tokens with
    | nil =>
      show st.argv = _
      rw [show plain_tokens [] = [] from rfl, List.append_nil, List.take_of_length_le hst]
    | cons tok rest =>
      simp only [List.length_cons] at hn
      have hgrest : ∀ x ∈ rest, has_glob_char x = false :=
        fun x hx => hglob x (List.mem_cons_of_mem _ hx)
      by_cases hfull : st.argv.length < 127
      · unfold parse_tokens
        rw [if_pos hfull]
        by_cases h1 : tok = "<".toList
        · have hop : is_redirect_op tok = true := by rw [h1]; decide
          rw [if_pos h1]
          cases rest with
          | nil =>
            rw [plain_tokens_op_last tok hop, List.append_nil, List.take_of_length_le hst]
          | cons nxt rest2 =>
            simp only [List.length_cons] at hn
            rw [plain_tokens_op tok nxt rest2 hop]
            exact ih (n - 1) (by omega) rest2 { st with infile := some nxt } (by omega)
              (fun x hx => hgrest x (List.mem_cons_of_mem _ hx)) hst
        · rw [if_neg h1]
          by_cases h2 : tok = ">".toList
          · have hop : is_redirect_op tok = true := by rw [h2]; decide
            rw [if_pos h2]
            cases rest with
            | nil =>
              rw [plain_tokens_op_last tok hop, List.append_nil, List.take_of_length_le hst]
            | cons nxt rest2 =>
              simp only [List.length_cons] at hn
              rw [plain_tokens_op tok nxt rest2 hop]
              exact ih (n - 1) (by omega) rest2
                { st with outfile := some nxt, append_mode := 0 } (by omega)
                (fun x hx => hgrest x (List.mem_cons_of_mem _ hx)) hst
          · rw [if_neg h2]
            by_cases h3 : tok = ">>".toList
            · have hop : is_redirect_op tok = true := by rw [h3]; decide
              rw [if_pos h3]
              cases rest with
              | nil =>
                rw [plain_tokens_op_last tok hop, List.append_nil, List.take_of_length_le hst]
              | cons nxt rest2 =>
                simp only [List.length_cons] at hn
                rw [plain_tokens_op tok nxt rest2 hop]
                exact ih (n - 1) (by omega) rest2
                  { st with outfile := some nxt, append_mode := 1 } (by omega)
                  (fun x hx => hgrest x (List.mem_cons_of_mem _ hx)) hst
            · rw [if_neg h3]
              have hop := is_redirect_op_false tok h1 h2 h3
              have hg : has_glob_char tok = false := hglob tok (List.mem_cons_self _ _)
              rw [hg, if_neg (by decide), plain_tokens_plain tok rest hop]
              have hih := ih (n - 1) (by omega) rest { st with argv := st.argv ++ [tok] }
                (by omega) hgrest
                (by simp only [List.length_append, List.length_singleton]; omega)
              rw [hih]
              simp
      · unfold parse_tokens
        rw [if_neg hfull, List.take_append_of_le_length (by omega), List.take_of_length_le hst]

/-- The whole result of a parse that never fills `argv`, for tokens without
glob characters and without adjacent operators. -/
theorem parse_tokens_full (G : CStr → Option (List CStr)) (n : Nat) :
    ∀ (tokens : List CStr) (st : Stage), tokens.length ≤ n →
    (∀ tok ∈ tokens, has_glob_char tok = false) → no_adjacent_ops tokens = true →
    st.argv.length + (plain_tokens tokens).length < 127 →
    parse_tokens G tokens st =
      { argv := st.argv ++ plain_tokens tokens,
        infile := redirect_target is_input_op tokens st.infile,
        outfile := redirect_target is_output_op tokens st.outfile,
        append_mode := last_output_mode tokens st.append_mode } := by
  induction n using Nat.strong_induction_on with
  | _ n ih =>
    intro tokens st hn hglob hadj hcap
    cases tokens with
    | nil =>
      show st = _
      rw [show plain_tokens [] = [] from rfl, List.append_nil, redirect_target_nil,
        redirect_target_nil, last_output_mode_nil]
    | cons tok rest =>
      simp only [List.length_cons] at hn
      have hgrest : ∀ x ∈ rest, has_glob_char x = false :=
        fun x hx => hglob x (List.mem_cons_of_mem _ hx)
      have hfull : st.argv.length < 127 := by omega
      unfold parse_tokens
      rw [if_pos hfull]
      by_cases h1 : tok = "<".toList
      · have hop : is_redirect_op tok = true := by rw [h1]; decide
        have hin : is_input_op tok = true := by rw [h1]; decide
        have hout : is_output_op tok = false := by rw [h1]; decide
        rw [if_pos h1]
        cases rest with
        | nil =>
          rw [plain_tokens_op_last tok hop, List.append_nil,
            redirect_target_op_last _ tok _ hin, redirect_target_cons_other _ tok _ _ hout,
            last_output_mode_cons_other tok _ _ hout, redirect_target_nil, last_output_mode_nil]
        | cons nxt rest2 =>
          simp only [List.length_cons] at hn
          have hnxt := no_adjacent_ops_next tok nxt rest2 hadj hop
          have hadj2 := no_adjacent_ops_tail nxt rest2 (no_adjacent_ops_tail tok _ hadj)
          rw [plain_tokens_op tok nxt rest2 hop] at hcap ⊢
          rw [redirect_target_op_cons _ tok nxt rest2 _ hin (not_op_not_input nxt hnxt),
            redirect_target_cons_other _ tok _ _ hout,
            redirect_target_cons_other _ nxt _ _ (not_op_not_output nxt hnxt),
            last_output_mode_cons_other tok _ _ hout,
            last_output_mode_cons_other nxt _ _ (not_op_not_output nxt hnxt)]
          exact ih (n - 1) (by omega) rest2 { st with infile := some nxt } (by omega)
            (fun x hx => hgrest x (List.mem_cons_of_mem _ hx)) hadj2 hcap
      · rw [if_neg h1]
        by_cases h2 : tok = ">".toList
        · have hop : is_redirect_op tok = true := by rw [h2]; decide
          have hin : is_input_op tok = false := by rw [h2]; decide
          have hout : is_output_op tok = true := by rw [h2]; decide
          have hmode : (if tok = ">>".toList then (1 : Int) else 0) = 0 := by rw [h2]; decide
          rw [if_pos h2]
          cases rest with
          | nil =>
            rw [plain_tokens_op_last tok hop, List.append_nil,
              redirect_target_op_last _ tok _ hout, redirect_target_cons_other _ tok _ _ hin,
              last_output_mode_op tok _ _ hout, redirect_target_nil, last_output_mode_nil, hmode]
          | cons nxt rest2 =>
            simp only [List.length_cons] at hn
            have hnxt := no_adjacent_ops_next tok nxt rest2 hadj hop
            have hadj2 := no_adjacent_ops_tail nxt rest2 (no_adjacent_ops_tail tok _ hadj)
            rw [plain_tokens_op tok nxt rest2 hop] at hcap ⊢
            rw [redirect_target_op_cons _ tok nxt rest2 _ hout (not_op_not_output nxt hnxt),
              redirect_target_cons_other _ tok _ _ hin,
              redirect_target_cons_other _ nxt _ _ (not_op_not_input nxt hnxt),
              last_output_mode_op tok _ _ hout,
              last_output_mode_cons_other nxt _ _ (not_op_not_output nxt hnxt), hmode]
            exact ih (n - 1) (by omega) rest2
              { st with outfile := some nxt, append_mode := 0 } (by omega)
              (fun x hx => hgrest x (List.mem_cons_of_mem _ hx)) hadj2 hcap
        · rw [if_neg h2]
          by_cases h3 : tok = ">>".toList
          · have hop : is_redirect_op tok = true := by rw [h3]; decide
            have hin : is_input_op tok = false := by rw [h3]; decide
            have hout : is_output_op tok = true := by rw [h3]; decide
            have hmode : (if tok = ">>".toList then (1 : Int) else 0) = 1 := by rw [h3]; decide
            rw [if_pos h3]
            cases rest with
            | nil =>
              rw [plain_tokens_op_last tok hop, List.append_nil,
                redirect_target_op_last _ tok _ hout, redirect_target_cons_other _ tok _ _ hin,
                last_output_mode_op tok _ _ hout, redirect_target_nil, last_output_mode_nil,
                hmode]
            | cons nxt rest2 =>
              simp only [List.length_cons] at hn
              have hnxt := no_adjacent_ops_next tok nxt rest2 hadj hop
              have hadj2 := no_adjacent_ops_tail nxt rest2 (no_adjacent_ops_tail tok _ hadj)
              rw [plain_tokens_op tok nxt rest2 hop] at hcap ⊢
              rw [redirect_target_op_cons _ tok nxt rest2 _ hout (not_op_not_output nxt hnxt),
                redirect_target_cons_other _ tok _ _ hin,
                redirect_target_cons_other _ nxt _ _ (not_op_not_input nxt hnxt),
                last_output_mode_op tok _ _ hout,
                last_output_mode_cons_other nxt _ _ (not_op_not_output nxt hnxt), hmode]
              exact ih (n - 1) (by omega) rest2
                { st with outfile := some nxt, append_mode := 1 } (by omega)
                (fun x hx => hgrest x (List.mem_cons_of_mem _ hx)) hadj2 hcap
          · rw [if_neg h3]
            have hop := is_redirect_op_false tok h1 h2 h3
            have hg : has_glob_char tok = false := hglob tok (List.mem_cons_self _ _)
            rw [hg, if_neg (by decide)]
            rw [plain_tokens_plain tok rest hop] at hcap ⊢
            simp only [List.length_cons] at hcap
            rw [redirect_target_cons_other _ tok _ _ (not_op_not_input tok hop),
              redirect_target_cons_other _ tok _ _ (not_op_not_output tok hop),
              last_output_mode_cons_other tok _ _ (not_op_not_output tok hop)]
            have hih := ih (n - 1) (by omega) rest { st with argv := st.argv ++ [tok] }
              (by omega) hgrest (no_adjacent_ops_tail tok rest hadj)
              (by simp only [List.length_append, List.length_singleton]; omega)
            rw [hih]
            simp

theorem strtok_all_word (rest : CStr) :
    strtok_all ' ' ('a' :: ' ' :: rest) = ['a'] :: strtok_all ' ' rest := by
  have hst : strtok_r ' ' ('a' :: ' ' :: rest) = some (['a'], rest) := by
    simp [strtok_r, List.dropWhile, List.takeWhile]
  unfold strtok_all
  show strtok_loop ' ' (rest.length + 1 + 1) _ = _
  rw [strtok_loop, hst]
  simp only
  rw [strtok_loop_fuel ' ' (rest.length + 1) rest (by omega)]

theorem strtok_all_long_stage (n : Nat) :
    strtok_all ' ' (long_stage n) = List.replicate n ['a'] ++ [">".toList, "out".toList] := by
  unfold long_stage
  induction n with
  | zero => decide
  | succ k ih =>
    rw [List.replicate_succ, List.flatten_cons]
    show strtok_all ' ' ('a' :: ' ' ::
      ((List.replicate k "a ".toList).flatten ++ "> out".toList)) = _
    rw [strtok_all_word, ih]
    rfl

theorem parse_tokens_words (G : CStr → Option (List CStr)) (tail : List CStr) (k : Nat) :
    ∀ st : Stage, st.argv.length + k ≤ 127 →
    parse_tokens G (List.replicate k ['a'] ++ tail) st =
      parse_tokens G tail { st with argv := st.argv ++ List.replicate k ['a'] } := by
  induction k with
  | zero =>
    intro st _
    simp
  | succ j ih =>
    intro st hst
    have hfull : st.argv.length < 127 := by omega
    rw [List.replicate_succ, List.cons_append]
    conv => lhs; unfold parse_tokens
    rw [if_pos hfull, if_neg (by decide), if_neg (by decide), if_neg (by decide)]
    rw [show has_glob_char ['a'] = false from by decide, if_neg (by decide)]
    rw [ih _ (by simp only [List.length_append, List.length_singleton]; omega)]
    simp

theorem parse_tokens_stop (G : CStr → Option (List CStr)) (tokens : List CStr) (st : Stage)
    (h : ¬ st.argv.length < 127) : parse_tokens G tokens st = st := by
  cases tokens with
  | nil => rfl
  | cons tok rest =>
    unfold parse_tokens
    rw [if_neg h]

theorem redirect_target_words (p : CStr → Bool) (hp : p ['a'] = false) (tail : List CStr)
    (dflt : Option CStr) (k : Nat) :
    redirect_target p (List.replicate k ['a'] ++ tail) dflt = redirect_target p tail dflt := by
  induction k with
  | zero => simp
  | succ j ih =>
    rw [List.replicate_succ, List.cons_append, redirect_target_cons_other p _ _ _ hp, ih]

theorem long_stage_outfile :
    (parse_stage (fun _ => none) (long_stage 127)).outfile = none := by
  unfold parse_stage
  rw [strtok_all_long_stage, parse_tokens_words _ _ 127 _ (by decide),
    parse_tokens_stop _ _ _ (by
      show ¬ (([] : List CStr) ++ List.replicate 127 ['a']).length < 127
      rw [List.nil_append, List.length_replicate]; decide)]

theorem long_stage_last_output :
    token_after_last is_output_op (strtok_all ' ' (long_stage 127)) = some "out".toList := by
  rw [strtok_all_long_stage, ← redirect_target_none,
    redirect_target_words _ (by decide)]
  decide

theorem long_stage_no_glob :
    ∀ tok ∈ strtok_all ' ' (long_stage 127), has_glob_char tok = false := by
  intro tok htok
  rw [strtok_all_long_stage] at htok
  rcases List.mem_append.mp htok with h | h
  · rw [List.eq_of_mem_replicate h]
    decide
  · simp only [List.mem_cons, List.mem_singleton, List.not_mem_nil, or_false] at h
    rcases h with h | h <;> rw [h] <;> decide

/-- C16, as amended. Stage tokenisation with redirections: for every stage
text whose space-separated tokens contain no glob metacharacter and in which
no token `<`, `>`, `>>` immediately follows another one, the parsed `argv` is
exactly the tokens, in their original order, that are neither one of `<`, `>`,
`>>` nor the token immediately following one of them, limited to the first
127; and when there are fewer than 127 such tokens, `infile` is the token
following the last `<`, `outfile` is the token following the last `>` or `>>`,
and `append_mode` is 1 exactly when that last output operator is `>>`, and 0
otherwise. -/
theorem parse_stage_redirections (G : CStr → Option (List CStr)) (stage : CStr)
    (hglob : ∀ tok ∈ strtok_all ' ' stage, has_glob_char tok = false)
    (hadj : no_adjacent_ops (strtok_all ' ' stage) = true) :
    (parse_stage G stage).argv = (spec_argv (strtok_all ' ' stage)).take 127 ∧
    ((spec_argv (strtok_all ' ' stage)).length < 127 →
      (parse_stage G stage).infile = token_after_last is_input_op (strtok_all ' ' stage) ∧
      (parse_stage G stage).outfile = token_after_last is_output_op (strtok_all ' ' stage) ∧
      ((parse_stage G stage).append_mode = 1 ↔
        ((strtok_all ' ' stage).filter is_output_op).getLast? = some ">>".toList) ∧
      ((parse_stage G stage).append_mode = 0 ∨ (parse_stage G stage).append_mode = 1)) := by
  have hspec := spec_argv_eq_plain _ (strtok_all ' ' stage) (Nat.le_refl _) hadj
  constructor
  · unfold parse_stage
    rw [parse_tokens_argv_plain G _ _ _ (Nat.le_refl _) hglob (Nat.zero_le _), hspec]
    rfl
  · intro hlen
    rw [hspec] at hlen
    have hfull := parse_tokens_full G _ (strtok_all ' ' stage)
      { argv := [], infile := none, outfile := none, append_mode := 0 }
      (Nat.le_refl _) hglob hadj (by simpa using hlen)
    have hpar : parse_stage G stage = _ := hfull
    rw [hpar]
    refine ⟨redirect_target_none _ _, redirect_target_none _ _, ?_, ?_⟩
    · show last_output_mode _ 0 = 1 ↔ _
      unfold last_output_mode
      cases ((strtok_all ' ' stage).filter is_output_op).getLast? with
      | none => simp
      | some op =>
        show (if op = ">>".toList then (1 : Int) else 0) = 1 ↔ some op = some ">>".toList
        by_cases hop : op = ">>".toList
        · rw [if_pos hop, hop]
          exact ⟨fun _ => rfl, fun _ => rfl⟩
        · rw [if_neg hop]
          constructor
          · intro h; exact absurd h (by decide)
          · intro h; exact absurd (Option.some.inj h) hop
    · show last_output_mode _ 0 = 0 ∨ last_output_mode _ 0 = 1
      unfold last_output_mode
      cases ((strtok_all ' ' stage).filter is_output_op).getLast? with
      | none => left; rfl
      | some op =>
        show (if op = ">>".toList then (1 : Int) else 0) = 0 ∨
          (if op = ">>".toList then (1 : Int) else 0) = 1
        by_cases hop : op = ">>".toList
        · right; rw [if_pos hop]
        · left; rw [if_neg hop]

/-- C16, an instance of `parse_stage_redirections`: the stage
`sort < in.txt -r >> out.txt`. -/
theorem parse_stage_redirections_witness :
    (parse_stage (fun _ => none) "sort < in.txt -r >> out.txt".toList).argv =
      ["sort".toList, "-r".toList] ∧
    (parse_stage (fun _ => none) "sort < in.txt -r >> out.txt".toList).infile =
      some "in.txt".toList ∧
    (parse_stage (fun _ => none) "sort < in.txt -r >> out.txt".toList).outfile =
      some "out.txt".toList :=
  have h := parse_stage_redirections (fun _ => none) "sort < in.txt -r >> out.txt".toList
    (by decide) (by decide)
  have h2 := h.2 (by decide)
  ⟨h.1.trans (by decide), h2.1.trans (by decide), h2.2.1.trans (by decide)⟩

/-- C16, as stated, fails in two ways.  In the stage `cat < > out` the token
`>` is taken as the target of `<`, so `out` is stored in `argv` although it
follows a `>`, and `outfile` stays unset.  In a stage of 127 arguments
followed by `> out` the parse stops when `argv` is full, before it reaches the
redirection, and `outfile` stays unset. -/
theorem parse_stage_redirections_counterexample :
    (∀ tok ∈ strtok_all ' ' "cat < > out".toList, has_glob_char tok = false) ∧
    (parse_stage (fun _ => none) "cat < > out".toList).argv = ["cat".toList, "out".toList] ∧
    (spec_argv (strtok_all ' ' "cat < > out".toList)).take 127 = ["cat".toList] ∧
    (parse_stage (fun _ => none) "cat < > out".toList).outfile = none ∧
    token_after_last is_output_op (strtok_all ' ' "cat < > out".toList) = some "out".toList ∧
    (∀ tok ∈ strtok_all ' ' (long_stage 127), has_glob_char tok = false) ∧
    (parse_stage (fun _ => none) (long_stage 127)).outfile = none ∧
    token_after_last is_output_op (strtok_all ' ' (long_stage 127)) = some "out".toList :=
  ⟨by decide, by decide, by decide, by decide, by decide,
    long_stage_no_glob, long_stage_outfile, long_stage_last_output⟩

/-! ## Completion -/

theorem strncmp_eq_isPrefixOf (name pre : CStr) :
    strncmp_eq name pre pre.length = pre.isPrefixOf name := by
  rw [Bool.eq_iff_iff, List.isPrefixOf_iff_prefix, List.prefix_iff_eq_take]
  unfold strncmp_eq
  rw [decide_eq_true_iff, List.take_length]
  exact eq_comm

theorem reverse_split_space (s : CStr) :
    s = through_last_space s ++ after_last_space s := by
  unfold through_last_space after_last_space
  rw [← List.reverse_append, List.takeWhile_append_dropWhile, List.reverse_reverse]

theorem after_last_space_length_lt (s : CStr) (h : ' ' ∈ s) :
    (after_last_space s).length < s.length := by
  unfold after_last_space
  rw [List.length_reverse]
  have hle : (s.reverse.takeWhile fun c => c != ' ').length ≤ s.reverse.length :=
    (List.takeWhile_prefix _).length_le
  rw [List.length_reverse] at hle
  rcases Nat.lt_or_eq_of_le hle with hlt | heq
  · exact hlt
  · exfalso
    have hself : (s.reverse.takeWhile fun c => c != ' ') = s.reverse := by
      apply (List.takeWhile_prefix _).eq_of_length
      rw [heq, List.length_reverse]
    have hall := List.takeWhile_eq_self_iff.mp hself
    have := hall ' ' (List.mem_reverse.mpr h)
    simp at this

/-- The split of the input at `strrchr (t->input, ' ')`: `start + 1` is the
text after the last space, and what precedes it ends with that space. -/
theorem strrchr_space_split (s : CStr) :
    (match strrchr s ' ' with
      | some i => s.take (i + 1)
      | none => []) = through_last_space s ∧
    (match strrchr s ' ' with
      | some i => s.drop (i + 1)
      | none => s) = after_last_space s := by
  have hsplit := reverse_split_space s
  by_cases h : ' ' ∈ s
  · have hlt := after_last_space_length_lt s h
    have hidx : strrchr s ' ' = some (s.length - 1 - (after_last_space s).length) := by
      unfold strrchr after_last_space
      rw [if_pos h, List.length_reverse]
    have hlen : s.length = (through_last_space s).length + (after_last_space s).length := by
      have := congrArg List.length hsplit
      rwa [List.length_append] at this
    have hi : s.length - 1 - (after_last_space s).length + 1 = (through_last_space s).length := by
      omega
    rw [hidx]
    simp only [hi]
    constructor
    · have h1 := congrArg (List.take (through_last_space s).length) hsplit
      rw [List.take_left' rfl] at h1
      exact h1
    · have h1 := congrArg (List.drop (through_last_space s).length) hsplit
      rw [List.drop_left' rfl] at h1
      exact h1
  · have hidx : strrchr s ' ' = none := by
      unfold strrchr
      rw [if_neg h]
    have hall : ∀ c ∈ s.reverse, (c != ' ') = true := by
      intro c hc
      have hne : c ≠ ' ' := fun hcs => h (hcs ▸ List.mem_reverse.mp hc)
      simpa using hne
    rw [hidx]
    simp only
    constructor
    · unfold through_last_space
      rw [List.dropWhile_eq_nil_iff.mpr hall]
      rfl
    · unfold after_last_space
      rw [List.takeWhile_eq_self_iff.mpr hall, List.reverse_reverse]

/-- The function `autocomplete` in terms of the split of the input line and
of the matches it collects: the entries that start with the typed prefix, in
the order of the listing, at most 256 of them. -/
theorem autocomplete_eq (entries : List CStr) (t : Tab)
    (hpre : after_last_space t.input ≠ []) :
    autocomplete (some entries) t =
      match (entries.filter fun name => (after_last_space t.input).isPrefixOf name).take 256 with
      | [] => some t
      | [m] =>
        if t.input.length < PATH_MAX ∧ (through_last_space t.input ++ m).length < INPUT_MAX then
          some { t with
            input := through_last_space t.input ++ m,
            cursor_pos := Int.ofNat (through_last_space t.input ++ m).length,
            tb := tb_append t.tb (snprintf256 ("Auto-completed: ".toList ++ m)) }
        else none
      | m0 :: m1 :: rest =>
        if (m1 :: rest).foldl (fun pl m => common_len pl m0 m) m0.length >
            (after_last_space t.input).length then
          if (m1 :: rest).foldl (fun pl m => common_len pl m0 m) m0.length < PATH_MAX ∧
              (through_last_space t.input ++
                m0.take ((m1 :: rest).foldl (fun pl m => common_len pl m0 m) m0.length)).length
                < INPUT_MAX then
            some { t with
              input := through_last_space t.input ++
                m0.take ((m1 :: rest).foldl (fun pl m => common_len pl m0 m) m0.length),
              cursor_pos := Int.ofNat (through_last_space t.input ++
                m0.take ((m1 :: rest).foldl (fun pl m => common_len pl m0 m) m0.length)).length,
              tb := tb_append t.tb "Partial auto-complete (multiple matches)".toList }
          else none
        else
          some { t with
            tb := tb_append
              (append_numbered 0 (m0 :: m1 :: rest)
                (tb_append t.tb "Multiple matches:".toList))
              "Enter number to select file:".toList } := by
  have hsp := strrchr_space_split t.input
  have hin : ¬ t.input.length = 0 := by
    intro h
    have : t.input = [] := List.length_eq_zero.mp h
    rw [this] at hpre
    exact hpre rfl
  have hp0 : ¬ (after_last_space t.input).length = 0 :=
    fun h => hpre (List.length_eq_zero.mp h)
  have hfilter : (entries.filter fun name =>
      strncmp_eq name (after_last_space t.input) (after_last_space t.input).length) =
      entries.filter fun name => (after_last_space t.input).isPrefixOf name := by
    congr 1
    funext name
    exact strncmp_eq_isPrefixOf name _
  unfold autocomplete
  rw [if_neg hin]
  simp only [hsp.1, hsp.2]
  rw [if_neg hp0, hfilter]
  rfl

/-- Completion with a single match, for a line that fits the two arrays: for
every input line shorter than `PATH_MAX` whose text after the last space is a
non-empty prefix `p`, and every directory listing in which exactly one entry
name `m` starts with `p`, where the completed line is shorter than
`INPUT_MAX`: `autocomplete` replaces `p` by `m`, with `input_len` and
`cursor_pos` equal to the new length.  With zero matching entries the tab is
unchanged. -/
theorem autocomplete_single_match (entries : List CStr) (t : Tab)
    (hpre : after_last_space t.input ≠ []) :
    (∀ m : CStr,
      (entries.filter fun name => (after_last_space t.input).isPrefixOf name) = [m] →
      t.input.length < PATH_MAX →
      (through_last_space t.input ++ m).length < INPUT_MAX →
      ∃ u, autocomplete (some entries) t = some u ∧
        u.input = through_last_space t.input ++ m ∧
        u.input_len = (through_last_space t.input ++ m).length ∧
        u.cursor_pos = Int.ofNat u.input_len) ∧
    ((entries.filter fun name => (after_last_space t.input).isPrefixOf name) = [] →
      autocomplete (some entries) t = some t) := by
  refine ⟨?_, ?_⟩
  · intro m hm h1 h2
    rw [autocomplete_eq entries t hpre, hm]
    simp only [List.take_succ_cons, List.take_nil]
    rw [if_pos ⟨h1, h2⟩]
    exact ⟨_, rfl, rfl, rfl, rfl⟩
  · intro h0
    rw [autocomplete_eq entries t hpre, h0]
    rfl

/-- The command `cat rea` in a directory with `readme.md` and `report.txt`
is completed to `cat readme.md`. -/
theorem autocomplete_single_match_example :
    (autocomplete (some [".".toList, "readme.md".toList, "report.txt".toList])
      { create_tab none with input := "cat rea".toList }).map (fun u => u.input) =
      some "cat readme.md".toList := by
  decide

/-- With a single match, a line that does not fit `completion[PATH_MAX]`, or
a completed line that does not fit `input[INPUT_MAX]`, is copied past the
array. -/
theorem autocomplete_single_overflow (entries : List CStr) (t : Tab) (m : CStr)
    (hpre : after_last_space t.input ≠ [])
    (hm : (entries.filter fun name => (after_last_space t.input).isPrefixOf name) = [m])
    (hbig : ¬ (t.input.length < PATH_MAX ∧
      (through_last_space t.input ++ m).length < INPUT_MAX)) :
    autocomplete (some entries) t = none := by
  rw [autocomplete_eq entries t hpre, hm]
  simp only [List.take_succ_cons, List.take_nil]
  rw [if_neg hbig]

theorem after_last_space_append (a b : CStr) (hb : ' ' ∉ b) :
    after_last_space (a ++ ' ' :: b) = b := by
  unfold after_last_space
  have hrev : (a ++ ' ' :: b).reverse = b.reverse ++ (' ' :: a.reverse) := by
    simp
  rw [hrev, List.takeWhile_append_of_pos]
  · simp
  · intro c hc
    have hcb : c ∈ b := List.mem_reverse.mp hc
    have hne : c ≠ ' ' := fun h => hb (h ▸ hcb)
    simpa using hne

/-- Typing printable bytes at the end of the line appends them, as long as
the guard `input_len + 1 < INPUT_MAX - 1` of the insertion lets them in. -/
theorem key_seq_typed (s : List Char) :
    ∀ t : Tab, (∀ c ∈ s, isprint c = true) → t.cursor_pos = Int.ofNat t.input.length →
      t.input.length + s.length < INPUT_MAX - 1 →
      key_seq (s.map Key.char) t =
        some { t with input := t.input ++ s, cursor_pos := Int.ofNat (t.input ++ s).length } := by
  induction s with
  | nil =>
    intro t _ hcur _
    simp only [List.map_nil, key_seq, List.append_nil, ← hcur]
  | cons c s ih =>
    intro t hp hcur hlen
    have hc : isprint c = true := hp c (List.mem_cons_self _ _)
    have hlen1 : t.input.length + 1 < INPUT_MAX - 1 := by
      simp only [List.length_cons] at hlen
      omega
    have hins : key_insert c t =
        some { t with input := t.input ++ [c],
                      cursor_pos := Int.ofNat (t.input ++ [c]).length } := by
      unfold key_insert
      rw [if_pos ⟨hc, hlen1⟩, if_pos ⟨by rw [hcur]; exact Int.ofNat_nonneg _, by rw [hcur]⟩]
      have htn : t.cursor_pos.toNat = t.input.length := by rw [hcur]; rfl
      rw [htn, List.take_length, List.drop_length, hcur]
      simp only [List.length_append, List.length_singleton, Int.ofNat_eq_coe, Nat.cast_add,
        Nat.cast_one]
    simp only [List.map_cons, key_seq, key_press, hins]
    rw [ih _ (fun x hx => hp x (List.mem_cons_of_mem _ hx)) rfl
      (by simp only [List.length_append, List.length_singleton, List.length_cons,
            List.length_nil] at hlen ⊢
          omega)]
    simp only [List.append_assoc, List.singleton_append]

/-- C19: the completion with a single match does not hold for every input
line.  On a fresh tab the keys `a` (4093 times), space, `r`, `e` give a line
of 4096 bytes whose text after the last space is `re`; in a directory whose
only entry is `readme.md` the Tab key then reaches the single-match case,
where `strcpy (completion, t->input)` copies the 4096 bytes and the terminator
into `completion[PATH_MAX]`, an array of 4096 bytes: the call has no
result. -/
theorem autocomplete_single_match_overflow :
    (List.replicate 4093 'a' ++ " re".toList).length = 4096 ∧
      after_last_space (List.replicate 4093 'a' ++ " re".toList) = "re".toList ∧
      (["readme.md".toList].filter fun name => "re".toList.isPrefixOf name) =
        ["readme.md".toList] ∧
      key_seq ((List.replicate 4093 'a' ++ " re".toList).map Key.char) (create_tab none) =
        some (tab_with_input (List.replicate 4093 'a' ++ " re".toList)) ∧
      autocomplete (some ["readme.md".toList])
        (tab_with_input (List.replicate 4093 'a' ++ " re".toList)) = none ∧
      key_seq ((List.replicate 4093 'a' ++ " re".toList).map Key.char ++
        [Key.tab (some ["readme.md".toList])]) (create_tab none) = none := by
  have hlen : (List.replicate 4093 'a' ++ " re".toList).length = 4096 := by
    rw [List.length_append, List.length_replicate]
    rfl
  have hafter : after_last_space (List.replicate 4093 'a' ++ " re".toList) = "re".toList :=
    after_last_space_append (List.replicate 4093 'a') "re".toList (by decide)
  have hprint : ∀ c ∈ List.replicate 4093 'a' ++ " re".toList, isprint c = true := by
    intro c hc
    rcases List.mem_append.mp hc with h | h
    · rw [List.eq_of_mem_replicate h]
      decide
    · have h3 : c = ' ' ∨ c = 'r' ∨ c = 'e' := by simpa using h
      rcases h3 with rfl | rfl | rfl <;> decide
  have htyped : key_seq ((List.replicate 4093 'a' ++ " re".toList).map Key.char)
      (create_tab none) = some (tab_with_input (List.replicate 4093 'a' ++ " re".toList)) := by
    have hfit : (create_tab none).input.length +
        (List.replicate 4093 'a' ++ " re".toList).length < INPUT_MAX - 1 := by
      rw [hlen]
      decide
    rw [key_seq_typed _ (create_tab none) hprint rfl hfit]
    rfl
  have hnone : autocomplete (some ["readme.md".toList])
      (tab_with_input (List.replicate 4093 'a' ++ " re".toList)) = none := by
    apply autocomplete_single_overflow _ _ "readme.md".toList
    · show after_last_space (List.replicate 4093 'a' ++ " re".toList) ≠ []
      rw [hafter]
      decide
    · show (["readme.md".toList].filter fun name =>
        (after_last_space (List.replicate 4093 'a' ++ " re".toList)).isPrefixOf name) = _
      rw [hafter]
      decide
    · intro h
      have h1 : (List.replicate 4093 'a' ++ " re".toList).length < PATH_MAX := h.1
      rw [hlen] at h1
      exact absurd h1 (by decide)
  refine ⟨hlen, hafter, by decide, htyped, hnone, ?_⟩
  have hseq : ∀ (ks : List Key) (k : Key) (t u : Tab), key_seq ks t = some u →
      key_seq (ks ++ [k]) t = key_press k u := by
    intro ks
    induction ks with
    | nil =>
      intro k t u h
      have htu : t = u := Option.some.inj h
      subst htu
      show (match key_press k t with
        | some t1 => key_seq [] t1
        | none => none) = key_press k t
      cases key_press k t <;> rfl
    | cons k0 ks ih =>
      intro k t u h
      simp only [List.cons_append, key_seq] at h ⊢
      cases h0 : key_press k0 t with
      | none =>
        rw [h0] at h
        exact absurd h (by simp)
      | some t1 =>
        rw [h0] at h
        exact ih k t1 u h
  rw [hseq _ _ _ _ htyped]
  exact hnone

theorem common_len_le (n : Nat) : ∀ a b : CStr, common_len n a b ≤ n := by
  induction n with
  | zero => intro a b; simp [common_len]
  | succ k ih =>
    intro a b
    cases a with
    | nil => simp [common_len]
    | cons x a1 =>
      cases b with
      | nil => simp [common_len]
      | cons y b1 =>
        simp only [common_len]
        split
        · have := ih a1 b1
          omega
        · omega

theorem common_len_start (n : Nat) : ∀ a b : CStr,
    a.take (common_len n a b) <+: b := by
  induction n with
  | zero => intro a b; simp [common_len]
  | succ k ih =>
    intro a b
    cases a with
    | nil => simp [common_len]
    | cons x a1 =>
      cases b with
      | nil => simp [common_len]
      | cons y b1 =>
        simp only [common_len]
        split
        · rename_i hxy
          rw [hxy, List.take_succ_cons]
          exact (List.prefix_cons_inj y).mpr (ih a1 b1)
        · simp

theorem common_len_max (n : Nat) : ∀ a b d : CStr,
    d <+: a.take n → d <+: b → d.length ≤ common_len n a b := by
  induction n with
  | zero =>
    intro a b d h1 _
    rw [List.take_zero, List.prefix_nil] at h1
    rw [h1]
    exact Nat.zero_le _
  | succ k ih =>
    intro a b d h1 h2
    cases d with
    | nil => exact Nat.zero_le _
    | cons z d1 =>
      cases a with
      | nil =>
        rw [List.take_nil, List.prefix_nil] at h1
        cases h1
      | cons x a1 =>
        cases b with
        | nil =>
          rw [List.prefix_nil] at h2
          cases h2
        | cons y b1 =>
          rw [List.take_succ_cons, List.cons_prefix_cons] at h1
          rw [List.cons_prefix_cons] at h2
          have hxy : x = y := h1.1.symm.trans h2.1
          simp only [common_len, hxy, if_true, List.length_cons]
          have := ih a1 b1 d1 h1.2 h2.2
          omega

theorem prefix_take_of_length_le (d a : CStr) (k : Nat) (h : d <+: a) (hk : d.length ≤ k) :
    d <+: a.take k := by
  rw [List.prefix_iff_eq_take] at h ⊢
  rw [List.take_take, Nat.min_eq_left hk]
  exact h

/-- The loop of lines 485-491 over the other matches, from the length `pl0`:
the result is at most `pl0`, the bytes of `matches[0]` up to it start every
other match, and no common prefix within the first `pl0` bytes is longer. -/
theorem common_len_foldl (m0 : CStr) (rest : List CStr) : ∀ pl0 : Nat,
    rest.foldl (fun pl m => common_len pl m0 m) pl0 ≤ pl0 ∧
    (∀ m ∈ rest, m0.take (rest.foldl (fun pl m => common_len pl m0 m) pl0) <+: m) ∧
    (∀ d : CStr, d <+: m0.take pl0 → (∀ m ∈ rest, d <+: m) →
      d.length ≤ rest.foldl (fun pl m => common_len pl m0 m) pl0) := by
  induction rest with
  | nil =>
    intro pl0
    refine ⟨Nat.le_refl _, fun m hm => absurd hm (List.not_mem_nil m), ?_⟩
    intro d hd _
    have := hd.length_le
    rw [List.length_take] at this
    exact Nat.le_trans this (Nat.min_le_left _ _)
  | cons m ms ih =>
    intro pl0
    rw [List.foldl_cons]
    obtain ⟨h1, h2, h3⟩ := ih (common_len pl0 m0 m)
    have hle := common_len_le pl0 m0 m
    refine ⟨Nat.le_trans h1 hle, ?_, ?_⟩
    · intro x hx
      rcases List.mem_cons.mp hx with rfl | hx
      · have hp : m0.take (ms.foldl (fun pl m => common_len pl m0 m) (common_len pl0 m0 x)) <+:
            m0.take (common_len pl0 m0 x) := List.take_prefix_take_left m0 h1
        exact hp.trans (common_len_start pl0 m0 x)
      · exact h2 x hx
    · intro d hd hall
      have hdm : d <+: m := hall m (List.mem_cons_self _ _)
      have hk := common_len_max pl0 m0 m d hd hdm
      have hd0 : d <+: m0 := hd.trans (List.take_prefix _ _)
      exact h3 d (prefix_take_of_length_le d m0 _ hd0 hk)
        (fun x hx => hall x (List.mem_cons_of_mem _ hx))

/-- The common prefix that `autocomplete` computes is a longest common prefix
of the matches. -/
theorem common_len_isLCP (m0 : CStr) (rest : List CStr) :
    IsLCP (m0 :: rest)
      (m0.take (rest.foldl (fun pl m => common_len pl m0 m) m0.length)) := by
  obtain ⟨h1, h2, h3⟩ := common_len_foldl m0 rest m0.length
  constructor
  · intro m hm
    rcases List.mem_cons.mp hm with rfl | hm
    · exact List.take_prefix _ _
    · exact h2 m hm
  · intro d hall
    have hd0 : d <+: m0 := hall m0 (List.mem_cons_self _ _)
    have hd : d <+: m0.take m0.length := by rw [List.take_length]; exact hd0
    have := h3 d hd (fun x hx => hall x (List.mem_cons_of_mem _ hx))
    rw [List.length_take]
    omega

theorem isLCP_unique (names : List CStr) (m0 : CStr) (hm0 : m0 ∈ names) (c c1 : CStr)
    (hc : IsLCP names c) (hc1 : IsLCP names c1) : c = c1 := by
  have hlen : c.length = c1.length :=
    Nat.le_antisymm (hc1.2 c hc.1) (hc.2 c1 hc1.1)
  have h1 := List.prefix_iff_eq_take.mp (hc.1 m0 hm0)
  have h2 := List.prefix_iff_eq_take.mp (hc1.1 m0 hm0)
  rw [h1, h2, hlen]

theorem isLCP_of_diverge (names : List CStr) (a b c : CStr) (ha : a ∈ names) (hb : b ∈ names)
    (hall : ∀ m ∈ names, c <+: m) (hdiv : a[c.length]? ≠ b[c.length]?) : IsLCP names c := by
  refine ⟨hall, ?_⟩
  intro d hd
  by_contra hlt
  have hlt2 : c.length < d.length := by omega
  obtain ⟨u, hu⟩ := hd a ha
  obtain ⟨v, hv⟩ := hd b hb
  apply hdiv
  rw [← hu, ← hv, List.getElem?_append_left hlt2, List.getElem?_append_left hlt2]

/-- The result of `autocomplete` when it has collected two or more matches
`M`, in terms of a longest common prefix `c` of `M`. -/
theorem autocomplete_multi (entries : List CStr) (t : Tab) (M : List CStr) (c : CStr)
    (hpre : after_last_space t.input ≠ [])
    (hM : (entries.filter fun name => (after_last_space t.input).isPrefixOf name).take 256 = M)
    (h2 : 2 ≤ M.length) (hc : IsLCP M c) :
    ((after_last_space t.input).length < c.length →
      c.length < PATH_MAX → (through_last_space t.input ++ c).length < INPUT_MAX →
      autocomplete (some entries) t =
        some { t with
          input := through_last_space t.input ++ c,
          cursor_pos := Int.ofNat (through_last_space t.input ++ c).length,
          tb := tb_append t.tb "Partial auto-complete (multiple matches)".toList }) ∧
    (¬ (after_last_space t.input).length < c.length →
      autocomplete (some entries) t =
        some { t with
          tb := tb_append
            (append_numbered 0 M (tb_append t.tb "Multiple matches:".toList))
            "Enter number to select file:".toList }) := by
  cases M with
  | nil => simp at h2
  | cons m0 M1 =>
    cases M1 with
    | nil => simp at h2
    | cons m1 rest =>
      have hlcp := common_len_isLCP m0 (m1 :: rest)
      have hceq := isLCP_unique _ m0 (List.mem_cons_self _ _) _ _ hc hlcp
      have hfold := (common_len_foldl m0 (m1 :: rest) m0.length).1
      have hclen : c.length =
          (m1 :: rest).foldl (fun pl m => common_len pl m0 m) m0.length := by
        rw [hceq, List.length_take]
        omega
      rw [autocomplete_eq entries t hpre, hM]
      simp only
      constructor
      · intro hlt hpath hfit
        rw [if_pos (by rw [← hclen]; exact hlt), ← hceq, ← hclen, if_pos ⟨hpath, hfit⟩]
      · intro hge
        rw [if_neg (by rw [← hclen]; exact hge)]

/-- C20, as amended. Completion with several matches: for every input with a
non-empty typed prefix `p` and every directory listing with two or more and at
most 256 entry names starting with `p`, let `c` be the longest common prefix
of all those names.  If `c` is strictly longer than `p`, shorter than
`PATH_MAX`, and the line with `p` replaced by `c` is shorter than `INPUT_MAX`,
the typed prefix is replaced by exactly `c` (the rest of the input is
unchanged, and `input_len` and `cursor_pos` are the new length).  If `c` is
not longer than `p`, the input and the cursor are unchanged and every matching
name is appended to the log with its number, between a heading and a closing
line.  With the entries `readme.md` and `report.txt` the typed `re` lists both
and leaves the input `re`. -/
theorem autocomplete_multiple_matches (entries : List CStr) (t : Tab) (c : CStr)
    (hpre : after_last_space t.input ≠ [])
    (h2 : 2 ≤ (entries.filter fun name => (after_last_space t.input).isPrefixOf name).length)
    (h256 : (entries.filter fun name =>
      (after_last_space t.input).isPrefixOf name).length ≤ 256)
    (hc : IsLCP (entries.filter fun name => (after_last_space t.input).isPrefixOf name) c) :
    ((after_last_space t.input).length < c.length →
      c.length < PATH_MAX → (through_last_space t.input ++ c).length < INPUT_MAX →
      ∃ u, autocomplete (some entries) t = some u ∧
        u.input = through_last_space t.input ++ c ∧
        u.input_len = (through_last_space t.input ++ c).length ∧
        u.cursor_pos = Int.ofNat u.input_len) ∧
    (¬ (after_last_space t.input).length < c.length →
      ∃ u, autocomplete (some entries) t = some u ∧
        u.input = t.input ∧
        u.cursor_pos = t.cursor_pos ∧
        u.tb =
          tb_append
            (append_numbered 0
              (entries.filter fun name => (after_last_space t.input).isPrefixOf name)
              (tb_append t.tb "Multiple matches:".toList))
            "Enter number to select file:".toList) ∧
    (autocomplete (some ["readme.md".toList, "report.txt".toList])
        { create_tab none with input := "re".toList }).map (fun u => (u.input, u.tb.lines)) =
      some ("re".toList,
        ["New tab created.".toList, "Multiple matches:".toList, "1. readme.md".toList,
          "2. report.txt".toList, "Enter number to select file:".toList]) := by
  have hM := List.take_of_length_le h256
  obtain ⟨h1, h0⟩ := autocomplete_multi entries t _ c hpre hM h2 hc
  refine ⟨?_, ?_, by decide⟩
  · intro hlt hpath hfit
    exact ⟨_, h1 hlt hpath hfit, rfl, rfl, rfl⟩
  · intro hge
    exact ⟨_, h0 hge, rfl, rfl, rfl⟩

/-- C20, an instance of `autocomplete_multiple_matches`: the command `cat r`
in a directory with `readme.md` and `report.txt` is extended to the common
prefix `re`. -/
theorem autocomplete_multiple_matches_witness :
    after_last_space "cat r".toList ≠ [] ∧
    (autocomplete (some [".".toList, "readme.md".toList, "report.txt".toList])
      { create_tab none with input := "cat r".toList }).map (fun u => u.input) =
      some "cat re".toList := by
  obtain ⟨u, hu, hi, _⟩ :=
    (autocomplete_multiple_matches [".".toList, "readme.md".toList, "report.txt".toList]
      { create_tab none with input := "cat r".toList } "re".toList (by decide) (by decide)
      (by decide)
      (isLCP_of_diverge _ "readme.md".toList "report.txt".toList _ (by decide) (by decide)
        (by decide) (by decide))).1 (by decide) (by decide) (by decide)
  refine ⟨by decide, ?_⟩
  rw [hu, Option.map_some', hi]
  decide

theorem numbered_files_mem (stem : CStr) (n i : Nat) (hi : i < n) :
    stem ++ Nat.toDigits 10 i ∈ numbered_files stem n :=
  List.mem_map.mpr ⟨i, List.mem_range.mpr hi, rfl⟩

theorem numbered_files_stem (stem : CStr) (n : Nat) :
    ∀ m ∈ numbered_files stem n, stem <+: m := by
  intro m hm
  obtain ⟨i, _, hi⟩ := List.mem_map.mp hm
  exact ⟨_, hi⟩

theorem numbered_files_length (stem : CStr) (n : Nat) : (numbered_files stem n).length = n := by
  unfold numbered_files
  rw [List.length_map, List.length_range]

/-- C20, as stated, fails when more than 256 entries match: in a listing of
the 256 names `ab0` to `ab255` followed by `ac`, with the typed prefix `a`, the
longest common prefix of all 257 matching names is `a`, which is not longer
than the typed prefix, so the input should stay `a`; `autocomplete` collects
only the first 256 matches, whose common prefix is `ab`, and extends the input
to `ab`. -/
theorem autocomplete_many_matches_counterexample :
    after_last_space "a".toList = "a".toList ∧
    ((numbered_files "ab".toList 256 ++ ["ac".toList]).filter
      fun name => (after_last_space "a".toList).isPrefixOf name).length = 257 ∧
    IsLCP ((numbered_files "ab".toList 256 ++ ["ac".toList]).filter
      fun name => (after_last_space "a".toList).isPrefixOf name) "a".toList ∧
    (autocomplete (some (numbered_files "ab".toList 256 ++ ["ac".toList]))
      { create_tab none with input := "a".toList }).map (fun u => u.input) =
      some "ab".toList ∧
    (autocomplete (some (numbered_files "ab".toList 256 ++ ["ac".toList]))
      { create_tab none with input := "a".toList }).map (fun u => u.input) ≠
      some "a".toList := by
  have hp : after_last_space "a".toList = "a".toList := by decide
  have hallA : ∀ m ∈ numbered_files "ab".toList 256 ++ ["ac".toList], "a".toList <+: m := by
    intro m hm
    rcases List.mem_append.mp hm with h | h
    · exact (show "a".toList <+: "ab".toList from by decide).trans
        (numbered_files_stem _ _ m h)
    · rw [List.mem_singleton.mp h]
      decide
  have hfilter : ((numbered_files "ab".toList 256 ++ ["ac".toList]).filter
      fun name => (after_last_space "a".toList).isPrefixOf name) =
      numbered_files "ab".toList 256 ++ ["ac".toList] := by
    rw [List.filter_eq_self]
    intro m hm
    rw [hp]
    exact List.isPrefixOf_iff_prefix.mpr (hallA m hm)
  have hlen := numbered_files_length "ab".toList 256
  have h0 : "ab0".toList ∈ numbered_files "ab".toList 256 :=
    numbered_files_mem "ab".toList 256 0 (by decide)
  have h1 : "ab1".toList ∈ numbered_files "ab".toList 256 :=
    numbered_files_mem "ab".toList 256 1 (by decide)
  have hlcpAll : IsLCP (numbered_files "ab".toList 256 ++ ["ac".toList]) "a".toList :=
    isLCP_of_diverge _ "ab0".toList "ac".toList _ (List.mem_append_left _ h0)
      (List.mem_append_right _ (List.mem_singleton_self _)) hallA (by decide)
  have hlcp256 : IsLCP (numbered_files "ab".toList 256) "ab".toList :=
    isLCP_of_diverge _ "ab0".toList "ab1".toList _ h0 h1
      (numbered_files_stem _ _) (by decide)
  have htake : ((numbered_files "ab".toList 256 ++ ["ac".toList]).filter
      fun name => (after_last_space
        ({ create_tab none with input := "a".toList } : Tab).input).isPrefixOf name).take 256 =
      numbered_files "ab".toList 256 := by
    show ((numbered_files "ab".toList 256 ++ ["ac".toList]).filter
      fun name => (after_last_space "a".toList).isPrefixOf name).take 256 = _
    rw [hfilter]
    exact List.take_left' hlen
  have hres := (autocomplete_multi (numbered_files "ab".toList 256 ++ ["ac".toList])
    { create_tab none with input := "a".toList } _ "ab".toList (by decide) htake
    (by rw [hlen]; decide) hlcp256).1 (by decide) (by decide) (by decide)
  have hinput : (autocomplete (some (numbered_files "ab".toList 256 ++ ["ac".toList]))
      { create_tab none with input := "a".toList }).map (fun u => u.input) =
      some "ab".toList := by
    rw [hres]
    decide
  refine ⟨hp, ?_, ?_, hinput, ?_⟩
  · rw [hfilter, List.length_append, hlen]
    rfl
  · rw [hfilter]
    exact hlcpAll
  · rw [hinput]
    decide

/-! ## Running a command: dispatch, pipeline, background launch -/

theorem dispatch_history (cmdline : CStr) (h : "history".toList <+: cmdline) :
    run_command_dispatch cmdline = Branch.history := by
  obtain ⟨r, rfl⟩ := h
  simp [run_command_dispatch, strncmp_eq]

theorem dispatch_jobs (cmdline : CStr) (h : "jobs".toList <+: cmdline) :
    run_command_dispatch cmdline = Branch.jobs := by
  obtain ⟨r, rfl⟩ := h
  simp [run_command_dispatch, strncmp_eq]

theorem dispatch_kill (cmdline : CStr) (h : "kill".toList <+: cmdline) :
    run_command_dispatch cmdline = Branch.kill := by
  obtain ⟨r, rfl⟩ := h
  simp [run_command_dispatch, strncmp_eq]

theorem dispatch_fg (cmdline : CStr) (h : "fg".toList <+: cmdline) :
    run_command_dispatch cmdline = Branch.fg := by
  obtain ⟨r, rfl⟩ := h
  simp [run_command_dispatch, strncmp_eq]

theorem dispatch_cd_iff (cmdline : CStr) (h : "cd".toList <+: cmdline) :
    run_command_dispatch cmdline = Branch.cd ↔
      (cmdline[2]? = some ' ' ∨ cmdline[2]? = none) := by
  obtain ⟨r, rfl⟩ := h
  simp only [run_command_dispatch, strncmp_eq]
  constructor
  · intro hd
    by_contra hc
    rw [if_neg (fun hh => hc hh.2)] at hd
    simp at hd
  · intro hc
    rw [if_pos ⟨by simp, hc⟩]

theorem dispatch_cd_other (cmdline : CStr) (h : "cd".toList <+: cmdline)
    (hc : ¬ (cmdline[2]? = some ' ' ∨ cmdline[2]? = none)) :
    run_command_dispatch cmdline = Branch.pipeline := by
  obtain ⟨r, rfl⟩ := h
  unfold run_command_dispatch
  rw [if_neg (fun hh => hc hh.2)]
  simp [strncmp_eq]

theorem dispatch_bar (r : CStr) : run_command_dispatch ('|' :: r) = Branch.pipeline := by
  simp [run_command_dispatch, strncmp_eq]

theorem run_command_nonempty (os : Os) (t : Tab) (p : Proc) (hin : t.input ≠ []) :
    run_command os t p =
      match run_command_dispatch (background_detect t.input).2 with
      | Branch.cd =>
        (run_command_cd os (background_detect t.input).2 (run_command_history t), p, Launch.none)
      | Branch.history => (run_command_list_history (run_command_history t), p, Launch.none)
      | Branch.jobs => (run_command_jobs (run_command_history t), p, Launch.none)
      | Branch.kill =>
        ((run_command_kill os (background_detect t.input).2 (run_command_history t) p).1,
          (run_command_kill os (background_detect t.input).2 (run_command_history t) p).2,
          Launch.none)
      | Branch.fg =>
        (run_command_fg (background_detect t.input).2 (run_command_history t), p, Launch.none)
      | Branch.multiWatch =>
        ((run_command_multiWatch (background_detect t.input).2 (run_command_history t) p).1,
          (run_command_multiWatch (background_detect t.input).2 (run_command_history t) p).2,
          Launch.none)
      | Branch.multiWatch_stop =>
        ((run_command_multiWatch_stop (run_command_history t) p).1,
          (run_command_multiWatch_stop (run_command_history t) p).2, Launch.none)
      | Branch.pipeline =>
        run_command_pipeline os (background_detect t.input).2 (background_detect t.input).1
          (run_command_history t) p := by
  have hlen : t.input.length ≠ 0 := fun h => hin (List.length_eq_zero.mp h)
  unfold run_command
  rw [if_neg hlen]

/-- C25: a submitted line that, after the background stripping, begins with
`history`, `jobs`, `kill` or `fg` runs that builtin whatever follows the
keyword, and `run_command` returns from the builtin: no pipe is made and no
child is forked.  A line that begins with `cd` runs the `cd` builtin exactly
when the keyword is followed by a space or by the end of the line; otherwise
it is run as a pipeline. -/
theorem run_command_builtin_by_keyword (os : Os) (t : Tab) (p : Proc) (hin : t.input ≠ []) :
    ("history".toList <+: (background_detect t.input).2 →
      run_command_dispatch (background_detect t.input).2 = Branch.history ∧
      run_command os t p =
        (run_command_list_history (run_command_history t), p, Launch.none)) ∧
    ("jobs".toList <+: (background_detect t.input).2 →
      run_command_dispatch (background_detect t.input).2 = Branch.jobs ∧
      run_command os t p = (run_command_jobs (run_command_history t), p, Launch.none)) ∧
    ("kill".toList <+: (background_detect t.input).2 →
      run_command_dispatch (background_detect t.input).2 = Branch.kill ∧
      run_command os t p =
        ((run_command_kill os (background_detect t.input).2 (run_command_history t) p).1,
          (run_command_kill os (background_detect t.input).2 (run_command_history t) p).2,
          Launch.none)) ∧
    ("fg".toList <+: (background_detect t.input).2 →
      run_command_dispatch (background_detect t.input).2 = Branch.fg ∧
      run_command os t p =
        (run_command_fg (background_detect t.input).2 (run_command_history t), p,
          Launch.none)) ∧
    ("cd".toList <+: (background_detect t.input).2 →
      ((background_detect t.input).2[2]? = some ' ' ∨ (background_detect t.input).2[2]? = none →
        run_command_dispatch (background_detect t.input).2 = Branch.cd ∧
        run_command os t p =
          (run_command_cd os (background_detect t.input).2 (run_command_history t), p,
            Launch.none)) ∧
      (¬ ((background_detect t.input).2[2]? = some ' ' ∨
          (background_detect t.input).2[2]? = none) →
        run_command_dispatch (background_detect t.input).2 = Branch.pipeline ∧
        run_command os t p =
          run_command_pipeline os (background_detect t.input).2 (background_detect t.input).1
            (run_command_history t) p)) := by
  have hrun := run_command_nonempty os t p hin
  refine ⟨fun h => ?_, fun h => ?_, fun h => ?_, fun h => ?_, fun h => ⟨fun hc => ?_, fun hc => ?_⟩⟩
  · have hd := dispatch_history _ h
    rw [hd] at hrun
    exact ⟨hd, hrun⟩
  · have hd := dispatch_jobs _ h
    rw [hd] at hrun
    exact ⟨hd, hrun⟩
  · have hd := dispatch_kill _ h
    rw [hd] at hrun
    exact ⟨hd, hrun⟩
  · have hd := dispatch_fg _ h
    rw [hd] at hrun
    exact ⟨hd, hrun⟩
  · have hd := (dispatch_cd_iff _ h).mpr hc
    rw [hd] at hrun
    exact ⟨hd, hrun⟩
  · have hd := dispatch_cd_other _ h hc
    rw [hd] at hrun
    exact ⟨hd, hrun⟩

/-- C25, instances of `run_command_builtin_by_keyword`: the lines
`fgrep x file`, `killall y` and `jobsx` run the builtins `fg`, `kill` and
`jobs`. -/
theorem run_command_builtin_by_keyword_witness :
    (run_command_dispatch (background_detect "fgrep x file".toList).2 = Branch.fg ∧
      run_command os_example (tab_with_input "fgrep x file".toList) proc_init =
        (run_command_fg (background_detect "fgrep x file".toList).2
          (run_command_history (tab_with_input "fgrep x file".toList)), proc_init,
          Launch.none)) ∧
    (run_command_dispatch (background_detect "killall y".toList).2 = Branch.kill ∧
      run_command os_example (tab_with_input "killall y".toList) proc_init =
        ((run_command_kill os_example (background_detect "killall y".toList).2
            (run_command_history (tab_with_input "killall y".toList)) proc_init).1,
          (run_command_kill os_example (background_detect "killall y".toList).2
            (run_command_history (tab_with_input "killall y".toList)) proc_init).2,
          Launch.none)) ∧
    (run_command_dispatch (background_detect "jobsx".toList).2 = Branch.jobs ∧
      run_command os_example (tab_with_input "jobsx".toList) proc_init =
        (run_command_jobs (run_command_history (tab_with_input "jobsx".toList)), proc_init,
          Launch.none)) :=
  ⟨(run_command_builtin_by_keyword os_example (tab_with_input "fgrep x file".toList) proc_init
      (by decide)).2.2.2.1 (by decide),
    (run_command_builtin_by_keyword os_example (tab_with_input "killall y".toList) proc_init
      (by decide)).2.2.1 (by decide),
    (run_command_builtin_by_keyword os_example (tab_with_input "jobsx".toList) proc_init
      (by decide)).2.1 (by decide)⟩

/-- What the three example lines print: the usage messages of `fg` and
`kill` (no number follows the keyword), and nothing for `jobs` on an empty
table. -/
theorem builtin_examples_log :
    (run_command os_example (tab_with_input "fgrep x file".toList) proc_init).1.tb.lines =
      ["New tab created.".toList, "fgrep x file".toList, "Usage: fg <pid>".toList] ∧
    (run_command os_example (tab_with_input "killall y".toList) proc_init).1.tb.lines =
      ["New tab created.".toList, "killall y".toList, "Usage: kill <pid>".toList] ∧
    (run_command os_example (tab_with_input "jobsx".toList) proc_init).1.tb.lines =
      ["New tab created.".toList, "jobsx".toList] ∧
    (run_command os_example (tab_with_input "cdx".toList) proc_init).2.2 =
      { pipes := 1,
        children := [(100, { argv := ["cdx".toList], infile := none, outfile := none,
                             append_mode := 0 })] } := by
  refine ⟨?_, ?_, ?_, ?_⟩ <;> decide

theorem background_detect_no_amp (input : CStr) (h : '&' ∉ input) :
    background_detect input = (0, input.take (INPUT_MAX - 1)) := by
  have h1 : '&' ∉ input.take (INPUT_MAX - 1) := fun hm => h (List.mem_of_mem_take hm)
  simp [background_detect, strrchr, h1]

/-- C21 (amended): a submitted line that consists only of `|` characters is
split into no stage at all, and `run_command` returns at the test
`ncmds == 0`: besides the echo and the history append nothing is written to
the scrollback, the file-scope variables are unchanged, no pipe is made and
no child is forked. -/
theorem run_command_only_bars (os : Os) (t : Tab) (p : Proc) (hin : t.input ≠ [])
    (hbars : ∀ c ∈ t.input, c = '|') :
    run_command os t p = (run_command_history t, p, Launch.none) := by
  have hamp : '&' ∉ t.input := fun hm => absurd (hbars _ hm) (by decide)
  have hbd := background_detect_no_amp t.input hamp
  have hrun := run_command_nonempty os t p hin
  rw [hbd] at hrun
  simp only at hrun
  have hsplit : split_pipeline (t.input.take (INPUT_MAX - 1)) = [] := by
    unfold split_pipeline
    rw [strtok_all_all_delims '|' _ (fun c hc => hbars c (List.mem_of_mem_take hc))]
    rfl
  have hdisp : run_command_dispatch (t.input.take (INPUT_MAX - 1)) = Branch.pipeline := by
    cases hi : t.input with
    | nil => exact absurd hi hin
    | cons c r =>
      have hc : c = '|' := hbars c (by rw [hi]; exact List.mem_cons_self _ _)
      subst hc
      have : INPUT_MAX - 1 = 8190 + 1 := by decide
      rw [this, List.take_succ_cons]
      exact dispatch_bar _
  rw [hdisp] at hrun
  simp only at hrun
  rw [hrun]
  unfold run_command_pipeline
  rw [hsplit]
  rfl

/-- C21, an instance of `run_command_only_bars`: the line `||`. -/
theorem run_command_only_bars_witness :
    run_command os_example (tab_with_input "||".toList) proc_init =
      (run_command_history (tab_with_input "||".toList), proc_init, Launch.none) :=
  run_command_only_bars os_example (tab_with_input "||".toList) proc_init (by decide)
    (by decide)

/-- C21 as stated fails.  The line `|` has no command word and
`run_command` appends no message: the scrollback ends with the echoed line.
The line of one space has no command word either, and for it one pipe is made
and one child is forked, with an empty argument vector; the scrollback then
reads `Command finished.`. -/
theorem run_command_empty_pipeline_counterexample :
    (run_command os_example (tab_with_input "|".toList) proc_init).1.tb.lines =
        ["New tab created.".toList, "|".toList] ∧
      run_command_dispatch (background_detect " ".toList).2 = Branch.pipeline ∧
      (run_command os_example (tab_with_input " ".toList) proc_init).2.2 =
        { pipes := 1,
          children := [(100, { argv := [], infile := none, outfile := none,
                               append_mode := 0 })] } ∧
      (run_command os_example (tab_with_input " ".toList) proc_init).1.tb.lines =
        ["New tab created.".toList, " ".toList, "Command finished.".toList] := by
  refine ⟨?_, ?_, ?_, ?_⟩ <;> decide


/-! ## Background jobs: polling and the completion message -/

theorem check_job_inactive (poll : JobPoll) (tb : TextBuffer) (j : Job) (h : j.active = 0) :
    check_job poll tb j = (tb, j) := by
  unfold check_job
  rw [if_pos h]

theorem check_job_read_job (poll : JobPoll) (tb : TextBuffer) (j : Job) :
    (check_job_read poll tb j).2 = j ∨
      (check_job_read poll tb j).2 = { j with master_fd := -1 } := by
  unfold check_job_read
  split
  · cases poll.ending
    · exact Or.inr rfl
    · exact Or.inl rfl
    · exact Or.inr rfl
  · exact Or.inl rfl

theorem job_status_msg_fd (j : Job) (fd : Int) (a : Int) (st : WaitStatus) :
    job_status_msg { j with master_fd := fd, active := a } st = job_status_msg j st := by
  cases st <;> rfl

theorem job_status_msg_line (j : Job) (st : WaitStatus) (hnl : '\n' ∉ j.cmd) :
    job_status_msg j st ≠ [] ∧ '\n' ∉ job_status_msg j st := by
  have app : ∀ a b : CStr, '\n' ∉ a → '\n' ∉ b → '\n' ∉ a ++ b :=
    fun a b ha hb h => (List.mem_append.mp h).elim ha hb
  cases st with
  | exited code =>
    apply snprintf256_line
    · simp
    · exact app _ _ (app _ _ (app _ _ (app _ _ (app _ _ (by decide) (fmt_d_no_newline _))
        (by decide)) (fmt_d_no_newline _)) (by decide)) hnl
  | signaled sig =>
    apply snprintf256_line
    · simp
    · exact app _ _ (app _ _ (app _ _ (app _ _ (app _ _ (by decide) (fmt_d_no_newline _))
        (by decide)) (fmt_d_no_newline _)) (by decide)) hnl
  | other =>
    apply snprintf256_line
    · simp
    · exact app _ _ (app _ _ (app _ _ (by decide) (fmt_d_no_newline _)) (by decide)) hnl

/-- The visit of an active job whose process has ended. -/
theorem check_job_reaped (poll : JobPoll) (tb : TextBuffer) (j : Job) (st : WaitStatus)
    (hact : j.active ≠ 0) (hwait : poll.wait = some st) (hfd : -1 ≤ j.master_fd) :
    check_job poll tb j =
      (tb_append (check_job_read poll tb j).1 (job_status_msg j st),
        { j with active := 0, master_fd := -1 }) := by
  unfold check_job
  rw [if_neg hact]
  simp only [hwait]
  rcases check_job_read_job poll tb j with h | h
  · rw [h]
    by_cases hge : j.master_fd ≥ 0
    · simp only [hge, if_true, job_status_msg_fd]
    · have hm : j.master_fd = -1 := by omega
      simp only [hge, if_false]
      have hj : ({ j with active := 0 } : Job) = { j with active := 0, master_fd := -1 } := by
        rw [← hm]
      rw [hj, job_status_msg_fd]
  · rw [h]
    have hneg : ¬ ((-1 : Int) ≥ 0) := by decide
    simp only [hneg, if_false]
    have hst := job_status_msg_fd j (-1) 0 st
    rw [hst]

theorem check_job_waiting (poll : JobPoll) (tb : TextBuffer) (j : Job)
    (hact : j.active ≠ 0) (hwait : poll.wait = none) :
    check_job poll tb j = check_job_read poll tb j ∧
      (check_job poll tb j).2.active = j.active := by
  have h1 : check_job poll tb j = check_job_read poll tb j := by
    unfold check_job
    rw [if_neg hact]
    simp only [hwait]
  refine ⟨h1, ?_⟩
  rw [h1]
  rcases check_job_read_job poll tb j with h | h <;> rw [h]

theorem check_jobs_loop_append (polls : Nat → JobPoll) (js1 : List Job) :
    ∀ (i : Nat) (js2 : List Job) (tb : TextBuffer),
      check_jobs_loop polls i (js1 ++ js2) tb =
        ((check_jobs_loop polls (i + js1.length) js2 (check_jobs_loop polls i js1 tb).1).1,
          (check_jobs_loop polls i js1 tb).2 ++
            (check_jobs_loop polls (i + js1.length) js2 (check_jobs_loop polls i js1 tb).1).2) := by
  induction js1 with
  | nil => intro i js2 tb; rfl
  | cons j js ih =>
    intro i js2 tb
    simp only [List.cons_append, check_jobs_loop, List.length_cons, List.append_eq]
    rw [ih]
    have : i + 1 + js.length = i + (js.length + 1) := by omega
    rw [this]

theorem check_jobs_loop_length (polls : Nat → JobPoll) (js : List Job) :
    ∀ (i : Nat) (tb : TextBuffer), (check_jobs_loop polls i js tb).2.length = js.length := by
  induction js with
  | nil => intro i tb; rfl
  | cons j js ih =>
    intro i tb
    simp only [check_jobs_loop, List.length_cons, ih]

/-- The decomposition of one `check_jobs` call at the position of a job. -/
theorem check_jobs_at (polls : Nat → JobPoll) (t : Tab) (js1 js2 : List Job) (j : Job)
    (hjobs : t.jobs = js1 ++ j :: js2) :
    check_jobs polls t =
      { t with
        tb := (check_jobs_loop polls (js1.length + 1) js2
          (check_job (polls js1.length) (check_jobs_loop polls 0 js1 t.tb).1 j).1).1,
        jobs := (check_jobs_loop polls 0 js1 t.tb).2 ++
          (check_job (polls js1.length) (check_jobs_loop polls 0 js1 t.tb).1 j).2 ::
          (check_jobs_loop polls (js1.length + 1) js2
            (check_job (polls js1.length) (check_jobs_loop polls 0 js1 t.tb).1 j).1).2 } := by
  unfold check_jobs
  rw [hjobs, check_jobs_loop_append]
  simp only [check_jobs_loop, Nat.zero_add]

theorem check_jobs_inactive_stays (polls : Nat → JobPoll) (t : Tab) (k : Nat) (j : Job)
    (hk : t.jobs[k]? = some j) (hact : j.active = 0) :
    (check_jobs polls t).jobs[k]? = some j := by
  have hlt : k < t.jobs.length := by
    rcases Nat.lt_or_ge k t.jobs.length with h | h
    · exact h
    · rw [List.getElem?_eq_none h] at hk
      exact absurd hk (by simp)
  have hsplit : t.jobs = t.jobs.take k ++ j :: t.jobs.drop (k + 1) := by
    have hget : t.jobs[k] = j := by
      rw [List.getElem?_eq_getElem hlt] at hk
      exact Option.some.inj hk
    rw [← hget]
    have h1 := List.take_append_drop k t.jobs
    rw [List.drop_eq_getElem_cons hlt] at h1
    exact h1.symm
  have hlen : (t.jobs.take k).length = k := by
    rw [List.length_take]
    omega
  rw [check_jobs_at polls t _ _ j hsplit, check_job_inactive _ _ _ hact]
  simp only
  rw [List.getElem?_append_right (by rw [check_jobs_loop_length, hlen])]
  rw [check_jobs_loop_length, hlen, Nat.sub_self]
  exact List.getElem?_cons_zero

theorem check_jobs_seq_inactive_stays (seq : List (Nat → JobPoll)) :
    ∀ (t : Tab) (k : Nat) (j : Job), t.jobs[k]? = some j → j.active = 0 →
      (seq.foldl (fun u q => check_jobs q u) t).jobs[k]? = some j := by
  induction seq with
  | nil => intro t k j hk _; exact hk
  | cons q seq ih =>
    intro t k j hk hact
    simp only [List.foldl_cons]
    exact ih _ k j (check_jobs_inactive_stays q t k j hk hact) hact

/-- C22 (amended): for the job at any position of the table, with a
descriptor that is open or -1.  One `check_jobs` call visits the job once, on
the scrollback left by the jobs before it.  While the job is active and
`waitpid` reports nothing, the visit appends the output read and no status
message.  In the call in which `waitpid` reports the end of the process the
visit marks the job inactive, sets its descriptor to -1 and appends one status
message, of the form `[pid] Done (exit N)  cmd`, `[pid] Terminated by signal N
cmd` or `[pid] Done  cmd` cut to 255 bytes; the message is one line of the
scrollback when the label holds no newline.  The visit of an inactive job
changes neither the scrollback nor the job, and through every later sequence
of `check_jobs` calls, whatever `read` and `waitpid` answer, the job stays as
that call left it. -/
theorem check_jobs_status_once (polls : Nat → JobPoll) (t : Tab) (js1 js2 : List Job)
    (j : Job) (hjobs : t.jobs = js1 ++ j :: js2) (hfd : -1 ≤ j.master_fd) :
    check_jobs polls t =
        { t with
          tb := (check_jobs_loop polls (js1.length + 1) js2
            (check_job (polls js1.length) (check_jobs_loop polls 0 js1 t.tb).1 j).1).1,
          jobs := (check_jobs_loop polls 0 js1 t.tb).2 ++
            (check_job (polls js1.length) (check_jobs_loop polls 0 js1 t.tb).1 j).2 ::
            (check_jobs_loop polls (js1.length + 1) js2
              (check_job (polls js1.length) (check_jobs_loop polls 0 js1 t.tb).1 j).1).2 } ∧
      (∀ (poll : JobPoll) (tb : TextBuffer), j.active ≠ 0 → poll.wait = none →
        check_job poll tb j = check_job_read poll tb j ∧
          (check_job poll tb j).2.active = j.active) ∧
      (∀ (poll : JobPoll) (tb : TextBuffer) (st : WaitStatus), j.active ≠ 0 →
        poll.wait = some st →
        check_job poll tb j =
            (tb_append (check_job_read poll tb j).1 (job_status_msg j st),
              { j with active := 0, master_fd := -1 }) ∧
          ('\n' ∉ j.cmd →
            (check_job poll tb j).1 =
              tb_store (check_job_read poll tb j).1 (job_status_msg j st))) ∧
      (∀ (poll : JobPoll) (tb : TextBuffer) (j1 : Job), j1.active = 0 →
        check_job poll tb j1 = (tb, j1)) ∧
      (∀ (st : WaitStatus) (seq : List (Nat → JobPoll)), j.active ≠ 0 →
        (polls js1.length).wait = some st →
        (seq.foldl (fun u q => check_jobs q u) (check_jobs polls t)).jobs[js1.length]? =
          some { j with active := 0, master_fd := -1 }) := by
  refine ⟨check_jobs_at polls t js1 js2 j hjobs, ?_, ?_, ?_, ?_⟩
  · intro poll tb hact hwait
    exact check_job_waiting poll tb j hact hwait
  · intro poll tb st hact hwait
    have h := check_job_reaped poll tb j st hact hwait hfd
    refine ⟨h, fun hnl => ?_⟩
    rw [h]
    exact tb_append_line _ _ (job_status_msg_line j st hnl).1 (job_status_msg_line j st hnl).2
  · intro poll tb j1 h
    exact check_job_inactive poll tb j1 h
  · intro st seq hact hwait
    apply check_jobs_seq_inactive_stays
    · rw [check_jobs_at polls t js1 js2 j hjobs]
      simp only
      rw [List.getElem?_append_right (by rw [check_jobs_loop_length])]
      rw [check_jobs_loop_length, Nat.sub_self,
        check_job_reaped _ _ j st hact hwait hfd]
      exact List.getElem?_cons_zero
    · rfl

/-- C22, an instance of `check_jobs_status_once`: the job that `sleep 5 &`
registers (pid 100, descriptor 3), polled when its process has exited with
status 0 and nothing is left to read; the message is one line of the
scrollback, and the job is inactive with descriptor -1. -/
theorem check_jobs_status_once_witness :
    check_job { chunks := [], ending := ReadEnd.eof, wait := some (WaitStatus.exited 0) }
        (create_tab none).tb
        { pid := 100, master_fd := 3, active := 1, cmd := "sleep 5 &".toList } =
      (tb_store (create_tab none).tb "[100] Done (exit 0)  sleep 5 &".toList,
        { pid := 100, master_fd := -1, active := 0, cmd := "sleep 5 &".toList }) := by
  have h := (check_jobs_status_once
    (fun _ => { chunks := [], ending := ReadEnd.eof, wait := some (WaitStatus.exited 0) })
    (add_job (create_tab none) 100 3 "sleep 5 &".toList) [] []
    { pid := 100, master_fd := 3, active := 1, cmd := "sleep 5 &".toList }
    (by decide) (by decide)).2.2.1
    { chunks := [], ending := ReadEnd.eof, wait := some (WaitStatus.exited 0) }
    (create_tab none).tb (WaitStatus.exited 0) (by decide) rfl
  have h2 := h.2 (by decide)
  exact Prod.ext h2 (congrArg Prod.snd h.1)

/-- C22 as stated fails for a label that holds a newline.  The two-line
command `echo a` / `b &` (typed with a backslash continuation) is launched in
the background and registered with its text as label; when its process has
exited, `check_jobs` appends the status message, which `tb_append` stores as
two lines. -/
theorem check_jobs_multiline_label_counterexample :
    (run_command os_example (tab_with_input "echo a\nb &".toList) proc_init).1.jobs =
        [{ pid := 100, master_fd := 3, active := 1, cmd := "echo a\nb &".toList }] ∧
      (run_command os_example (tab_with_input "echo a\nb &".toList) proc_init).1.tb.lines =
        ["New tab created.".toList, "echo a".toList, "b &".toList,
          "[100] running in background".toList] ∧
      (check_jobs
        (fun _ => { chunks := [], ending := ReadEnd.eof, wait := some (WaitStatus.exited 0) })
        (run_command os_example (tab_with_input "echo a\nb &".toList) proc_init).1).tb.lines =
        ["New tab created.".toList, "echo a".toList, "b &".toList,
          "[100] running in background".toList,
          "[100] Done (exit 0)  echo a".toList, "b &".toList] := by
  refine ⟨?_, ?_, ?_⟩ <;> decide


/-! ## The input line and its cursor -/

theorem cursor_ok_insert (c : Char) (t : Tab) (h : cursor_ok t) :
    ∃ u, key_insert c t = some u ∧ cursor_ok u := by
  obtain ⟨h0, h1, h2⟩ := h
  unfold key_insert
  by_cases hg : isprint c ∧ t.input.length + 1 < INPUT_MAX - 1
  · rw [if_pos hg, if_pos ⟨h0, h1⟩]
    refine ⟨_, rfl, ?_⟩
    have hmax : INPUT_MAX = 8192 := rfl
    have hlen : (t.input.take t.cursor_pos.toNat ++ c :: t.input.drop t.cursor_pos.toNat).length
        = t.input.length + 1 := by
      simp only [List.length_append, List.length_take, List.length_cons, List.length_drop]
      omega
    refine ⟨?_, ?_, ?_⟩
    · show 0 ≤ t.cursor_pos + 1
      omega
    · show t.cursor_pos + 1 ≤ Int.ofNat _
      rw [hlen]
      simp only [Int.ofNat_eq_coe, Nat.cast_add, Nat.cast_one] at h1 ⊢
      omega
    · show _ < INPUT_MAX
      rw [hlen]
      have := hg.2
      omega
  · rw [if_neg hg]
    exact ⟨t, rfl, h0, h1, h2⟩

theorem cursor_ok_backspace (t : Tab) (h : cursor_ok t) :
    ∃ u, key_backspace t = some u ∧ cursor_ok u := by
  obtain ⟨h0, h1, h2⟩ := h
  unfold key_backspace
  by_cases hg : t.cursor_pos > 0
  · rw [if_pos hg, if_pos h1]
    refine ⟨_, rfl, ?_⟩
    simp only [Int.ofNat_eq_coe] at h1
    have hlen : (t.input.take (t.cursor_pos.toNat - 1) ++ t.input.drop t.cursor_pos.toNat).length
        = t.input.length - 1 := by
      simp only [List.length_append, List.length_take, List.length_drop]
      omega
    refine ⟨?_, ?_, ?_⟩
    · show 0 ≤ t.cursor_pos - 1
      omega
    · show t.cursor_pos - 1 ≤ Int.ofNat _
      rw [hlen]
      simp only [Int.ofNat_eq_coe]
      omega
    · show _ < INPUT_MAX
      rw [hlen]
      omega
  · rw [if_neg hg]
    exact ⟨t, rfl, h0, h1, h2⟩

theorem cursor_ok_ctrl (t : Tab) (h : cursor_ok t) :
    cursor_ok (key_ctrl_a t) ∧ cursor_ok (key_ctrl_e t) := by
  obtain ⟨h0, h1, h2⟩ := h
  refine ⟨⟨Int.le_refl _, ?_, h2⟩, ⟨?_, Int.le_refl _, h2⟩⟩
  · exact Int.ofNat_nonneg _
  · exact Int.ofNat_nonneg _

theorem cursor_ok_enter (t : Tab) (h : cursor_ok t) : cursor_ok (key_enter t) := by
  obtain ⟨h0, h1, h2⟩ := h
  unfold key_enter
  split
  · rename_i hc
    have hne : t.input ≠ [] := by
      intro he
      rw [he] at hc
      exact absurd hc.1 (by decide)
    have hlen : (t.input.dropLast ++ ['\n']).length = t.input.length := by
      have := List.length_pos.mpr hne
      simp only [List.length_append, List.length_dropLast, List.length_singleton]
      omega
    refine ⟨h0, ?_, ?_⟩
    · show t.cursor_pos ≤ Int.ofNat (t.input.dropLast ++ ['\n']).length
      rw [hlen]
      exact h1
    · show (t.input.dropLast ++ ['\n']).length < INPUT_MAX
      rw [hlen]
      exact h2
  · refine ⟨Int.le_refl _, Int.le_refl _, ?_⟩
    show ([] : CStr).length < INPUT_MAX
    decide

/-- C24: the cursor invariant does not hold in every state that the key
handlers reach.  On a fresh tab the keys `l`, `s`, Enter, `a`, `b`, `c`, Up
leave the recalled line `ls` (`input_len = 2`) with `cursor_pos = 3`: the Up
handler replaces the line and its length and leaves the cursor where it was.
The next insertion then calls `memmove` with the length `2 - 3`.  The Down
handler does the same: the keys `l`, `s`, Enter, Up, Ctrl+E, Down leave the
empty line with `cursor_pos = 2`. -/
theorem key_up_breaks_cursor_invariant :
    cursor_ok (create_tab none) ∧
      (key_seq [Key.char 'l', Key.char 's', Key.enter, Key.char 'a', Key.char 'b',
          Key.char 'c', Key.up] (create_tab none)).map (fun t => (t.input, t.cursor_pos)) =
        some ("ls".toList, 3) ∧
      (∃ u, key_seq [Key.char 'l', Key.char 's', Key.enter, Key.char 'a', Key.char 'b',
          Key.char 'c', Key.up] (create_tab none) = some u ∧ ¬ cursor_ok u) ∧
      key_seq [Key.char 'l', Key.char 's', Key.enter, Key.char 'a', Key.char 'b',
          Key.char 'c', Key.up, Key.char 'x'] (create_tab none) = none ∧
      (key_seq [Key.char 'l', Key.char 's', Key.enter, Key.up, Key.ctrl_e, Key.down]
          (create_tab none)).map (fun t => (t.input, t.cursor_pos)) = some ([], 2) := by
  refine ⟨by decide, by decide, ?_, by decide, by decide⟩
  cases h : key_seq [Key.char 'l', Key.char 's', Key.enter, Key.char 'a', Key.char 'b',
      Key.char 'c', Key.up] (create_tab none) with
  | none => exact absurd h (by decide)
  | some u =>
    refine ⟨u, rfl, ?_⟩
    have h2 : (key_seq [Key.char 'l', Key.char 's', Key.enter, Key.char 'a', Key.char 'b',
        Key.char 'c', Key.up] (create_tab none)).map (fun t => (t.input, t.cursor_pos)) =
        some ("ls".toList, 3) := by decide
    rw [h] at h2
    have h3 : (u.input, u.cursor_pos) = ("ls".toList, 3) := Option.some.inj h2
    have hi : u.input = "ls".toList := congrArg Prod.fst h3
    have hc : u.cursor_pos = 3 := congrArg Prod.snd h3
    intro hok
    have := hok.2.1
    rw [hi, hc] at this
    exact absurd this (by decide)

theorem cursor_ok_autocomplete (dir : Option (List CStr)) (t : Tab) (h : cursor_ok t) :
    ∀ u, autocomplete dir t = some u → cursor_ok u := by
  intro u hu
  unfold autocomplete at hu
  dsimp only at hu
  generalize (match strrchr t.input ' ' with
    | some i => List.take (i + 1) t.input
    | none => []) = head at hu
  generalize (match strrchr t.input ' ' with
    | some i => List.drop (i + 1) t.input
    | none => t.input) = pre at hu
  repeat' split at hu
  all_goals first
    | (cases hu; exact h)
    | (cases hu; exact ⟨Int.ofNat_nonneg _, Int.le_refl _, (by assumption : _ ∧ _).2⟩)
    | cases hu

/-- The input line of a two-line command is reached with the keys of the main
loop: `echo a`, a backslash, Enter (the line continues), then `b &`. -/
theorem multiline_input_reachable :
    (key_seq [Key.char 'e', Key.char 'c', Key.char 'h', Key.char 'o', Key.char ' ',
        Key.char 'a', Key.char '\\', Key.enter, Key.char 'b', Key.char ' ', Key.char '&']
        (create_tab none)).map (fun t => t.input) = some "echo a\nb &".toList := by
  decide

end MyTerm
